import Mathlib

/-!
Webserver: timer heap, byte buffer, reactor and thread pool.

A shallow embedding of `code/timer/heaptimer.{h,cpp}`, `code/buffer/buffer.{h,cpp}`,
`code/server/webserver.cpp` and `code/pool/threadpool.h`.

Conventions of the embedding.

* `size_t` values are natural numbers; the places where the C++ arithmetic can wrap
  (`i - 1` in `siftup_`, `i * 2 + 1` in `siftdown_`, the conversions to `size_t` and
  to `int` in `GetNextTick`, the sums and differences of `EnsureWriteable` and
  `MakeSpace_` for an arbitrary argument) are written with an explicit modulus.
* `std::vector` is a `List`; `heap_[k]` with `k` outside the vector is undefined
  behaviour in C++ and is the fault `outOfRange` here; a failing `assert` is the
  fault `assertFailed`.
* `std::unordered_map<int, size_t>` is a partial function `Int → Option Nat`.
* A time point is its tick count (nanoseconds, the period of
  `std::chrono::high_resolution_clock` in libstdc++ and libc++); every call of
  `Clock::now()` is a reading supplied by the caller.
* A callback is an opaque tag; invoking it is recorded, in order, in the list of
  fired nodes that the operations return.
-/

namespace Webserver

/-! ## Faults -/

/-- The ways in which a run of the C++ code can fail to produce a state. -/
inductive Fault where
  /-- an `assert(...)` of the source evaluates to false -/
  | assertFailed
  /-- a vector element is accessed at a position that is not below `size()` -/
  | outOfRange
  /-- `std::vector::resize` is asked for more than `max_size()` elements and throws
  `std::length_error` -/
  | lengthError
  /-- the loop bound of the embedding was reached; this never happens, see
  `siftup__no_fuel`, `siftdownLoop_total` and `tickLoop_no_fuel` -/
  | fuel
  deriving DecidableEq, Repr

/-! ## heaptimer.h -/

/-- `struct TimerNode { int id; TimeStamp expires; TimeoutCallBack cb; }`. -/
structure TimerNode where
  id : Int
  expires : Int
  cb : Nat
  deriving DecidableEq, Repr

/-- `bool operator<(const TimerNode& t) { return expires < t.expires; }`. -/
def TimerNode.lt (a b : TimerNode) : Bool := decide (a.expires < b.expires)

/-- `class HeapTimer`: the vector `heap_` and the side index `ref_`. -/
structure HeapTimer where
  heap_ : List TimerNode
  ref_ : Int → Option Nat

/-- Number of values of `size_t` (64 bit). -/
def SIZE_T_MOD : Nat := 18446744073709551616

/-- Ticks of the clock in one millisecond: `MS` is `std::chrono::milliseconds`, the
clock counts nanoseconds. -/
def TICKS_PER_MS : Int := 1000000

/-- `MS(timeout)` converted to the duration type of the clock. -/
def MS (timeout : Int) : Int := timeout * TICKS_PER_MS

/-- `std::chrono::duration_cast<MS>(d).count()`: integer division that truncates
toward zero. -/
def durationCastMS (d : Int) : Int := Int.tdiv d TICKS_PER_MS

/-- `ref_[id] = i`. -/
def refSet (r : Int → Option Nat) (id : Int) (i : Nat) : Int → Option Nat :=
  fun k => if k = id then some i else r k

/-- `ref_.erase(id)`. -/
def refErase (r : Int → Option Nat) (id : Int) : Int → Option Nat :=
  fun k => if k = id then none else r k

/-- The heap a `HeapTimer` is constructed with. -/
def HeapTimer.empty : HeapTimer := { heap_ := [], ref_ := fun _ => none }

/-! ## heaptimer.cpp -/

/-- `(i - 1) / 2` on `size_t`: at `i = 0` the subtraction wraps to `2^64 - 1`. -/
def parentIdx (i : Nat) : Nat := ((i + SIZE_T_MOD - 1) % SIZE_T_MOD) / 2

/-- `i * 2 + 1` on `size_t`. -/
def childIdx (i : Nat) : Nat := (i * 2 + 1) % SIZE_T_MOD

/-- `HeapTimer::SwapNode_(i, j)`: both asserts are the bounds checks of the two
element accesses; then `std::swap(heap_[i], heap_[j])`, `ref_[heap_[i].id] = i`,
`ref_[heap_[j].id] = j`. -/
def SwapNode_ (t : HeapTimer) (i j : Nat) : Except Fault HeapTimer :=
  match t.heap_[i]?, t.heap_[j]? with
  | some a, some b =>
    .ok { heap_ := (t.heap_.set i b).set j a
          ref_ := refSet (refSet t.ref_ b.id i) a.id j }
  | _, _ => .error .assertFailed

/-- The `while(j >= 0)` loop of `siftup_`: the condition is always true for a
`size_t`, so the loop is left only through `break`. Each round reads `heap_[j]` and
`heap_[i]`. -/
def siftupLoop : Nat → HeapTimer → Nat → Nat → Except Fault HeapTimer
  | 0, _, _, _ => .error .fuel
  | fuel + 1, t, i, j =>
    match t.heap_[j]?, t.heap_[i]? with
    | some pj, some pi =>
      if pj.lt pi then .ok t
      else
        match SwapNode_ t i j with
        | .ok t1 => siftupLoop fuel t1 j (parentIdx j)
        | .error e => .error e
    | _, _ => .error .outOfRange

/-- `HeapTimer::siftup_(i)`. The node climbs to a strictly smaller position in every
round, so `heap_.size() + 1` rounds are enough for every vector of fewer than `2^63`
nodes. -/
def siftup_ (t : HeapTimer) (i : Nat) : Except Fault HeapTimer :=
  if i < t.heap_.length then siftupLoop (t.heap_.length + 1) t i (parentIdx i)
  else .error .assertFailed

/-- The statement `if(j + 1 < n && heap_[j + 1] < heap_[j]) j++;` of `siftdown_`:
the position of the child that is compared with the node. -/
def pickChild (t : HeapTimer) (n j : Nat) : Except Fault Nat :=
  if j + 1 < n then
    match t.heap_[j + 1]?, t.heap_[j]? with
    | some r, some l => if r.lt l then .ok (j + 1) else .ok j
    | _, _ => .error .outOfRange
  else .ok j

/-- The `while(j < n)` loop of `siftdown_`; the result carries the final value of
`i`. -/
def siftdownLoop : Nat → HeapTimer → Nat → Nat → Nat → Except Fault (HeapTimer × Nat)
  | 0, _, _, _, _ => .error .fuel
  | fuel + 1, t, n, i, j =>
    if j < n then
      match pickChild t n j with
      | .error e => .error e
      | .ok c =>
        match t.heap_[i]?, t.heap_[c]? with
        | some a, some b =>
          if a.lt b then .ok (t, i)
          else
            match SwapNode_ t i c with
            | .ok t1 => siftdownLoop fuel t1 n c (childIdx c)
            | .error e => .error e
        | _, _ => .error .outOfRange
    else .ok (t, i)

/-- `HeapTimer::siftdown_(index, n)`, returning `i > index`. -/
def siftdown_ (t : HeapTimer) (index n : Nat) : Except Fault (HeapTimer × Bool) :=
  if index < t.heap_.length ∧ n ≤ t.heap_.length then
    match siftdownLoop (t.heap_.length + 1) t n index (childIdx index) with
    | .ok (t1, i) => .ok (t1, decide (index < i))
    | .error e => .error e
  else .error .assertFailed

/-- The tail shared by the update branch of `add` and by `del_`:
`if(!siftdown_(i, n)) { siftup_(i); }`. -/
def siftDownOrUp (t : HeapTimer) (i n : Nat) : Except Fault HeapTimer :=
  match siftdown_ t i n with
  | .ok (t1, moved) => if moved then .ok t1 else siftup_ t1 i
  | .error e => .error e

/-- `HeapTimer::add(id, timeout, cb)`; `now` is the reading of `Clock::now()` that
the call takes. -/
def add (t : HeapTimer) (now : Int) (id : Int) (timeout : Int) (cb : Nat) :
    Except Fault HeapTimer :=
  if id < 0 then .error .assertFailed
  else
    match t.ref_ id with
    | none =>
      let i := t.heap_.length
      siftup_ { heap_ := t.heap_ ++ [{ id := id, expires := now + MS timeout, cb := cb }]
                ref_ := refSet t.ref_ id i } i
    | some i =>
      match t.heap_[i]? with
      | none => .error .outOfRange
      | some nd =>
        let t1 : HeapTimer :=
          { t with heap_ := t.heap_.set i { nd with expires := now + MS timeout, cb := cb } }
        siftDownOrUp t1 i t1.heap_.length

/-- `HeapTimer::del_(index)`. -/
def del_ (t : HeapTimer) (index : Nat) : Except Fault HeapTimer :=
  if index < t.heap_.length then
    let n := t.heap_.length - 1
    let moved : Except Fault HeapTimer :=
      if index < n then
        match SwapNode_ t index n with
        | .ok t1 => siftDownOrUp t1 index n
        | .error e => .error e
      else .ok t
    match moved with
    | .ok t2 =>
      match t2.heap_.getLast? with
      | some last => .ok { heap_ := t2.heap_.dropLast, ref_ := refErase t2.ref_ last.id }
      | none => .error .outOfRange
    | .error e => .error e
  else .error .assertFailed

/-- `HeapTimer::doWork(id)`; the second component lists the node whose callback was
invoked. -/
def doWork (t : HeapTimer) (id : Int) : Except Fault (HeapTimer × List TimerNode) :=
  if t.heap_.isEmpty then .ok (t, [])
  else
    match t.ref_ id with
    | none => .ok (t, [])
    | some i =>
      match t.heap_[i]? with
      | none => .error .outOfRange
      | some node =>
        match del_ t i with
        | .ok t1 => .ok (t1, [node])
        | .error e => .error e

/-- `HeapTimer::adjust(id, timeout)`. -/
def adjust (t : HeapTimer) (now : Int) (id : Int) (timeout : Int) : Except Fault HeapTimer :=
  if t.heap_.isEmpty then .error .assertFailed
  else
    match t.ref_ id with
    | none => .error .assertFailed
    | some i =>
      match t.heap_[i]? with
      | none => .error .outOfRange
      | some nd =>
        let t1 : HeapTimer :=
          { t with heap_ := t.heap_.set i { nd with expires := now + MS timeout } }
        match siftdown_ t1 i t1.heap_.length with
        | .ok (t2, _) => .ok t2
        | .error e => .error e

/-- `HeapTimer::pop()`. -/
def pop (t : HeapTimer) : Except Fault HeapTimer :=
  if t.heap_.isEmpty then .error .assertFailed else del_ t 0

/-- `HeapTimer::clear()`. -/
def clear (_t : HeapTimer) : HeapTimer := { heap_ := [], ref_ := fun _ => none }

/-- The `while(!heap_.empty())` loop of `tick`. `clock k` is the `k`-th reading of
`Clock::now()`; the loop takes one reading per round. The result carries the nodes
whose callbacks were invoked, in order, and the number of readings taken so far. -/
def tickLoop : Nat → HeapTimer → (Nat → Int) → Nat → List TimerNode →
    Except Fault (HeapTimer × List TimerNode × Nat)
  | 0, _, _, _, _ => .error .fuel
  | fuel + 1, t, clock, k, fired =>
    match t.heap_.head? with
    | none => .ok (t, fired, k)
    | some node =>
      if durationCastMS (node.expires - clock k) > 0 then .ok (t, fired, k + 1)
      else
        match pop t with
        | .ok t1 => tickLoop fuel t1 clock (k + 1) (fired ++ [node])
        | .error e => .error e

/-- `HeapTimer::tick()`: every round that does not leave the loop removes one node,
so `heap_.size() + 1` rounds are enough. -/
def tick (t : HeapTimer) (clock : Nat → Int) :
    Except Fault (HeapTimer × List TimerNode × Nat) :=
  tickLoop (t.heap_.length + 1) t clock 0 []

/-- Conversion of an `int64` count to `size_t`. -/
def toSizeT (x : Int) : Nat := (x % (SIZE_T_MOD : Int)).toNat

/-- Conversion of a `size_t` to `int` (32 bit, two's complement). -/
def sizeTToInt (x : Nat) : Int :=
  let r := x % 4294967296
  if r < 2147483648 then (r : Int) else (r : Int) - 4294967296

/-- `HeapTimer::GetNextTick()`. The local `res` is a `size_t`, so the test
`res < 0` is never true and the assignment `res = 0` is never executed. -/
def GetNextTick (t : HeapTimer) (clock : Nat → Int) :
    Except Fault (HeapTimer × List TimerNode × Int) :=
  match tick t clock with
  | .error e => .error e
  | .ok (t1, fired, k) =>
    let res : Nat :=
      match t1.heap_.head? with
      | none => toSizeT (-1)
      | some front => toSizeT (durationCastMS (front.expires - clock k))
    .ok (t1, fired, sizeTToInt res)

/-! ## buffer.h, buffer.cpp

The cursors `readPos_` and `writePos_` and the lengths of byte strings are sizes of
objects held in memory, hence far below `2^64`: in `Append`, `ReadFd` and `WriteFd`,
whose lengths are those of the bytes they are given, no addition of the source wraps,
and the functions below compute on natural numbers. The differences
`writePos_ - readPos_` and `buffer_.size() - writePos_` are exact whenever the cursor
invariant `readPos_ ≤ writePos_ ≤ buffer_.size()` holds, which is a hypothesis or a
proved consequence wherever they are used. `EnsureWriteable(len)` is also public with
an arbitrary `size_t` argument: `SizeT.EnsureWriteable` and `SizeT.MakeSpace_` are the
same two functions with the `size_t` arithmetic of the source written out, and
`sizeT_EnsureWriteable_eq` shows that the two pairs agree wherever
`writePos_ + len + 1` is a size that the vector can have. A pointer into the vector is
its offset from `BeginPtr_()`; forming `&*buffer_.begin()` accesses no byte and is not
modelled; `buffer_[0]` on a vector of size 0 is an element access outside the vector
and is the fault `outOfRange`, as in the timer. Allocation within `max_size()` is taken
to succeed. -/

/-- One `char` of the buffer. -/
abbrev Byte := Fin 256

/-- `class Buffer`: the vector `buffer_` and the two cursors. -/
structure Buffer where
  buffer_ : List Byte
  readPos_ : Nat
  writePos_ : Nat
  deriving DecidableEq, Repr

/-- `Buffer::Buffer(initBuffSize)`: a vector of `initBuffSize` zero bytes, both cursors
at 0. -/
def Buffer.init (initBuffSize : Nat) : Buffer :=
  { buffer_ := List.replicate initBuffSize 0, readPos_ := 0, writePos_ := 0 }

/-- `Buffer::ReadableBytes()`. -/
def Buffer.ReadableBytes (b : Buffer) : Nat := b.writePos_ - b.readPos_

/-- `Buffer::WritableBytes()`. -/
def Buffer.WritableBytes (b : Buffer) : Nat := b.buffer_.length - b.writePos_

/-- `Buffer::PrependableBytes()`. -/
def Buffer.PrependableBytes (b : Buffer) : Nat := b.readPos_

/-- The bytes seen through `Peek()`: the `ReadableBytes()` bytes from `readPos_` on. -/
def Buffer.Peek (b : Buffer) : List Byte :=
  (b.buffer_.drop b.readPos_).take b.ReadableBytes

/-- `std::vector<char>::resize(n)`: truncate, or pad with zero bytes. -/
def vectorResize (v : List Byte) (n : Nat) : List Byte :=
  v.take n ++ List.replicate (n - v.length) 0

/-- `std::copy(src.begin(), src.end(), v.begin() + pos)` for a source that fits. -/
def copyInto (v : List Byte) (pos : Nat) (src : List Byte) : List Byte :=
  v.take pos ++ src ++ v.drop (pos + src.length)

/-- `Buffer::Retrieve(len)`. -/
def Buffer.Retrieve (b : Buffer) (len : Nat) : Except Fault Buffer :=
  if len ≤ b.ReadableBytes then .ok { b with readPos_ := b.readPos_ + len }
  else .error .assertFailed

/-- `Buffer::RetrieveUntil(end)`; the pointer `end` is given by its offset from
`BeginPtr_()`. -/
def Buffer.RetrieveUntil (b : Buffer) (endPos : Nat) : Except Fault Buffer :=
  if b.readPos_ ≤ endPos then b.Retrieve (endPos - b.readPos_)
  else .error .assertFailed

/-- `Buffer::RetrieveAll()`: `bzero(&buffer_[0], buffer_.size())`, both cursors to 0.
The argument `&buffer_[0]` accesses element 0 of the vector, which an empty vector does
not have. -/
def Buffer.RetrieveAll (b : Buffer) : Except Fault Buffer :=
  if b.buffer_.length = 0 then .error .outOfRange
  else .ok { buffer_ := List.replicate b.buffer_.length 0, readPos_ := 0, writePos_ := 0 }

/-- `Buffer::HasWritten(len)`. -/
def Buffer.HasWritten (b : Buffer) (len : Nat) : Buffer :=
  { b with writePos_ := b.writePos_ + len }

/-- `Buffer::MakeSpace_(len)` for a `len` with which `writePos_ + len + 1` is a size
that the vector can have, as in every call that `Append` and `ReadFd` make: neither
`len + 1` nor `writePos_ + len + 1` wraps. For an arbitrary `size_t` argument see
`SizeT.MakeSpace_`. -/
def Buffer.MakeSpace_ (b : Buffer) (len : Nat) : Except Fault Buffer :=
  if b.WritableBytes + b.PrependableBytes < len + 1 then
    .ok { b with buffer_ := vectorResize b.buffer_ (b.writePos_ + len + 1) }
  else
    let readable := b.ReadableBytes
    let b1 : Buffer :=
      { buffer_ := copyInto b.buffer_ 0 b.Peek, readPos_ := 0, writePos_ := readable }
    if readable = b1.ReadableBytes then .ok b1 else .error .assertFailed

/-- `Buffer::EnsureWriteable(len)` for a `len` with which `writePos_ + len + 1` is a
size that the vector can have; for an arbitrary `size_t` argument see
`SizeT.EnsureWriteable`. -/
def Buffer.EnsureWriteable (b : Buffer) (len : Nat) : Except Fault Buffer :=
  let made : Except Fault Buffer :=
    if b.WritableBytes < len then b.MakeSpace_ len else .ok b
  match made with
  | .ok b1 => if len ≤ b1.WritableBytes then .ok b1 else .error .assertFailed
  | .error e => .error e

/-- `Buffer::Append(str, len)`: the bytes of `str` are the list `data`. -/
def Buffer.Append (b : Buffer) (data : List Byte) : Except Fault Buffer :=
  match b.EnsureWriteable data.length with
  | .ok b1 =>
    .ok ({ b1 with buffer_ := copyInto b1.buffer_ b1.writePos_ data }.HasWritten data.length)
  | .error e => .error e

/-- A run of `Append` calls, one per byte string, with nothing in between. -/
def appendAll : Buffer → List (List Byte) → Except Fault Buffer
  | b, [] => .ok b
  | b, a :: rest =>
    match b.Append a with
    | .ok b1 => appendAll b1 rest
    | .error e => .error e

/-- A run of pairs `Append(a); Retrieve(a.size())`. The result carries the capacity
`buffer_.size()` observed after every single call, in order. -/
def appendRetrievePairs : Buffer → List (List Byte) → Except Fault (Buffer × List Nat)
  | b, [] => .ok (b, [])
  | b, a :: rest =>
    match b.Append a with
    | .ok b1 =>
      match b1.Retrieve a.length with
      | .ok b2 =>
        match appendRetrievePairs b2 rest with
        | .ok (b3, caps) => .ok (b3, b1.buffer_.length :: b2.buffer_.length :: caps)
        | .error e => .error e
      | .error e => .error e
    | .error e => .error e

/-- The cursor invariant `readPos_ ≤ writePos_ ≤ buffer_.size()`. -/
def Buffer.cursorsOk (b : Buffer) : Prop :=
  b.readPos_ ≤ b.writePos_ ∧ b.writePos_ ≤ b.buffer_.length

/-- Length of the longest byte string of a list. -/
def maxLength : List (List Byte) → Nat
  | [] => 0
  | a :: rest => max a.length (maxLength rest)

/-- `Buffer::RetrieveAllToStr()`: the string built from the readable bytes, and the
buffer after `RetrieveAll()`. -/
def Buffer.RetrieveAllToStr (b : Buffer) : Except Fault (Buffer × List Byte) :=
  match b.RetrieveAll with
  | .ok b1 => .ok (b1, b.Peek)
  | .error e => .error e

/-- `std::vector<char>::max_size()`: `PTRDIFF_MAX`, that is `2^63 - 1` (libstdc++ and
libc++ on a 64 bit target). -/
def VECTOR_MAX_SIZE : Nat := 9223372036854775807

/-- `a + b` on `size_t`. -/
def sizeAdd (a b : Nat) : Nat := (a + b) % SIZE_T_MOD

/-- `a - b` on `size_t`, for operands that are `size_t` values. -/
def sizeSub (a b : Nat) : Nat := (a + SIZE_T_MOD - b) % SIZE_T_MOD

/-- `Buffer::ReadableBytes()` as the source computes it: `writePos_ - readPos_` on
`size_t`. -/
def SizeT.ReadableBytes (b : Buffer) : Nat := sizeSub b.writePos_ b.readPos_

/-- `Buffer::WritableBytes()` as the source computes it: `buffer_.size() - writePos_`
on `size_t`. -/
def SizeT.WritableBytes (b : Buffer) : Nat := sizeSub b.buffer_.length b.writePos_

/-- `Buffer::MakeSpace_(len)` for an arbitrary `size_t` argument: the sum
`WritableBytes() + PrependableBytes()`, `len + 1` and `writePos_ + len + 1` are computed
on `size_t`. `resize(n)` throws `std::length_error` when `n` exceeds `max_size()`, and
otherwise makes `n` the size of the vector, be it larger or smaller than the old one.
`std::copy` in the other branch reads the positions from `readPos_` up to `writePos_`,
which have to lie in the vector. -/
def SizeT.MakeSpace_ (b : Buffer) (len : Nat) : Except Fault Buffer :=
  if sizeAdd (SizeT.WritableBytes b) b.PrependableBytes < sizeAdd len 1 then
    let n := sizeAdd (sizeAdd b.writePos_ len) 1
    if VECTOR_MAX_SIZE < n then .error .lengthError
    else .ok { b with buffer_ := vectorResize b.buffer_ n }
  else
    let readable := SizeT.ReadableBytes b
    if b.readPos_ ≤ b.writePos_ ∧ b.writePos_ ≤ b.buffer_.length then
      let b1 : Buffer :=
        { buffer_ := copyInto b.buffer_ 0 b.Peek, readPos_ := 0, writePos_ := readable }
      if readable = SizeT.ReadableBytes b1 then .ok b1 else .error .assertFailed
    else .error .outOfRange

/-- `Buffer::EnsureWriteable(len)` for an arbitrary `size_t` argument. -/
def SizeT.EnsureWriteable (b : Buffer) (len : Nat) : Except Fault Buffer :=
  let made : Except Fault Buffer :=
    if SizeT.WritableBytes b < len then SizeT.MakeSpace_ b len else .ok b
  match made with
  | .ok b1 => if len ≤ SizeT.WritableBytes b1 then .ok b1 else .error .assertFailed
  | .error e => .error e

/-- Length of the spill array `char buff[65535]` of `ReadFd`. -/
def SPILL_SIZE : Nat := 65535

/-- What one call of `readv` did: its return value, the value of `errno` after it, and
the bytes it delivered, in order (the first of them into `iov[0]`, the rest into
`iov[1]`). -/
structure Readv where
  ret : Int
  errno : Int
  data : List Byte
  deriving DecidableEq, Repr

/-- The contract of `readv` on the two vectors of `ReadFd`, `writable` being the length
of the first: a failed call delivers nothing, a successful one returns the number of
bytes delivered, and no more is delivered than the two vectors hold. -/
def Readv.delivers (r : Readv) (writable : Nat) : Prop :=
  (r.ret < 0 → r.data = []) ∧ (0 ≤ r.ret → (r.data.length : Int) = r.ret) ∧
    r.data.length ≤ writable + SPILL_SIZE

/-- `Buffer::ReadFd(fd, saveErrno)`. The result carries the buffer, the returned value
and the content of the caller's slot `*saveErrno`, whose content before the call is
`saveErrno`. The system call has stored the first `writable` delivered bytes at
`BeginPtr_() + writePos_` and the others in `buff`. -/
def Buffer.ReadFd (b : Buffer) (r : Readv) (saveErrno : Int) :
    Except Fault (Buffer × Int × Int) :=
  let writable := b.WritableBytes
  let b0 : Buffer := { b with buffer_ := copyInto b.buffer_ b.writePos_ (r.data.take writable) }
  let buff := r.data.drop writable
  if r.ret < 0 then .ok (b0, r.ret, r.errno)
  else if r.ret.toNat ≤ writable then
    .ok ({ b0 with writePos_ := b0.writePos_ + r.ret.toNat }, r.ret, saveErrno)
  else
    match ({ b0 with writePos_ := b0.buffer_.length }).Append
        (buff.take (r.ret.toNat - writable)) with
    | .ok b1 => .ok (b1, r.ret, saveErrno)
    | .error e => .error e

/-- `Buffer::WriteFd(fd, saveErrno)`; `ret` and `errno` are the return value of the call
of `write` and the value of `errno` after it. The result carries the buffer, the
returned value and the content of the caller's slot `*saveErrno`. -/
def Buffer.WriteFd (b : Buffer) (ret errno saveErrno : Int) : Buffer × Int × Int :=
  if ret < 0 then (b, ret, errno)
  else ({ b with readPos_ := b.readPos_ + ret.toNat }, ret, saveErrno)

/-! ## webserver.cpp

Calls into the connection, the poller, the timer and the socket layer are recorded as
effects, in order. The event bits and `EAGAIN` have their Linux values. -/

/-- `EPOLLIN`. -/
def EPOLLIN : Nat := 0x001

/-- `EPOLLOUT`. -/
def EPOLLOUT : Nat := 0x004

/-- `EPOLLERR`. -/
def EPOLLERR : Nat := 0x008

/-- `EPOLLHUP`. -/
def EPOLLHUP : Nat := 0x010

/-- `EPOLLRDHUP`. -/
def EPOLLRDHUP : Nat := 0x2000

/-- `EPOLLONESHOT`. -/
def EPOLLONESHOT : Nat := 0x40000000

/-- `EPOLLET`. -/
def EPOLLET : Nat := 0x80000000

/-- `EAGAIN`. -/
def EAGAIN : Int := 11

/-- The test `events & flags` of the source, a `uint32_t` used as a condition. -/
def hasAny (events flags : Nat) : Bool := decide (events &&& flags ≠ 0)

/-- The members that `InitEventMode_` assigns. -/
structure EventMode where
  listenEvent_ : Nat
  connEvent_ : Nat
  isET : Bool
  deriving DecidableEq, Repr

/-- `WebServer::InitEventMode_(trigMode)`. -/
def InitEventMode_ (trigMode : Int) : EventMode :=
  let listenEvent := EPOLLRDHUP
  let connEvent := EPOLLONESHOT ||| EPOLLRDHUP
  let masks : Nat × Nat :=
    if trigMode = 0 then (listenEvent, connEvent)
    else if trigMode = 1 then (listenEvent, connEvent ||| EPOLLET)
    else if trigMode = 2 then (listenEvent ||| EPOLLET, connEvent)
    else if trigMode = 3 then (listenEvent ||| EPOLLET, connEvent ||| EPOLLET)
    else (listenEvent ||| EPOLLET, connEvent ||| EPOLLET)
  { listenEvent_ := masks.1, connEvent_ := masks.2, isET := hasAny masks.2 EPOLLET }

/-- The handler that the loop body of `WebServer::Start` runs for one ready event. -/
inductive Handler where
  /-- `DealListen_()` -/
  | dealListen
  /-- `CloseConn_(&users_[fd])` -/
  | closeConn
  /-- `DealRead_(&users_[fd])` -/
  | dealRead
  /-- `DealWrite_(&users_[fd])` -/
  | dealWrite
  /-- `LOG_ERROR("Unexpected event")` -/
  | unexpected
  deriving DecidableEq, Repr

/-- The body of the `for` loop of `WebServer::Start` for the ready event `(fd, events)`;
`known` is `users_.count(fd) > 0`, which the three connection branches assert. -/
def dispatchEvent (listenFd_ fd : Int) (events : Nat) (known : Bool) :
    Except Fault Handler :=
  if fd = listenFd_ then .ok .dealListen
  else if hasAny events (EPOLLRDHUP ||| EPOLLHUP ||| EPOLLERR) then
    if known then .ok .closeConn else .error .assertFailed
  else if hasAny events EPOLLIN then
    if known then .ok .dealRead else .error .assertFailed
  else if hasAny events EPOLLOUT then
    if known then .ok .dealWrite else .error .assertFailed
  else .ok .unexpected

/-- A call that the server makes into another component. -/
inductive Effect where
  /-- `accept(listenFd_, ...)` with its result -/
  | accept (result : Int)
  /-- `send(fd, info, strlen(info), 0)` -/
  | send (fd : Int) (info : String)
  /-- `close(fd)` -/
  | closeFd (fd : Int)
  /-- `users_[fd].init(fd, addr)` -/
  | connInit (fd : Int)
  /-- `timer_->add(fd, timeoutMS_, ...)` with the callback `CloseConn_` -/
  | timerAdd (fd : Int) (timeoutMS : Int)
  /-- `epoller_->AddFd(fd, events)` -/
  | epollAdd (fd : Int) (events : Nat)
  /-- `epoller_->ModFd(fd, events)` -/
  | epollMod (fd : Int) (events : Nat)
  /-- `epoller_->DelFd(fd)` -/
  | epollDel (fd : Int)
  /-- `SetFdNonblock(fd)` -/
  | setNonblock (fd : Int)
  /-- `client->process()` -/
  | process (fd : Int)
  /-- `client->Close()` -/
  | connClose (fd : Int)
  deriving DecidableEq, Repr

/-- Whether an effect is a call of `accept`. -/
def Effect.isAccept : Effect → Bool
  | .accept _ => true
  | _ => false

/-- `WebServer::SendError_(fd, info)`. -/
def SendError_ (fd : Int) (info : String) : Except Fault (List Effect) :=
  if 0 < fd then .ok [.send fd info, .closeFd fd] else .error .assertFailed

/-- `WebServer::CloseConn_(client)`, `fd` being `client->GetFd()`. -/
def CloseConn_ (fd : Int) : List Effect := [.epollDel fd, .connClose fd]

/-- `WebServer::AddClient_(fd, addr)`. -/
def AddClient_ (connEvent_ : Nat) (timeoutMS_ : Int) (fd : Int) : Except Fault (List Effect) :=
  if 0 < fd then
    .ok ([.connInit fd] ++ (if 0 < timeoutMS_ then [.timerAdd fd timeoutMS_] else []) ++
      [.epollAdd fd (EPOLLIN ||| connEvent_), .setNonblock fd])
  else .error .assertFailed

/-- What a call of `DealListen_` leaves behind: the calls made, the live-connection
count, and the accept results that were not consumed, that is the connections still
pending. -/
structure ListenOutcome where
  effects : List Effect
  userCount : Nat
  pending : List Int
  deriving DecidableEq, Repr

/-- Modelled from the spec: `HttpConn::init` (`http/httpconn.cpp` is not among the
sources) makes the connection a live one, so `HttpConn::userCount`, the global counter
of live connections, is one higher after `users_[fd].init(fd, addr)`. -/
def userCountAfterInit (userCount : Nat) : Nat := userCount + 1

/-- `WebServer::DealListen_()`. The list holds the results of the successive calls of
`accept` while connections are pending; once it is used up `accept` returns `-1`.
`maxFd` is the constant `MAX_FD` of `webserver.h`, `userCount` is
`HttpConn::userCount`. -/
def DealListen_ (listenEvent_ connEvent_ : Nat) (timeoutMS_ : Int) (maxFd : Nat) :
    Nat → List Int → Except Fault ListenOutcome
  | userCount, [] => .ok { effects := [.accept (-1)], userCount := userCount, pending := [] }
  | userCount, fd :: rest =>
    if fd ≤ 0 then
      .ok { effects := [.accept fd], userCount := userCount, pending := rest }
    else if maxFd ≤ userCount then
      match SendError_ fd "Server busy!" with
      | .ok effs =>
        .ok { effects := .accept fd :: effs, userCount := userCount, pending := rest }
      | .error e => .error e
    else
      match AddClient_ connEvent_ timeoutMS_ fd with
      | .ok effs =>
        if hasAny listenEvent_ EPOLLET then
          match DealListen_ listenEvent_ connEvent_ timeoutMS_ maxFd
              (userCountAfterInit userCount) rest with
          | .ok out => .ok { out with effects := .accept fd :: effs ++ out.effects }
          | .error e => .error e
        else
          .ok { effects := .accept fd :: effs, userCount := userCountAfterInit userCount
                pending := rest }
      | .error e => .error e

/-- `WebServer::OnProcess(client)`; `processed` is the result of `client->process()`. -/
def OnProcess (connEvent_ : Nat) (fd : Int) (processed : Bool) : List Effect :=
  if processed then [.process fd, .epollMod fd (connEvent_ ||| EPOLLOUT)]
  else [.process fd, .epollMod fd (connEvent_ ||| EPOLLIN)]

/-- `WebServer::OnWrite_(client)` after `ret = client->write(&writeErrno)`:
`toWriteBytes` and `keepAlive` are `client->ToWriteBytes()` and `client->IsKeepAlive()`
after the write, `processed` the result of `client->process()` if it is called. -/
def OnWrite_ (connEvent_ : Nat) (fd : Int) (ret writeErrno : Int) (toWriteBytes : Nat)
    (keepAlive processed : Bool) : List Effect :=
  if toWriteBytes = 0 then
    if keepAlive then OnProcess connEvent_ fd processed
    else CloseConn_ fd
  else if ret < 0 then
    if writeErrno = EAGAIN then [.epollMod fd (connEvent_ ||| EPOLLOUT)]
    else CloseConn_ fd
  else CloseConn_ fd

/-- `WebServer::OnRead_(client)` after `ret = client->read(&readErrno)`; `processed` is
the result of `client->process()` if it is called. -/
def OnRead_ (connEvent_ : Nat) (fd : Int) (ret readErrno : Int) (processed : Bool) :
    List Effect :=
  if ret ≤ 0 ∧ readErrno ≠ EAGAIN then CloseConn_ fd
  else OnProcess connEvent_ fd processed

/-- Whether an effect is a call of `client->process()`. -/
def Effect.isProcess : Effect → Bool
  | .process _ => true
  | _ => false

/-- Whether an effect is a call of `epoller_->ModFd`. -/
def Effect.isEpollMod : Effect → Bool
  | .epollMod _ _ => true
  | _ => false

/-- Whether an effect closes the connection or takes its fd out of the poller. -/
def Effect.isClose : Effect → Bool
  | .epollDel _ => true
  | .connClose _ => true
  | _ => false

/-- Whether an effect makes the fd a connection of the server: initialising the
`HttpConn`, adding a timer entry, registering with the poller. -/
def Effect.isRegistration : Effect → Bool
  | .connInit _ => true
  | .timerAdd _ _ => true
  | .epollAdd _ _ => true
  | _ => false

/-! ## threadpool.h

The worker lambda, `AddTask` and the destructor as a transition system on the shared
`Pool`. A task is an opaque tag. Every access to `tasks` and `isClosed` in the source is
made with `pool->mtx` held, so a critical section is one transition; the notification
that follows the critical section of `AddTask` or of the destructor is a transition of
its own. -/

/-- Where a worker thread stands in the lambda started by `ThreadPool::ThreadPool`. -/
inductive WorkerPc where
  /-- about to acquire `pool->mtx`: at the construction of `locker`, at `locker.lock()`
  after a task, or woken inside `cond.wait` -/
  | locking
  /-- holds `pool->mtx`, at the head of the body of `while(true)` -/
  | atLoopHead
  /-- has unlocked and is inside `task()` -/
  | running (task : Nat)
  /-- blocked inside `pool->cond.wait(locker)`, the mutex released -/
  | waiting
  /-- has left the loop through `break`; `locker` is destroyed and the thread is over -/
  | exited
  deriving DecidableEq, Repr

/-- `struct Pool`, together with the position of every thread that works on it. -/
structure Pool where
  /-- whether `mtx` is held -/
  mtxHeld : Bool
  isClosed : Bool
  tasks : List Nat
  /-- the position of every worker thread -/
  workers : List WorkerPc
  /-- the calls of `AddTask` that are between their critical section and their
  `notify_one` -/
  toNotifyOne : Nat
  /-- the runs of the destructor that are between their critical section and their
  `notify_all` -/
  toNotifyAll : Nat
  deriving DecidableEq, Repr

/-- The pool after `ThreadPool::ThreadPool(threadCount)`: `std::make_shared<Pool>()`
value-initialises the struct, so `isClosed` is false and the queue is empty; every
thread is at the construction of its `locker`. -/
def Pool.init (threadCount : Nat) : Pool :=
  { mtxHeld := false, isClosed := false, tasks := [],
    workers := List.replicate threadCount .locking, toNotifyOne := 0, toNotifyAll := 0 }

/-- Who moves. -/
inductive PoolAction where
  /-- worker `w` runs up to its next access of the mutex, the end of its task, or into
  `cond.wait` -/
  | worker (w : Nat)
  /-- the critical section of `AddTask(task)` -/
  | addTask (task : Nat)
  /-- the `notify_one` of a call of `AddTask`; it unblocks worker `wake`, or nobody when
  no worker waits -/
  | notifyOne (wake : Option Nat)
  /-- the critical section of `~ThreadPool()` -/
  | close
  /-- the `notify_all` of the destructor -/
  | notifyAll
  /-- `cond.wait` of worker `w` returns without a notification, which the standard
  allows -/
  | spuriousWake (w : Nat)
  deriving DecidableEq, Repr

/-- What a transition does to the queue and to the set of workers. -/
inductive PoolEvent where
  /-- `pool_->tasks.emplace(task)` -/
  | enqueued (task : Nat)
  /-- `pool->tasks.front()` moved out and `pool->tasks.pop()`, by worker `w` -/
  | dequeued (w : Nat) (task : Nat)
  /-- `pool_->isClosed = true` -/
  | closed
  /-- worker `w` left its loop through `break` -/
  | left (w : Nat)
  deriving DecidableEq, Repr

/-- One transition of worker `w`, following the body of the lambda: with the mutex held
at the loop head, a non-empty queue gives up its front task and the mutex is released;
an empty queue of a closed pool ends the loop; an empty queue of an open pool leads into
`cond.wait`. A worker that needs the mutex moves only when it is free; a worker inside
`cond.wait` does not move by itself. -/
def Pool.workerStep (s : Pool) (w : Nat) : Option (Pool × List PoolEvent) :=
  match s.workers[w]? with
  | none => none
  | some .locking =>
    if s.mtxHeld then none
    else some ({ s with mtxHeld := true, workers := s.workers.set w .atLoopHead }, [])
  | some .atLoopHead =>
    match s.tasks with
    | task :: rest =>
      some ({ s with tasks := rest, mtxHeld := false,
                     workers := s.workers.set w (.running task) }, [.dequeued w task])
    | [] =>
      if s.isClosed then
        some ({ s with mtxHeld := false, workers := s.workers.set w .exited }, [.left w])
      else
        some ({ s with mtxHeld := false, workers := s.workers.set w .waiting }, [])
  | some (.running _) => some ({ s with workers := s.workers.set w .locking }, [])
  | some .waiting => none
  | some .exited => none

/-- `notify_all`: every worker inside `cond.wait` is unblocked. -/
def wakeAll (workers : List WorkerPc) : List WorkerPc :=
  workers.map fun pc => if pc = .waiting then .locking else pc

/-- One transition of the pool. `AddTask` and the destructor take the mutex for their
critical section, so they enter it only when it is free. -/
def Pool.step (s : Pool) : PoolAction → Option (Pool × List PoolEvent)
  | .worker w => s.workerStep w
  | .addTask task =>
    if s.mtxHeld then none
    else some ({ s with tasks := s.tasks ++ [task], toNotifyOne := s.toNotifyOne + 1 },
      [.enqueued task])
  | .notifyOne (some w) =>
    if 0 < s.toNotifyOne ∧ s.workers[w]? = some .waiting then
      some ({ s with toNotifyOne := s.toNotifyOne - 1,
                     workers := s.workers.set w .locking }, [])
    else none
  | .notifyOne none =>
    if 0 < s.toNotifyOne ∧ WorkerPc.waiting ∉ s.workers then
      some ({ s with toNotifyOne := s.toNotifyOne - 1 }, [])
    else none
  | .close =>
    if s.mtxHeld then none
    else some ({ s with isClosed := true, toNotifyAll := s.toNotifyAll + 1 }, [.closed])
  | .notifyAll =>
    if 0 < s.toNotifyAll then
      some ({ s with toNotifyAll := s.toNotifyAll - 1, workers := wakeAll s.workers }, [])
    else none
  | .spuriousWake w =>
    if s.workers[w]? = some .waiting then
      some ({ s with workers := s.workers.set w .locking }, [])
    else none

/-- A run: the transitions of the given actions one after the other, the events collected
in order; `none` when an action is not enabled where it comes up. -/
def Pool.run : Pool × List PoolEvent → List PoolAction → Option (Pool × List PoolEvent)
  | st, [] => some st
  | (s, trace), a :: rest =>
    match s.step a with
    | none => none
    | some (s1, events) => Pool.run (s1, trace ++ events) rest

/-- The tasks enqueued in a trace, in order. -/
def enqueuedTasks : List PoolEvent → List Nat
  | [] => []
  | .enqueued task :: rest => task :: enqueuedTasks rest
  | _ :: rest => enqueuedTasks rest

/-- The tasks dequeued in a trace, in order. -/
def dequeuedTasks : List PoolEvent → List Nat
  | [] => []
  | .dequeued _ task :: rest => task :: dequeuedTasks rest
  | _ :: rest => dequeuedTasks rest

/-- The tasks enqueued in a trace before the pool was closed, in order. -/
def enqueuedBeforeClose : List PoolEvent → List Nat
  | [] => []
  | .enqueued task :: rest => task :: enqueuedBeforeClose rest
  | .closed :: _ => []
  | _ :: rest => enqueuedBeforeClose rest

/-- How many transitions a worker is away from the loop head. -/
def WorkerPc.distance : WorkerPc → Nat
  | .running _ => 2
  | .waiting => 2
  | .locking => 1
  | .atLoopHead => 0
  | .exited => 0

/-- Whether a worker moves by itself: it is neither blocked inside `cond.wait` nor
over. -/
def WorkerPc.isActive : WorkerPc → Bool
  | .locking => true
  | .atLoopHead => true
  | .running _ => true
  | .waiting => false
  | .exited => false

/-- Sum of the distances of all workers from the loop head, plus the notifications that
are still to be made. -/
def Pool.distance (s : Pool) : Nat :=
  (s.workers.map WorkerPc.distance).sum + s.toNotifyOne + s.toNotifyAll

/-- Whether an action is a call from outside the pool that gives it work to do: the
critical section of `AddTask` or of the destructor. -/
def PoolAction.isCall : PoolAction → Bool
  | .addTask _ => true
  | .close => true
  | _ => false

/-- Whether an action is made by the code of the pool without a wake-up that no one
asked for: a worker transition or a notification. -/
def PoolAction.isOwn : PoolAction → Bool
  | .worker _ => true
  | .notifyOne _ => true
  | .notifyAll => true
  | _ => false

/-! ## Invariants of the timer heap -/

/-- Heap order on the first `n` positions: every position `0 < k < n` holds a
deadline that is not before the one at its parent `(k - 1) / 2`. -/
def orderedUpTo (l : List TimerNode) (n : Nat) : Prop :=
  ∀ k, k < n → 0 < k → ∀ a ∈ l[(k - 1) / 2]?, ∀ b ∈ l[k]?, a.expires ≤ b.expires

instance (l : List TimerNode) (n : Nat) : Decidable (orderedUpTo l n) := by
  unfold orderedUpTo
  exact inferInstance

/-- Heap order of the whole vector. -/
def heapOrdered (t : HeapTimer) : Prop := orderedUpTo t.heap_ t.heap_.length

instance (t : HeapTimer) : Decidable (heapOrdered t) := by
  unfold heapOrdered
  exact inferInstance

/-- The side index mirrors the heap: `ref_` has an entry `id ↦ i` exactly when the
node at position `i` has that id. In particular no id occurs at two positions. -/
def refConsistent (t : HeapTimer) : Prop :=
  ∀ id i, t.ref_ id = some i ↔ ∃ nd, t.heap_[i]? = some nd ∧ nd.id = id

/-- The root holds the minimum deadline. -/
def rootIsMin (t : HeapTimer) : Prop :=
  ∀ r ∈ t.heap_.head?, ∀ nd ∈ t.heap_, r.expires ≤ nd.expires

instance (t : HeapTimer) : Decidable (rootIsMin t) := by
  unfold rootIsMin
  exact inferInstance

/-- Position of the first node with the given id. -/
def indexOfId : List TimerNode → Int → Option Nat
  | [], _ => none
  | nd :: rest, id => if nd.id = id then some 0 else (indexOfId rest id).map (· + 1)

/-- The timer whose vector is `l` and whose side index maps every id to the position
of its node. -/
def HeapTimer.ofList (l : List TimerNode) : HeapTimer :=
  { heap_ := l, ref_ := indexOfId l }

/-- The deadline stored at position `m` (0 outside the vector; used only for positions
inside). -/
def key (l : List TimerNode) (m : Nat) : Int :=
  match l[m]? with
  | some nd => nd.expires
  | none => 0

/-- Loop invariant of `siftdown_` on the first `n` positions, the node being at
position `i`: heap order holds between every position and its parent except where the
parent is `i`, and the children of `i` are not before the parent of `i`. -/
def downInv (l : List TimerNode) (n i : Nat) : Prop :=
  (∀ k, k < n → 0 < k → (k - 1) / 2 ≠ i → key l ((k - 1) / 2) ≤ key l k) ∧
  (0 < i → ∀ k, k < n → (k - 1) / 2 = i → key l ((i - 1) / 2) ≤ key l k)

/-- Loop invariant of `siftup_` on the first `n` positions, the node being at position
`i`: heap order holds between every position other than `i` and its parent, and the
children of `i` are not before the parent of `i`. -/
def upInv (l : List TimerNode) (n i : Nat) : Prop :=
  (∀ k, k < n → 0 < k → k ≠ i → key l ((k - 1) / 2) ≤ key l k) ∧
  (0 < i → ∀ k, k < n → (k - 1) / 2 = i → key l ((i - 1) / 2) ≤ key l k)

/-! ## Invariant of the thread pool -/

/-- What holds of every state and trace that a run from `Pool.init threadCount` reaches:
the number of workers is fixed; the tasks enqueued so far are the tasks dequeued so far
followed by the queue; `isClosed` is set exactly when the destructor has run; once a
worker has left its loop the pool is closed and every task enqueued before the close
has been dequeued; the mutex is held exactly when a worker is at the loop head, and by
at most one; and while tasks are queued and no worker has left, some worker is neither
blocked in `cond.wait` nor over, or a `notify_one` is still to come. -/
def PoolInv (threadCount : Nat) (s : Pool) (trace : List PoolEvent) : Prop :=
  s.workers.length = threadCount ∧
  enqueuedTasks trace = dequeuedTasks trace ++ s.tasks ∧
  (s.isClosed = true ↔ PoolEvent.closed ∈ trace) ∧
  (WorkerPc.exited ∈ s.workers →
    s.isClosed = true ∧ ∃ later, dequeuedTasks trace = enqueuedBeforeClose trace ++ later) ∧
  (s.mtxHeld = true → s.workers.count .atLoopHead = 1) ∧
  (s.mtxHeld = false → s.workers.count .atLoopHead = 0) ∧
  (0 < threadCount → s.tasks ≠ [] → WorkerPc.exited ∉ s.workers →
    (∃ pc ∈ s.workers, pc.isActive = true) ∨ 0 < s.toNotifyOne)

/-! ## Lemmas on the timer heap -/

theorem SwapNode__ok {t t1 : HeapTimer} {i j : Nat} (h : SwapNode_ t i j = .ok t1) :
    ∃ a b, t.heap_[i]? = some a ∧ t.heap_[j]? = some b ∧
      t1.heap_ = (t.heap_.set i b).set j a ∧
      t1.ref_ = refSet (refSet t.ref_ b.id i) a.id j := by
  unfold SwapNode_ at h
  split at h
  · rename_i a b ha hb
    cases h
    exact ⟨a, b, ha, hb, rfl, rfl⟩
  · cases h

theorem set_perm_cons (x : TimerNode) :
    ∀ (l : List TimerNode) (i : Nat) (a : TimerNode), l[i]? = some a →
      (x :: l).Perm (a :: l.set i x) := by
  intro l
  induction l with
  | nil => intro i a h; simp at h
  | cons c l ih =>
    intro i a h
    cases i with
    | zero =>
      simp only [List.getElem?_cons_zero, Option.some.injEq] at h
      subst h
      exact List.Perm.swap _ _ _
    | succ i =>
      simp only [List.getElem?_cons_succ] at h
      have h1 := ih i a h
      simp only [List.set_cons_succ]
      exact (List.Perm.swap c x l).trans (((h1.cons c)).trans (List.Perm.swap a c _))

theorem swap_perm (l : List TimerNode) (i j : Nat) (a b : TimerNode)
    (hi : l[i]? = some a) (hj : l[j]? = some b) : ((l.set i b).set j a).Perm l := by
  have h1 := set_perm_cons b l i a hi
  have hj1 : (l.set i b)[j]? = some b := by
    rw [List.getElem?_set]
    split
    · rename_i e
      have := (List.getElem?_eq_some.mp hi).1
      simp [this]
    · exact hj
  have h2 := set_perm_cons a (l.set i b) j b hj1
  exact ((h1.trans h2).cons_inv).symm

theorem key_of_getElem? {l : List TimerNode} {m : Nat} {nd : TimerNode}
    (h : l[m]? = some nd) : key l m = nd.expires := by
  simp [key, h]

theorem orderedUpTo_iff_key (l : List TimerNode) (n : Nat) (hn : n ≤ l.length) :
    orderedUpTo l n ↔ ∀ k, k < n → 0 < k → key l ((k - 1) / 2) ≤ key l k := by
  constructor
  · intro h k hk h0
    have hk' : k < l.length := by omega
    have hp' : (k - 1) / 2 < l.length := by omega
    have e1 : l[k]? = some l[k] := List.getElem?_eq_getElem hk'
    have e2 : l[(k - 1) / 2]? = some l[(k - 1) / 2] := List.getElem?_eq_getElem hp'
    rw [key_of_getElem? e1, key_of_getElem? e2]
    exact h k hk h0 _ e2 _ e1
  · intro h k hk h0 a ha b hb
    have := h k hk h0
    rwa [key_of_getElem? (Option.mem_def.mp ha), key_of_getElem? (Option.mem_def.mp hb)] at this

theorem swap_getElem? (l : List TimerNode) (i c m : Nat) (a b : TimerNode)
    (hi : i < l.length) (hc : c < l.length) :
    ((l.set i b).set c a)[m]? = if c = m then some a else if i = m then some b else l[m]? := by
  rw [List.getElem?_set, List.getElem?_set]
  simp [hi, hc]

theorem swap_key (l : List TimerNode) (i c m : Nat) (a b : TimerNode)
    (hi : l[i]? = some a) (hc : l[c]? = some b) :
    key ((l.set i b).set c a) m =
      if c = m then key l i else if i = m then key l c else key l m := by
  have hil := (List.getElem?_eq_some.mp hi).1
  have hcl := (List.getElem?_eq_some.mp hc).1
  unfold key
  rw [swap_getElem? l i c m a b hil hcl, hi, hc]
  split_ifs <;> rfl

theorem childIdx_eq (i : Nat) (h : i < 2 ^ 63) : childIdx i = i * 2 + 1 := by
  unfold childIdx SIZE_T_MOD
  exact Nat.mod_eq_of_lt (by omega)

theorem pickChild_spec {t : HeapTimer} {n j c : Nat} (h : pickChild t n j = .ok c) :
    (c = j ∨ (c = j + 1 ∧ j + 1 < n)) ∧ key t.heap_ c ≤ key t.heap_ j ∧
      (j + 1 < n → key t.heap_ c ≤ key t.heap_ (j + 1)) := by
  unfold pickChild at h
  split at h
  · rename_i h1
    split at h
    · rename_i r l hr hl
      have kr := key_of_getElem? hr
      have kl := key_of_getElem? hl
      split at h
      · rename_i hlt
        cases h
        simp only [TimerNode.lt, decide_eq_true_eq] at hlt
        refine ⟨Or.inr ⟨rfl, h1⟩, by omega, fun _ => le_refl _⟩
      · rename_i hlt
        cases h
        simp only [TimerNode.lt, decide_eq_true_eq] at hlt
        refine ⟨Or.inl rfl, le_refl _, fun _ => by omega⟩
    · cases h
  · rename_i h1
    cases h
    exact ⟨Or.inl rfl, le_refl _, fun h2 => absurd h2 h1⟩

theorem downInv_done {l : List TimerNode} {n i : Nat} (h : downInv l n i)
    (hc : ∀ k, k < n → (k - 1) / 2 = i → 0 < k → key l i ≤ key l k) :
    ∀ k, k < n → 0 < k → key l ((k - 1) / 2) ≤ key l k := by
  intro k hk h0
  by_cases hp : (k - 1) / 2 = i
  · rw [hp]; exact hc k hk hp h0
  · exact h.1 k hk h0 hp

theorem downInv_swap {l : List TimerNode} {n i c : Nat} {a b : TimerNode}
    (h : downInv l n i) (hi : l[i]? = some a) (hc : l[c]? = some b)
    (hcn : c < n) (hchild : c = i * 2 + 1 ∨ c = i * 2 + 2)
    (hba : b.expires ≤ a.expires)
    (hmin : ∀ k, k < n → (k - 1) / 2 = i → 0 < k → key l c ≤ key l k) :
    downInv ((l.set i b).set c a) n c := by
  have ka := key_of_getElem? hi
  have kb := key_of_getElem? hc
  have hpc : (c - 1) / 2 = i := by omega
  constructor
  · intro k hk h0 hp
    rw [swap_key l i c _ a b hi hc, swap_key l i c _ a b hi hc]
    by_cases e1 : c = k
    · subst e1
      rw [if_pos rfl, if_neg (by omega), if_pos hpc.symm]
      omega
    · rw [if_neg e1, if_neg (Ne.symm hp)]
      by_cases e2 : i = k
      · subst e2
        rw [if_pos rfl, if_neg (by omega)]
        exact h.2 h0 c hcn hpc
      · rw [if_neg e2]
        by_cases e3 : i = (k - 1) / 2
        · rw [if_pos e3]
          exact hmin k hk e3.symm h0
        · rw [if_neg e3]
          exact h.1 k hk h0 (Ne.symm e3)
  · intro h0 k hk hp
    rw [swap_key l i c _ a b hi hc, swap_key l i c _ a b hi hc]
    rw [if_neg (by omega), if_pos hpc.symm, if_neg (by omega), if_neg (by omega)]
    have := h.1 k hk (by omega) (by omega)
    rwa [hp] at this

theorem siftdownLoop_spec (n : Nat) :
    ∀ (fuel : Nat) (t t1 : HeapTimer) (i i1 : Nat), i < n → n ≤ t.heap_.length →
      t.heap_.length < 2 ^ 63 → downInv t.heap_ n i →
      siftdownLoop fuel t n i (childIdx i) = .ok (t1, i1) →
      (∀ k, k < n → 0 < k → key t1.heap_ ((k - 1) / 2) ≤ key t1.heap_ k) ∧
        t1.heap_.Perm t.heap_ ∧ t1.heap_.length = t.heap_.length ∧
        (∀ k, n ≤ k → t1.heap_[k]? = t.heap_[k]?) ∧ i ≤ i1 := by
  intro fuel
  induction fuel with
  | zero => intro t t1 i i1 _ _ _ _ h; simp [siftdownLoop] at h
  | succ fuel ih =>
    intro t t1 i i1 hin hn hsz hinv h
    rw [childIdx_eq i (by omega)] at h
    unfold siftdownLoop at h
    split at h
    · rename_i hjn
      split at h
      · cases h
      · rename_i c hpick
        obtain ⟨hc, hcj, hcj1⟩ := pickChild_spec hpick
        have hcn : c < n := by omega
        have hmin : ∀ k, k < n → (k - 1) / 2 = i → 0 < k →
            key t.heap_ c ≤ key t.heap_ k := by
          intro k hk hp h0
          have : k = i * 2 + 1 ∨ k = i * 2 + 2 := by omega
          rcases this with rfl | rfl
          · exact hcj
          · exact hcj1 hk
        split at h
        · rename_i a b ha hb
          have ka := key_of_getElem? ha
          have kb := key_of_getElem? hb
          split at h
          · rename_i hlt
            simp only [Except.ok.injEq, Prod.mk.injEq] at h
            obtain ⟨rfl, rfl⟩ := h
            simp only [TimerNode.lt, decide_eq_true_eq] at hlt
            refine ⟨downInv_done hinv ?_, List.Perm.refl _, rfl, fun _ _ => rfl, le_refl _⟩
            intro k hk hp h0
            have := hmin k hk hp h0
            omega
          · rename_i hlt
            simp only [TimerNode.lt, decide_eq_true_eq, not_lt] at hlt
            split at h
            · rename_i t2 hswap
              obtain ⟨a', b', ha', hb', hheap, _⟩ := SwapNode__ok hswap
              rw [ha] at ha'; rw [hb] at hb'
              cases ha'; cases hb'
              have hlen : t2.heap_.length = t.heap_.length := by rw [hheap]; simp
              have hinv2 : downInv t2.heap_ n c := by
                rw [hheap]
                exact downInv_swap hinv ha hb hcn (by omega) hlt hmin
              obtain ⟨r1, r2, r3, r4, r5⟩ :=
                ih t2 t1 c i1 hcn (by omega) (by omega) hinv2 h
              refine ⟨r1, r2.trans ?_, by omega, ?_, by omega⟩
              · rw [hheap]; exact swap_perm _ _ _ _ _ ha hb
              · intro k hk
                rw [r4 k hk, hheap, swap_getElem? _ _ _ _ _ _ (by omega) (by omega)]
                rw [if_neg (by omega), if_neg (by omega)]
            · cases h
        · cases h
    · rename_i hjn
      simp only [Except.ok.injEq, Prod.mk.injEq] at h
      obtain ⟨rfl, rfl⟩ := h
      refine ⟨downInv_done hinv ?_, List.Perm.refl _, rfl, fun _ _ => rfl, le_refl _⟩
      intro k hk hp h0
      omega

theorem parentIdx_zero : parentIdx 0 = 9223372036854775807 := by decide

/-- At the root, `siftup_` computes the parent position `(0 - 1) / 2 = 2^63 - 1` and
reads `heap_` there, outside every vector of fewer than `2^63` nodes. -/
theorem siftup__root (t : HeapTimer) (h0 : 0 < t.heap_.length)
    (hsz : t.heap_.length < 2 ^ 63) : siftup_ t 0 = .error .outOfRange := by
  unfold siftup_
  rw [if_pos h0, parentIdx_zero]
  unfold siftupLoop
  have : t.heap_[9223372036854775807]? = none := List.getElem?_eq_none (by omega)
  rw [this]

theorem key_dropLast (l : List TimerNode) (k : Nat) (hk : k < l.length - 1) :
    key l.dropLast k = key l k := by
  unfold key
  rw [List.getElem?_dropLast, if_pos hk]

/-- Removing the root of an ordered heap: when `del_(0)` returns, the vector is the old
one without its first node, and it is ordered again. -/
theorem del__root_spec (t t1 : HeapTimer) (hord : heapOrdered t)
    (hsz : t.heap_.length < 2 ^ 63) (h : del_ t 0 = .ok t1) :
    ∃ r, t.heap_.head? = some r ∧ (r :: t1.heap_).Perm t.heap_ ∧ heapOrdered t1 := by
  unfold del_ at h
  split at h
  swap
  · cases h
  rename_i hlen
  have hkey := (orderedUpTo_iff_key t.heap_ t.heap_.length (le_refl _)).mp hord
  simp only at h
  split at h
  swap
  · cases h
  rename_i t2 hmoved
  split at h
  swap
  · cases h
  rename_i last hlast
  cases h
  have hperm_last : ∀ r, t2.heap_.getLast? = some r → (r :: t2.heap_.dropLast).Perm t2.heap_ := by
    intro r hr
    have := List.dropLast_append_getLast? r (Option.mem_def.mpr hr)
    conv_rhs => rw [← this]
    exact (List.perm_append_singleton r _).symm
  by_cases hn : 0 < t.heap_.length - 1
  · rw [if_pos hn] at hmoved
    split at hmoved
    swap
    · cases hmoved
    rename_i t3 hswap
    obtain ⟨a, b, ha, hb, hheap, _⟩ := SwapNode__ok hswap
    have hlen3 : t3.heap_.length = t.heap_.length := by rw [hheap]; simp
    unfold siftDownOrUp siftdown_ at hmoved
    rw [if_pos ⟨by omega, by omega⟩] at hmoved
    split at hmoved
    swap
    · cases hmoved
    rename_i t4 moved hsd
    split at hsd
    swap
    · cases hsd
    rename_i t5 i5 hloop
    simp only [Except.ok.injEq, Prod.mk.injEq] at hsd
    obtain ⟨rfl, rfl⟩ := hsd
    have hinv : downInv t3.heap_ (t.heap_.length - 1) 0 := by
      constructor
      · intro k hk h0 hp
        rw [hheap, swap_key _ _ _ _ _ _ ha hb, swap_key _ _ _ _ _ _ ha hb]
        rw [if_neg (by omega), if_neg (by omega), if_neg (by omega), if_neg (by omega)]
        exact hkey k (by omega) h0
      · intro h0; omega
    obtain ⟨r1, r2, r3, r4, _⟩ :=
      siftdownLoop_spec (t.heap_.length - 1) _ t3 t5 0 i5 hn (by omega) (by omega) hinv hloop
    split at hmoved
    · cases hmoved
      have hl : t2.heap_.getLast? = some a := by
        rw [List.getLast?_eq_getElem?, r3, hlen3, r4 _ (le_refl _), hheap,
          swap_getElem? _ _ _ _ _ _ (by omega) (by omega), if_pos rfl]
      rw [hl] at hlast
      cases hlast
      refine ⟨last, by rw [List.head?_eq_getElem?]; exact ha,
        ((hperm_last last hl).trans (r2.trans ?_)), ?_⟩
      · rw [hheap]; exact swap_perm _ _ _ _ _ ha hb
      · unfold heapOrdered
        simp only
        rw [orderedUpTo_iff_key _ _ (le_refl _)]
        intro k hk h0
        simp only [List.length_dropLast] at hk
        rw [key_dropLast _ _ (by omega), key_dropLast _ _ (by omega)]
        exact r1 k (by omega) h0
    · rw [siftup__root t5 (by omega) (by omega)] at hmoved
      cases hmoved
  · rw [if_neg hn] at hmoved
    cases hmoved
    have h1 : t.heap_.length = 1 := by omega
    have hl : t.heap_.getLast? = t.heap_.head? := by
      rw [List.getLast?_eq_getElem?, List.head?_eq_getElem?, h1]
    refine ⟨last, by rw [← hl]; exact hlast, hperm_last last hlast, ?_⟩
    unfold heapOrdered orderedUpTo
    intro k hk h0
    simp only [List.length_dropLast] at hk
    omega

/-- The whole milliseconds of a duration are positive exactly when the duration is at
least one millisecond. -/
theorem durationCastMS_pos (d : Int) : 0 < durationCastMS d ↔ TICKS_PER_MS ≤ d := by
  unfold durationCastMS TICKS_PER_MS
  by_cases hd : 0 ≤ d
  · rw [Int.tdiv_eq_ediv hd (by decide)]
    omega
  · have h1 : d = -(-d) := by omega
    have h2 : (-d).tdiv 1000000 = (-d) / 1000000 := Int.tdiv_eq_ediv (by omega) (by decide)
    rw [h1, Int.neg_tdiv, h2]
    omega

theorem key_root_le (l : List TimerNode)
    (h : ∀ k, k < l.length → 0 < k → key l ((k - 1) / 2) ≤ key l k) :
    ∀ k, k < l.length → key l 0 ≤ key l k := by
  intro k
  induction k using Nat.strong_induction_on with
  | _ k ih =>
    intro hk
    by_cases h0 : k = 0
    · subst h0; exact le_refl _
    · have h1 := ih ((k - 1) / 2) (by omega) (by omega)
      have h2 := h k hk (by omega)
      omega

/-- In an ordered heap the root holds the minimum deadline. -/
theorem rootIsMin_of_heapOrdered (t : HeapTimer) (h : heapOrdered t) : rootIsMin t := by
  have hk := key_root_le t.heap_ ((orderedUpTo_iff_key _ _ (le_refl _)).mp h)
  intro r hr nd hnd
  rw [Option.mem_def, List.head?_eq_getElem?] at hr
  obtain ⟨k, hk1, hk2⟩ := List.getElem_of_mem hnd
  have e : t.heap_[k]? = some nd := by rw [List.getElem?_eq_getElem hk1, hk2]
  have := hk k hk1
  rwa [key_of_getElem? hr, key_of_getElem? e] at this

theorem tickLoop_spec (now : Int) :
    ∀ (fuel : Nat) (t t1 : HeapTimer) (k0 k : Nat) (fired0 fired : List TimerNode),
      heapOrdered t → t.heap_.length < 2 ^ 63 →
      tickLoop fuel t (fun _ => now) k0 fired0 = .ok (t1, fired, k) →
      ∃ new, fired = fired0 ++ new ∧ (new ++ t1.heap_).Perm t.heap_ ∧
        (∀ nd ∈ new, nd.expires - now < TICKS_PER_MS) ∧
        (∀ nd ∈ t1.heap_, TICKS_PER_MS ≤ nd.expires - now) ∧ heapOrdered t1 := by
  intro fuel
  induction fuel with
  | zero => intro t t1 k0 k fired0 fired _ _ h; simp [tickLoop] at h
  | succ fuel ih =>
    intro t t1 k0 k fired0 fired hord hsz h
    unfold tickLoop at h
    split at h
    · rename_i hhead
      simp only [Except.ok.injEq, Prod.mk.injEq] at h
      obtain ⟨rfl, rfl, rfl⟩ := h
      refine ⟨[], by simp, by simp, by simp, ?_, hord⟩
      intro nd hnd
      rw [List.head?_eq_none_iff] at hhead
      rw [hhead] at hnd
      simp at hnd
    · rename_i node hhead
      split at h
      · rename_i hpos
        beta_reduce at hpos
        simp only [Except.ok.injEq, Prod.mk.injEq] at h
        obtain ⟨rfl, rfl, rfl⟩ := h
        refine ⟨[], by simp, by simp, by simp, ?_, hord⟩
        intro nd hnd
        have hmin := rootIsMin_of_heapOrdered t hord node (Option.mem_def.mpr hhead) nd hnd
        have := (durationCastMS_pos _).mp hpos
        omega
      · rename_i hpos
        beta_reduce at hpos
        split at h
        swap
        · cases h
        rename_i t2 hpop
        unfold pop at hpop
        split at hpop
        · cases hpop
        obtain ⟨r, hr, hperm, hord2⟩ := del__root_spec t t2 hord hsz hpop
        rw [hhead] at hr
        cases hr
        have hlen : t2.heap_.length < 2 ^ 63 := by
          have := hperm.length_eq
          simp only [List.length_cons] at this
          omega
        obtain ⟨new, h1, h2, h3, h4, h5⟩ := ih t2 t1 _ k _ fired hord2 hlen h
        refine ⟨node :: new, by rw [h1]; simp, ?_, ?_, h4, h5⟩
        · exact ((h2.cons node)).trans hperm
        · intro nd hnd
          simp only [List.mem_cons] at hnd
          rcases hnd with rfl | hnd
          · have := (durationCastMS_pos (nd.expires - now)).not.mp (by omega)
            omega
          · exact h3 nd hnd

theorem indexOfId_spec (l : List TimerNode) (hnd : (l.map (·.id)).Nodup) :
    ∀ id i, indexOfId l id = some i ↔ ∃ nd, l[i]? = some nd ∧ nd.id = id := by
  induction l with
  | nil => intro id i; simp [indexOfId]
  | cons c l ih =>
    intro id i
    simp only [List.map_cons, List.nodup_cons, List.mem_map, not_exists, not_and] at hnd
    obtain ⟨hc, hnd⟩ := hnd
    unfold indexOfId
    by_cases e : c.id = id
    · rw [if_pos e]
      constructor
      · intro h; cases h; exact ⟨c, by simp, e⟩
      · rintro ⟨nd, h1, h2⟩
        cases i with
        | zero => rfl
        | succ i =>
          simp only [List.getElem?_cons_succ] at h1
          exact absurd (h2.trans e.symm) (hc nd (List.getElem?_mem h1))
    · rw [if_neg e]
      cases i with
      | zero =>
        simp only [Option.map_eq_some', List.getElem?_cons_zero, Option.some.injEq]
        constructor
        · rintro ⟨a, _, h⟩; omega
        · rintro ⟨nd, rfl, h⟩; exact absurd h e
      | succ i =>
        simp only [Option.map_eq_some', List.getElem?_cons_succ, add_left_inj, exists_eq_right]
        exact ih hnd id i

/-- A vector with pairwise distinct ids, indexed by `HeapTimer.ofList`, satisfies the
side-index invariant. -/
theorem refConsistent_ofList (l : List TimerNode) (hnd : (l.map (·.id)).Nodup) :
    refConsistent (HeapTimer.ofList l) :=
  indexOfId_spec l hnd

theorem parentIdx_pos (i : Nat) (h0 : 0 < i) (h : i < 2 ^ 64) : parentIdx i = (i - 1) / 2 := by
  unfold parentIdx SIZE_T_MOD
  have : (i + 18446744073709551616 - 1) % 18446744073709551616 = i - 1 := by omega
  rw [this]

theorem upInv_swap {l : List TimerNode} {n i : Nat} {a b : TimerNode}
    (h : upInv l n i) (h0 : 0 < i) (hi : l[i]? = some a)
    (hj : l[(i - 1) / 2]? = some b) (hab : a.expires ≤ b.expires) :
    upInv ((l.set i b).set ((i - 1) / 2) a) n ((i - 1) / 2) := by
  have ka := key_of_getElem? hi
  have kb := key_of_getElem? hj
  constructor
  · intro k hk hk0 hne
    rw [swap_key l i _ _ a b hi hj, swap_key l i _ _ a b hi hj]
    rw [if_neg (Ne.symm hne)]
    by_cases e1 : i = k
    · subst e1
      rw [if_pos rfl, if_pos rfl]
      omega
    · rw [if_neg e1]
      by_cases e2 : (i - 1) / 2 = (k - 1) / 2
      · rw [if_pos e2]
        have := h.1 k hk hk0 (Ne.symm e1)
        rw [← e2] at this
        omega
      · rw [if_neg e2]
        by_cases e3 : i = (k - 1) / 2
        · rw [if_pos e3]
          exact h.2 h0 k hk e3.symm
        · rw [if_neg e3]
          exact h.1 k hk hk0 (Ne.symm e1)
  · intro hj0 k hk hp
    rw [swap_key l i _ _ a b hi hj, swap_key l i _ _ a b hi hj]
    rw [if_neg (by omega), if_neg (by omega), if_neg (by omega)]
    have hgp := h.1 ((i - 1) / 2) (by omega) hj0 (by omega)
    by_cases e1 : i = k
    · rw [if_pos e1]; exact hgp
    · rw [if_neg e1]
      have := h.1 k hk (by omega) (Ne.symm e1)
      rw [hp] at this
      omega

theorem siftupLoop_spec (n : Nat) :
    ∀ (fuel : Nat) (t t1 : HeapTimer) (i : Nat), i < n → n ≤ t.heap_.length →
      t.heap_.length < 2 ^ 63 → upInv t.heap_ n i →
      siftupLoop fuel t i (parentIdx i) = .ok t1 →
      (∀ k, k < n → 0 < k → key t1.heap_ ((k - 1) / 2) ≤ key t1.heap_ k) ∧
        t1.heap_.Perm t.heap_ ∧ t1.heap_.length = t.heap_.length ∧
        (∀ k, n ≤ k → t1.heap_[k]? = t.heap_[k]?) := by
  intro fuel
  induction fuel with
  | zero => intro t t1 i _ _ _ _ h; simp [siftupLoop] at h
  | succ fuel ih =>
    intro t t1 i hin hn hsz hinv h
    unfold siftupLoop at h
    by_cases h0 : i = 0
    · subst h0
      rw [parentIdx_zero, List.getElem?_eq_none (by omega)] at h
      cases h
    · rw [parentIdx_pos i (by omega) (by omega)] at h
      split at h
      swap
      · cases h
      rename_i b a hb ha
      have ka := key_of_getElem? ha
      have kb := key_of_getElem? hb
      split at h
      · rename_i hlt
        cases h
        simp only [TimerNode.lt, decide_eq_true_eq] at hlt
        refine ⟨?_, List.Perm.refl _, rfl, fun _ _ => rfl⟩
        intro k hk hk0
        by_cases e : k = i
        · subst e; omega
        · exact hinv.1 k hk hk0 e
      · rename_i hlt
        simp only [TimerNode.lt, decide_eq_true_eq, not_lt] at hlt
        split at h
        swap
        · cases h
        rename_i t2 hswap
        obtain ⟨a', b', ha', hb', hheap, _⟩ := SwapNode__ok hswap
        rw [ha] at ha'; rw [hb] at hb'
        cases ha'; cases hb'
        have hlen : t2.heap_.length = t.heap_.length := by rw [hheap]; simp
        have hinv2 : upInv t2.heap_ n ((i - 1) / 2) := by
          rw [hheap]
          exact upInv_swap hinv (by omega) ha hb hlt
        obtain ⟨r1, r2, r3, r4⟩ :=
          ih t2 t1 ((i - 1) / 2) (by omega) (by omega) (by omega) hinv2 h
        refine ⟨r1, r2.trans ?_, by omega, ?_⟩
        · rw [hheap]; exact swap_perm _ _ _ _ _ ha hb
        · intro k hk
          rw [r4 k hk, hheap, swap_getElem? _ _ _ _ _ _ (by omega) (by omega)]
          rw [if_neg (by omega), if_neg (by omega)]

theorem siftdownLoop_stay {t t2 : HeapTimer} {n i i2 fuel : Nat} (hsz : i < 2 ^ 63)
    (hlt : ∀ k, k < n → (k - 1) / 2 = i → 0 < k → key t.heap_ i < key t.heap_ k)
    (h : siftdownLoop fuel t n i (childIdx i) = .ok (t2, i2)) : t2 = t ∧ i2 = i := by
  rw [childIdx_eq i hsz] at h
  cases fuel with
  | zero => simp [siftdownLoop] at h
  | succ fuel =>
    unfold siftdownLoop at h
    split at h
    · rename_i hjn
      split at h
      · cases h
      · rename_i c hpick
        obtain ⟨hc, _, _⟩ := pickChild_spec hpick
        split at h
        · rename_i a b ha hb
          have ka := key_of_getElem? ha
          have kb := key_of_getElem? hb
          split at h
          · simp only [Except.ok.injEq, Prod.mk.injEq] at h
            exact ⟨h.1.symm, h.2.symm⟩
          · rename_i hnlt
            simp only [TimerNode.lt, decide_eq_true_eq, not_lt] at hnlt
            have := hlt c (by omega) (by omega) (by omega)
            omega
        · cases h
    · simp only [Except.ok.injEq, Prod.mk.injEq] at h
      exact ⟨h.1.symm, h.2.symm⟩

/-- The sequence `if(!siftdown_(i, n)) siftup_(i)` repairs a heap whose order is
disturbed only at position `i`: when it returns, the first `n` positions are ordered,
the nodes are the same, and the positions from `n` on are untouched. -/
theorem siftDownOrUp_spec (t t1 : HeapTimer) (i n : Nat) (hin : i < n)
    (hn : n ≤ t.heap_.length) (hsz : t.heap_.length < 2 ^ 63)
    (h1 : ∀ k, k < n → 0 < k → k ≠ i → (k - 1) / 2 ≠ i →
      key t.heap_ ((k - 1) / 2) ≤ key t.heap_ k)
    (h2 : 0 < i → ∀ k, k < n → (k - 1) / 2 = i →
      key t.heap_ ((i - 1) / 2) ≤ key t.heap_ k)
    (h : siftDownOrUp t i n = .ok t1) :
    (∀ k, k < n → 0 < k → key t1.heap_ ((k - 1) / 2) ≤ key t1.heap_ k) ∧
      t1.heap_.Perm t.heap_ ∧ t1.heap_.length = t.heap_.length ∧
      (∀ k, n ≤ k → t1.heap_[k]? = t.heap_[k]?) := by
  unfold siftDownOrUp siftdown_ at h
  rw [if_pos ⟨by omega, hn⟩] at h
  split at h
  swap
  · cases h
  rename_i t2 moved hsd
  split at hsd
  swap
  · cases hsd
  rename_i t3 i3 hloop
  simp only [Except.ok.injEq, Prod.mk.injEq] at hsd
  obtain ⟨rfl, rfl⟩ := hsd
  by_cases hcase : i = 0 ∨ key t.heap_ ((i - 1) / 2) ≤ key t.heap_ i
  · have hinv : downInv t.heap_ n i := by
      constructor
      · intro k hk hk0 hp
        by_cases e : k = i
        · subst e
          rcases hcase with e0 | e0
          · omega
          · exact e0
        · exact h1 k hk hk0 e hp
      · exact h2
    obtain ⟨r1, r2, r3, r4, _⟩ := siftdownLoop_spec n _ t t3 i i3 hin hn hsz hinv hloop
    split at h
    · cases h
      exact ⟨r1, r2, r3, r4⟩
    · unfold siftup_ at h
      rw [if_pos (by omega)] at h
      have hup : upInv t3.heap_ n i := by
        constructor
        · intro k hk hk0 _
          exact r1 k hk hk0
        · intro hi0 k hk hp
          have a1 := r1 i hin hi0
          have a2 := r1 k hk (by omega)
          rw [hp] at a2
          omega
      obtain ⟨s1, s2, s3, s4⟩ :=
        siftupLoop_spec n _ t3 t1 i hin (by omega) (by omega) hup h
      exact ⟨s1, s2.trans r2, by omega, fun k hk => by rw [s4 k hk, r4 k hk]⟩
  · have hi0 : 0 < i := by omega
    have hlt : key t.heap_ i < key t.heap_ ((i - 1) / 2) := by omega
    have hch : ∀ k, k < n → (k - 1) / 2 = i → 0 < k → key t.heap_ i < key t.heap_ k := by
      intro k hk hp _
      have := h2 hi0 k hk hp
      omega
    obtain ⟨rfl, rfl⟩ := siftdownLoop_stay (by omega) hch hloop
    rw [if_neg (by simp)] at h
    unfold siftup_ at h
    rw [if_pos (by omega)] at h
    have hup : upInv t3.heap_ n i3 := by
      constructor
      · intro k hk hk0 hne
        by_cases e : (k - 1) / 2 = i3
        · have := hch k hk e hk0
          rw [e]; omega
        · exact h1 k hk hk0 hne e
      · exact h2
    exact siftupLoop_spec n _ t3 t1 i3 hin hn hsz hup h

theorem key_append_left (l : List TimerNode) (x : List TimerNode) (k : Nat)
    (hk : k < l.length) : key (l ++ x) k = key l k := by
  unfold key
  rw [List.getElem?_append_left hk]

theorem key_set_ne (l : List TimerNode) (i k : Nat) (x : TimerNode) (h : i ≠ k) :
    key (l.set i x) k = key l k := by
  unfold key
  rw [List.getElem?_set_ne h]

theorem heapOrdered_of_key (t : HeapTimer)
    (h : ∀ k, k < t.heap_.length → 0 < k → key t.heap_ ((k - 1) / 2) ≤ key t.heap_ k) :
    heapOrdered t :=
  (orderedUpTo_iff_key _ _ (le_refl _)).mpr h

/-- Partial correctness of `add` for the heap order: whenever `add` returns on an ordered
heap, the result is ordered and holds the old nodes with the new or updated one. -/
theorem add_keeps_order (t t1 : HeapTimer) (now id timeout : Int) (cb : Nat)
    (hord : heapOrdered t) (hsz : t.heap_.length + 1 < 2 ^ 63)
    (h : add t now id timeout cb = .ok t1) :
    heapOrdered t1 ∧
      ((t.ref_ id = none ∧
          t1.heap_.Perm (t.heap_ ++ [{ id := id, expires := now + MS timeout, cb := cb }])) ∨
        ∃ i nd, t.ref_ id = some i ∧ t.heap_[i]? = some nd ∧
          t1.heap_.Perm (t.heap_.set i { nd with expires := now + MS timeout, cb := cb })) := by
  have hkey := (orderedUpTo_iff_key t.heap_ t.heap_.length (le_refl _)).mp hord
  unfold add at h
  split at h
  · cases h
  split at h
  · rename_i hnone
    unfold siftup_ at h
    simp only [List.length_append, List.length_singleton] at h
    rw [if_pos (by omega)] at h
    have hup : upInv (t.heap_ ++ [{ id := id, expires := now + MS timeout, cb := cb }])
        (t.heap_.length + 1) t.heap_.length := by
      constructor
      · intro k hk hk0 hne
        rw [key_append_left _ _ _ (by omega), key_append_left _ _ _ (by omega)]
        exact hkey k (by omega) hk0
      · intro _ k hk hp
        omega
    obtain ⟨r1, r2, r3, _⟩ :=
      siftupLoop_spec (t.heap_.length + 1) _ _ t1 t.heap_.length (by omega)
        (by simp) (by simp; omega) hup h
    refine ⟨heapOrdered_of_key t1 ?_, Or.inl ⟨hnone, r2⟩⟩
    intro k hk hk0
    simp only [List.length_append, List.length_singleton] at r3
    exact r1 k (by omega) hk0
  · rename_i i hsome
    split at h
    · cases h
    rename_i nd hnd
    have hil := (List.getElem?_eq_some.mp hnd).1
    simp only [List.length_set] at h
    obtain ⟨r1, r2, r3, _⟩ :=
      siftDownOrUp_spec _ t1 i t.heap_.length hil (by simp) (by simp; omega)
        (by
          intro k hk hk0 hne hp
          rw [key_set_ne _ _ _ _ (Ne.symm hp), key_set_ne _ _ _ _ (Ne.symm hne)]
          exact hkey k hk hk0)
        (by
          intro hi0 k hk hp
          rw [key_set_ne _ _ _ _ (by omega), key_set_ne _ _ _ _ (by omega)]
          have a1 := hkey i hil hi0
          have a2 := hkey k hk (by omega)
          rw [hp] at a2
          omega)
        h
    refine ⟨heapOrdered_of_key t1 ?_, Or.inr ⟨i, nd, hsome, hnd, r2⟩⟩
    intro k hk hk0
    simp only [List.length_set] at r3
    exact r1 k (by omega) hk0

/-- Partial correctness of `del_` for the heap order: whenever `del_(i)` returns on an
ordered heap, the result is ordered and holds the old nodes without the one that was at
position `i`. -/
theorem del__keeps_order (t t1 : HeapTimer) (i : Nat) (hord : heapOrdered t)
    (hsz : t.heap_.length < 2 ^ 63) (h : del_ t i = .ok t1) :
    ∃ nd, t.heap_[i]? = some nd ∧ (nd :: t1.heap_).Perm t.heap_ ∧ heapOrdered t1 := by
  have hkey := (orderedUpTo_iff_key t.heap_ t.heap_.length (le_refl _)).mp hord
  unfold del_ at h
  split at h
  swap
  · cases h
  rename_i hlen
  simp only at h
  split at h
  swap
  · cases h
  rename_i t2 hmoved
  split at h
  swap
  · cases h
  rename_i last hlast
  cases h
  have hperm_last : ∀ r, t2.heap_.getLast? = some r → (r :: t2.heap_.dropLast).Perm t2.heap_ := by
    intro r hr
    have := List.dropLast_append_getLast? r (Option.mem_def.mpr hr)
    conv_rhs => rw [← this]
    exact (List.perm_append_singleton r _).symm
  by_cases hn : i < t.heap_.length - 1
  · rw [if_pos hn] at hmoved
    split at hmoved
    swap
    · cases hmoved
    rename_i t3 hswap
    obtain ⟨a, b, ha, hb, hheap, _⟩ := SwapNode__ok hswap
    have hlen3 : t3.heap_.length = t.heap_.length := by rw [hheap]; simp
    obtain ⟨r1, r2, r3, r4⟩ :=
      siftDownOrUp_spec t3 t2 i (t.heap_.length - 1) hn (by omega) (by omega)
        (by
          intro k hk hk0 hne hp
          rw [hheap, swap_key _ _ _ _ _ _ ha hb, swap_key _ _ _ _ _ _ ha hb]
          rw [if_neg (by omega), if_neg (Ne.symm hp), if_neg (by omega), if_neg (Ne.symm hne)]
          exact hkey k (by omega) hk0)
        (by
          intro hi0 k hk hp
          rw [hheap, swap_key _ _ _ _ _ _ ha hb, swap_key _ _ _ _ _ _ ha hb]
          rw [if_neg (by omega), if_neg (by omega), if_neg (by omega), if_neg (by omega)]
          have a1 := hkey i (by omega) hi0
          have a2 := hkey k (by omega) (by omega)
          rw [hp] at a2
          omega)
        hmoved
    have hl : t2.heap_.getLast? = some a := by
      rw [List.getLast?_eq_getElem?, r3, hlen3, r4 _ (le_refl _), hheap,
        swap_getElem? _ _ _ _ _ _ (by omega) (by omega), if_pos rfl]
    rw [hl] at hlast
    cases hlast
    refine ⟨last, ha, (hperm_last last hl).trans (r2.trans ?_), heapOrdered_of_key _ ?_⟩
    · rw [hheap]; exact swap_perm _ _ _ _ _ ha hb
    · intro k hk hk0
      simp only [List.length_dropLast] at hk
      rw [key_dropLast _ _ (by omega), key_dropLast _ _ (by omega)]
      exact r1 k (by omega) hk0
  · rw [if_neg hn] at hmoved
    cases hmoved
    have hi : i = t.heap_.length - 1 := by omega
    refine ⟨last, by rw [hi, ← List.getLast?_eq_getElem?]; exact hlast,
      hperm_last last hlast, heapOrdered_of_key _ ?_⟩
    intro k hk hk0
    simp only [List.length_dropLast] at hk
    rw [key_dropLast _ _ (by omega), key_dropLast _ _ (by omega)]
    exact hkey k (by omega) hk0

/-- Each `SwapNode_` keeps the side index in step with the vector. -/
theorem SwapNode__keeps_index {t t1 : HeapTimer} {i j : Nat} (hc : refConsistent t)
    (h : SwapNode_ t i j = .ok t1) : refConsistent t1 := by
  obtain ⟨a, b, ha, hb, hheap, href⟩ := SwapNode__ok h
  have hil := (List.getElem?_eq_some.mp ha).1
  have hjl := (List.getElem?_eq_some.mp hb).1
  have ra : t.ref_ a.id = some i := (hc a.id i).mpr ⟨a, ha, rfl⟩
  have rb : t.ref_ b.id = some j := (hc b.id j).mpr ⟨b, hb, rfl⟩
  intro id m
  rw [href, hheap, swap_getElem? _ _ _ _ _ _ hil hjl]
  unfold refSet
  by_cases e1 : id = a.id
  · rw [if_pos e1]
    constructor
    · intro hm
      cases hm
      exact ⟨a, by rw [if_pos rfl], e1.symm⟩
    · rintro ⟨nd, hnd, hid⟩
      by_cases m1 : j = m
      · rw [m1]
      · rw [if_neg m1] at hnd
        by_cases m2 : i = m
        · rw [if_pos m2] at hnd
          cases hnd
          have : t.ref_ a.id = some j := by rw [← e1, ← hid]; exact rb
          rw [ra] at this
          cases this
          exact absurd m2 m1
        · rw [if_neg m2] at hnd
          have : t.ref_ a.id = some m := (hc a.id m).mpr ⟨nd, hnd, hid.trans e1⟩
          rw [ra] at this
          cases this
          exact absurd rfl m2
  · rw [if_neg e1]
    by_cases e2 : id = b.id
    · rw [if_pos e2]
      constructor
      · intro hm
        cases hm
        by_cases m1 : j = i
        · subst m1
          rw [ha] at hb
          cases hb
          exact absurd e2 e1
        · exact ⟨b, by rw [if_neg m1, if_pos rfl], e2.symm⟩
      · rintro ⟨nd, hnd, hid⟩
        by_cases m1 : j = m
        · rw [if_pos m1] at hnd
          cases hnd
          exact absurd hid.symm e1
        · rw [if_neg m1] at hnd
          by_cases m2 : i = m
          · rw [m2]
          · rw [if_neg m2] at hnd
            have : t.ref_ b.id = some m := (hc b.id m).mpr ⟨nd, hnd, hid.trans e2⟩
            rw [rb] at this
            cases this
            exact absurd rfl m1
    · rw [if_neg e2, hc id m]
      constructor
      · rintro ⟨nd, hnd, hid⟩
        by_cases m1 : j = m
        · subst m1
          rw [hb] at hnd
          cases hnd
          exact absurd hid.symm e2
        · by_cases m2 : i = m
          · subst m2
            rw [ha] at hnd
            cases hnd
            exact absurd hid.symm e1
          · exact ⟨nd, by rw [if_neg m1, if_neg m2]; exact hnd, hid⟩
      · rintro ⟨nd, hnd, hid⟩
        by_cases m1 : j = m
        · rw [if_pos m1] at hnd
          cases hnd
          exact absurd hid.symm e1
        · rw [if_neg m1] at hnd
          by_cases m2 : i = m
          · rw [if_pos m2] at hnd
            cases hnd
            exact absurd hid.symm e2
          · rw [if_neg m2] at hnd
            exact ⟨nd, hnd, hid⟩

theorem siftupLoop_keeps_index :
    ∀ (fuel : Nat) (t t1 : HeapTimer) (i j : Nat), refConsistent t →
      siftupLoop fuel t i j = .ok t1 → refConsistent t1 := by
  intro fuel
  induction fuel with
  | zero => intro t t1 i j _ h; simp [siftupLoop] at h
  | succ fuel ih =>
    intro t t1 i j hc h
    unfold siftupLoop at h
    split at h
    swap
    · cases h
    split at h
    · cases h; exact hc
    · split at h
      swap
      · cases h
      rename_i t2 hswap
      exact ih t2 t1 _ _ (SwapNode__keeps_index hc hswap) h

theorem siftdownLoop_keeps_index :
    ∀ (fuel : Nat) (t t1 : HeapTimer) (n i j i1 : Nat), refConsistent t →
      siftdownLoop fuel t n i j = .ok (t1, i1) → refConsistent t1 := by
  intro fuel
  induction fuel with
  | zero => intro t t1 n i j i1 _ h; simp [siftdownLoop] at h
  | succ fuel ih =>
    intro t t1 n i j i1 hc h
    unfold siftdownLoop at h
    split at h
    · split at h
      · cases h
      · split at h
        swap
        · cases h
        split at h
        · simp only [Except.ok.injEq, Prod.mk.injEq] at h
          rw [← h.1]; exact hc
        · split at h
          swap
          · cases h
          rename_i t2 hswap
          exact ih t2 t1 _ _ _ _ (SwapNode__keeps_index hc hswap) h
    · simp only [Except.ok.injEq, Prod.mk.injEq] at h
      rw [← h.1]; exact hc

theorem siftup__keeps_index {t t1 : HeapTimer} {i : Nat} (hc : refConsistent t)
    (h : siftup_ t i = .ok t1) : refConsistent t1 := by
  unfold siftup_ at h
  split at h
  · exact siftupLoop_keeps_index _ _ _ _ _ hc h
  · cases h

theorem siftdown__keeps_index {t t1 : HeapTimer} {i n : Nat} {moved : Bool}
    (hc : refConsistent t) (h : siftdown_ t i n = .ok (t1, moved)) : refConsistent t1 := by
  unfold siftdown_ at h
  split at h
  swap
  · cases h
  split at h
  swap
  · cases h
  rename_i t2 i2 hloop
  simp only [Except.ok.injEq, Prod.mk.injEq] at h
  rw [← h.1]
  exact siftdownLoop_keeps_index _ _ _ _ _ _ _ hc hloop

theorem siftDownOrUp_keeps_index {t t1 : HeapTimer} {i n : Nat} (hc : refConsistent t)
    (h : siftDownOrUp t i n = .ok t1) : refConsistent t1 := by
  unfold siftDownOrUp at h
  split at h
  swap
  · cases h
  rename_i t2 moved hsd
  have h2 := siftdown__keeps_index hc hsd
  split at h
  · cases h; exact h2
  · exact siftup__keeps_index h2 h

theorem refConsistent_push {t : HeapTimer} (hc : refConsistent t) (nd : TimerNode)
    (hnew : t.ref_ nd.id = none) :
    refConsistent { heap_ := t.heap_ ++ [nd], ref_ := refSet t.ref_ nd.id t.heap_.length } := by
  intro id m
  simp only [refSet]
  by_cases e : id = nd.id
  · rw [if_pos e]
    constructor
    · intro hm
      cases hm
      exact ⟨nd, by simp, e.symm⟩
    · rintro ⟨x, hx, hid⟩
      by_cases hm : m < t.heap_.length
      · rw [List.getElem?_append_left hm] at hx
        have := (hc nd.id m).mpr ⟨x, hx, hid.trans e⟩
        rw [hnew] at this
        cases this
      · have := (List.getElem?_eq_some.mp hx).1
        simp only [List.length_append, List.length_singleton] at this
        have : m = t.heap_.length := by omega
        rw [this]
  · rw [if_neg e, hc id m]
    constructor
    · rintro ⟨x, hx, hid⟩
      have hm := (List.getElem?_eq_some.mp hx).1
      exact ⟨x, by rw [List.getElem?_append_left hm]; exact hx, hid⟩
    · rintro ⟨x, hx, hid⟩
      by_cases hm : m < t.heap_.length
      · rw [List.getElem?_append_left hm] at hx
        exact ⟨x, hx, hid⟩
      · have := (List.getElem?_eq_some.mp hx).1
        simp only [List.length_append, List.length_singleton] at this
        have hm' : m = t.heap_.length := by omega
        subst hm'
        simp only [List.getElem?_concat_length, Option.some.injEq] at hx
        subst hx
        exact absurd hid.symm e

theorem refConsistent_set {t : HeapTimer} (hc : refConsistent t) (i : Nat) (nd nd1 : TimerNode)
    (hnd : t.heap_[i]? = some nd) (hid : nd1.id = nd.id) :
    refConsistent { t with heap_ := t.heap_.set i nd1 } := by
  have hil := (List.getElem?_eq_some.mp hnd).1
  intro id m
  simp only
  rw [hc id m, List.getElem?_set]
  by_cases e : i = m
  · subst e
    rw [if_pos rfl, if_pos hil]
    constructor
    · rintro ⟨x, hx, hxid⟩
      rw [hnd] at hx
      cases hx
      exact ⟨nd1, rfl, hid.trans hxid⟩
    · rintro ⟨x, hx, hxid⟩
      cases hx
      exact ⟨nd, hnd, hid.symm.trans hxid⟩
  · rw [if_neg e]

theorem refConsistent_pop_back {t : HeapTimer} (hc : refConsistent t) (last : TimerNode)
    (hlast : t.heap_.getLast? = some last) :
    refConsistent { heap_ := t.heap_.dropLast, ref_ := refErase t.ref_ last.id } := by
  rw [List.getLast?_eq_getElem?] at hlast
  have hl := (List.getElem?_eq_some.mp hlast).1
  intro id m
  simp only [refErase]
  rw [List.getElem?_dropLast]
  by_cases e : id = last.id
  · rw [if_pos e]
    constructor
    · intro h; cases h
    · rintro ⟨x, hx, hid⟩
      split at hx
      · rename_i hm
        have h1 := (hc last.id m).mpr ⟨x, hx, hid.trans e⟩
        have h2 := (hc last.id _).mpr ⟨last, hlast, rfl⟩
        rw [h1] at h2
        cases h2
        omega
      · cases hx
  · rw [if_neg e, hc id m]
    constructor
    · rintro ⟨x, hx, hid⟩
      have hm := (List.getElem?_eq_some.mp hx).1
      by_cases hm1 : m < t.heap_.length - 1
      · exact ⟨x, by rw [if_pos hm1]; exact hx, hid⟩
      · have : m = t.heap_.length - 1 := by omega
        subst this
        rw [hlast] at hx
        cases hx
        exact absurd hid.symm e
    · rintro ⟨x, hx, hid⟩
      split at hx
      · exact ⟨x, hx, hid⟩
      · cases hx

/-- Partial correctness of `add` for the side index: whenever `add` returns on a
consistently indexed heap, the result is consistently indexed. -/
theorem add_keeps_index (t t1 : HeapTimer) (now id timeout : Int) (cb : Nat)
    (hc : refConsistent t) (h : add t now id timeout cb = .ok t1) : refConsistent t1 := by
  unfold add at h
  split at h
  · cases h
  split at h
  · rename_i hnone
    exact siftup__keeps_index
      (refConsistent_push hc { id := id, expires := now + MS timeout, cb := cb } hnone) h
  · split at h
    · cases h
    rename_i nd hnd
    exact siftDownOrUp_keeps_index
      (refConsistent_set hc _ nd { nd with expires := now + MS timeout, cb := cb } hnd rfl) h

/-- Partial correctness of `del_` for the side index. -/
theorem del__keeps_index (t t1 : HeapTimer) (i : Nat) (hc : refConsistent t)
    (h : del_ t i = .ok t1) : refConsistent t1 := by
  unfold del_ at h
  split at h
  swap
  · cases h
  simp only at h
  split at h
  swap
  · cases h
  rename_i t2 hmoved
  split at h
  swap
  · cases h
  rename_i last hlast
  cases h
  have h2 : refConsistent t2 := by
    split at hmoved
    · split at hmoved
      swap
      · cases hmoved
      rename_i t3 hswap
      exact siftDownOrUp_keeps_index (SwapNode__keeps_index hc hswap) hmoved
    · cases hmoved; exact hc
  exact refConsistent_pop_back h2 last hlast

/-- The side index of the cleared timer mirrors its (empty) vector. -/
theorem clear_keeps_index (t : HeapTimer) : refConsistent (clear t) := by
  intro id m
  simp [clear]

theorem SwapNode__length {t t1 : HeapTimer} {i j : Nat} (h : SwapNode_ t i j = .ok t1) :
    t1.heap_.length = t.heap_.length := by
  obtain ⟨a, b, _, _, hheap, _⟩ := SwapNode__ok h
  rw [hheap]; simp

theorem SwapNode__total (t : HeapTimer) (i j : Nat) (hi : i < t.heap_.length)
    (hj : j < t.heap_.length) : ∃ t1, SwapNode_ t i j = .ok t1 := by
  unfold SwapNode_
  rw [List.getElem?_eq_getElem hi, List.getElem?_eq_getElem hj]
  exact ⟨_, rfl⟩

theorem SwapNode__error {t : HeapTimer} {i j : Nat} {e : Fault}
    (h : SwapNode_ t i j = .error e) : e = .assertFailed := by
  unfold SwapNode_ at h
  split at h
  · cases h
  · cases h; rfl

/-- The loop bound of `siftup_` is never reached: the fault `fuel` does not occur. -/
theorem siftupLoop_no_fuel :
    ∀ (fuel : Nat) (t : HeapTimer) (i : Nat), i < fuel → t.heap_.length < 2 ^ 63 →
      siftupLoop fuel t i (parentIdx i) ≠ .error .fuel := by
  intro fuel
  induction fuel with
  | zero => intro t i hi; omega
  | succ fuel ih =>
    intro t i hi hsz h
    unfold siftupLoop at h
    split at h
    swap
    · cases h
    rename_i pj pi hpj hpi
    have hil := (List.getElem?_eq_some.mp hpi).1
    have hjl := (List.getElem?_eq_some.mp hpj).1
    split at h
    · cases h
    · split at h
      · rename_i t1 hswap
        by_cases h0 : i = 0
        · subst h0
          rw [parentIdx_zero] at hjl
          omega
        · have hp := parentIdx_pos i (by omega) (by omega)
          rw [hp] at h
          exact ih t1 ((i - 1) / 2) (by omega) (by rw [SwapNode__length hswap]; exact hsz) h
      · rename_i e hswap
        have := SwapNode__error hswap
        subst this
        cases h

theorem siftup__no_fuel (t : HeapTimer) (i : Nat) (hsz : t.heap_.length < 2 ^ 63) :
    siftup_ t i ≠ .error .fuel := by
  unfold siftup_
  split
  · exact siftupLoop_no_fuel _ t i (by omega) hsz
  · intro h; cases h

theorem pickChild_total (t : HeapTimer) (n j : Nat) (hj : j < n) (hn : n ≤ t.heap_.length) :
    ∃ c, pickChild t n j = .ok c ∧ j ≤ c ∧ c < n := by
  unfold pickChild
  split
  · rename_i h1
    rw [List.getElem?_eq_getElem (by omega : j + 1 < t.heap_.length),
      List.getElem?_eq_getElem (by omega : j < t.heap_.length)]
    simp only
    split
    · exact ⟨_, rfl, by omega, h1⟩
    · exact ⟨_, rfl, le_refl _, hj⟩
  · exact ⟨_, rfl, le_refl _, hj⟩

/-- The loop of `siftdown_` always returns: with `n ≤ heap_.size()` and the node inside
the vector it reads no position outside, and the loop bound is not reached. -/
theorem siftdownLoop_total (n : Nat) :
    ∀ (fuel : Nat) (t : HeapTimer) (i : Nat), i < t.heap_.length → n ≤ t.heap_.length →
      t.heap_.length < 2 ^ 63 → 0 < fuel → n ≤ i + fuel →
      ∃ t1 i1, siftdownLoop fuel t n i (childIdx i) = .ok (t1, i1) := by
  intro fuel
  induction fuel with
  | zero => intro t i _ _ _ h; omega
  | succ fuel ih =>
    intro t i hil hn hsz _ hfuel
    rw [childIdx_eq i (by omega)]
    unfold siftdownLoop
    split
    · rename_i hjn
      obtain ⟨c, hpick, hc1, hc2⟩ := pickChild_total t n (i * 2 + 1) hjn hn
      rw [hpick]
      simp only
      rw [List.getElem?_eq_getElem hil, List.getElem?_eq_getElem (by omega : c < t.heap_.length)]
      simp only
      split
      · exact ⟨_, _, rfl⟩
      · obtain ⟨t1, hswap⟩ := SwapNode__total t i c hil (by omega)
        rw [hswap]
        simp only
        have hlen := SwapNode__length hswap
        exact ih t1 c (by omega) (by omega) (by omega) (by omega) (by omega)
    · exact ⟨_, _, rfl⟩

theorem siftdown__total (t : HeapTimer) (i n : Nat) (hi : i < t.heap_.length)
    (hn : n ≤ t.heap_.length) (hsz : t.heap_.length < 2 ^ 63) :
    ∃ t1 moved, siftdown_ t i n = .ok (t1, moved) := by
  unfold siftdown_
  rw [if_pos ⟨hi, hn⟩]
  obtain ⟨t1, i1, h⟩ :=
    siftdownLoop_total n (t.heap_.length + 1) t i hi hn hsz (by omega) (by omega)
  rw [h]
  exact ⟨_, _, rfl⟩

theorem siftdownLoop_perm :
    ∀ (fuel : Nat) (t t1 : HeapTimer) (n i j i1 : Nat),
      siftdownLoop fuel t n i j = .ok (t1, i1) → t1.heap_.Perm t.heap_ := by
  intro fuel
  induction fuel with
  | zero => intro t t1 n i j i1 h; simp [siftdownLoop] at h
  | succ fuel ih =>
    intro t t1 n i j i1 h
    unfold siftdownLoop at h
    split at h
    · split at h
      · cases h
      · split at h
        swap
        · cases h
        split at h
        · simp only [Except.ok.injEq, Prod.mk.injEq] at h
          rw [← h.1]
        · split at h
          swap
          · cases h
          rename_i t2 hswap
          obtain ⟨a, b, ha, hb, hheap, _⟩ := SwapNode__ok hswap
          refine (ih t2 t1 _ _ _ _ h).trans ?_
          rw [hheap]
          exact swap_perm _ _ _ _ _ ha hb
    · simp only [Except.ok.injEq, Prod.mk.injEq] at h
      rw [← h.1]

/-- `adjust` is total on a consistently indexed heap that holds the id: it returns, the
index stays consistent, and the vector holds the old nodes with the deadline of the
node of that id replaced. -/
theorem adjust_spec (t : HeapTimer) (now id timeout : Int) (i : Nat)
    (hc : refConsistent t) (hsz : t.heap_.length < 2 ^ 63) (hid : t.ref_ id = some i) :
    ∃ t1 nd, adjust t now id timeout = .ok t1 ∧ t.heap_[i]? = some nd ∧ refConsistent t1 ∧
      t1.heap_.Perm (t.heap_.set i { nd with expires := now + MS timeout }) := by
  obtain ⟨nd, hnd, _⟩ := (hc id i).mp hid
  have hil := (List.getElem?_eq_some.mp hnd).1
  unfold adjust
  have hne : t.heap_.isEmpty = false := by
    cases hl : t.heap_ with
    | nil => rw [hl] at hil; simp at hil
    | cons _ _ => rfl
  rw [hne]
  simp only [Bool.false_eq_true, if_false, hid, hnd]
  obtain ⟨t1, moved, hsd⟩ :=
    siftdown__total { t with heap_ := t.heap_.set i { nd with expires := now + MS timeout } } i
      t.heap_.length (by simp; exact hil) (by simp) (by simp; exact hsz)
  simp only [List.length_set]
  rw [hsd]
  refine ⟨t1, nd, rfl, rfl, ?_, ?_⟩
  · exact siftdown__keeps_index
      (refConsistent_set hc i nd { nd with expires := now + MS timeout } hnd rfl) hsd
  · unfold siftdown_ at hsd
    split at hsd
    swap
    · cases hsd
    split at hsd
    swap
    · cases hsd
    rename_i t2 i2 hloop
    simp only [Except.ok.injEq, Prod.mk.injEq] at hsd
    rw [← hsd.1]
    exact siftdownLoop_perm _ _ _ _ _ _ _ hloop

theorem siftdownLoop_frame :
    ∀ (fuel : Nat) (t t1 : HeapTimer) (n i j i1 : Nat), i < n →
      siftdownLoop fuel t n i j = .ok (t1, i1) →
      t1.heap_.length = t.heap_.length ∧ ∀ k, n ≤ k → t1.heap_[k]? = t.heap_[k]? := by
  intro fuel
  induction fuel with
  | zero => intro t t1 n i j i1 _ h; simp [siftdownLoop] at h
  | succ fuel ih =>
    intro t t1 n i j i1 hin h
    unfold siftdownLoop at h
    split at h
    · rename_i hjn
      split at h
      · cases h
      · rename_i c hpick
        obtain ⟨hc, _, _⟩ := pickChild_spec hpick
        split at h
        swap
        · cases h
        split at h
        · simp only [Except.ok.injEq, Prod.mk.injEq] at h
          rw [← h.1]
          exact ⟨rfl, fun _ _ => rfl⟩
        · split at h
          swap
          · cases h
          rename_i t2 hswap
          obtain ⟨a, b, ha, hb, hheap, _⟩ := SwapNode__ok hswap
          have hil := (List.getElem?_eq_some.mp ha).1
          have hcl := (List.getElem?_eq_some.mp hb).1
          obtain ⟨r1, r2⟩ := ih t2 t1 n c _ i1 (by omega) h
          refine ⟨by rw [r1, SwapNode__length hswap], ?_⟩
          intro k hk
          rw [r2 k hk, hheap, swap_getElem? _ _ _ _ _ _ hil hcl]
          rw [if_neg (by omega), if_neg (by omega)]
    · simp only [Except.ok.injEq, Prod.mk.injEq] at h
      rw [← h.1]
      exact ⟨rfl, fun _ _ => rfl⟩

theorem siftupLoop_frame :
    ∀ (fuel : Nat) (t t1 : HeapTimer) (i : Nat), t.heap_.length < 2 ^ 63 →
      siftupLoop fuel t i (parentIdx i) = .ok t1 →
      t1.heap_.Perm t.heap_ ∧ t1.heap_.length = t.heap_.length ∧
        ∀ k, i < k → t1.heap_[k]? = t.heap_[k]? := by
  intro fuel
  induction fuel with
  | zero => intro t t1 i _ h; simp [siftupLoop] at h
  | succ fuel ih =>
    intro t t1 i hsz h
    unfold siftupLoop at h
    split at h
    swap
    · cases h
    rename_i pj pi hpj hpi
    have hil := (List.getElem?_eq_some.mp hpi).1
    have hjl := (List.getElem?_eq_some.mp hpj).1
    have h0 : 0 < i := by
      by_contra hc
      have : i = 0 := by omega
      subst this
      rw [parentIdx_zero] at hjl
      omega
    have hp := parentIdx_pos i h0 (by omega)
    split at h
    · cases h
      exact ⟨List.Perm.refl _, rfl, fun _ _ => rfl⟩
    · split at h
      swap
      · cases h
      rename_i t2 hswap
      obtain ⟨a, b, ha, hb, hheap, _⟩ := SwapNode__ok hswap
      have hlen := SwapNode__length hswap
      obtain ⟨r1, r2, r3⟩ := ih t2 t1 (parentIdx i) (by omega) h
      refine ⟨r1.trans ?_, by omega, ?_⟩
      · rw [hheap]; exact swap_perm _ _ _ _ _ ha hb
      · intro k hk
        rw [r3 k (by omega), hheap, swap_getElem? _ _ _ _ _ _ hil hjl]
        rw [if_neg (by omega), if_neg (by omega)]

theorem siftDownOrUp_frame {t t1 : HeapTimer} {i n : Nat} (hin : i < n)
    (hsz : t.heap_.length < 2 ^ 63) (h : siftDownOrUp t i n = .ok t1) :
    t1.heap_.Perm t.heap_ ∧ t1.heap_.length = t.heap_.length ∧
      ∀ k, n ≤ k → t1.heap_[k]? = t.heap_[k]? := by
  unfold siftDownOrUp siftdown_ at h
  split at h
  swap
  · cases h
  rename_i t2 moved hsd
  split at hsd
  swap
  · cases hsd
  split at hsd
  swap
  · cases hsd
  rename_i t3 i3 hloop
  simp only [Except.ok.injEq, Prod.mk.injEq] at hsd
  obtain ⟨rfl, rfl⟩ := hsd
  have p1 := siftdownLoop_perm _ _ _ _ _ _ _ hloop
  obtain ⟨l1, f1⟩ := siftdownLoop_frame _ _ _ _ _ _ _ hin hloop
  split at h
  · cases h
    exact ⟨p1, l1, f1⟩
  · unfold siftup_ at h
    split at h
    swap
    · cases h
    obtain ⟨p2, l2, f2⟩ := siftupLoop_frame _ _ _ _ (by omega) h
    exact ⟨p2.trans p1, by omega, fun k hk => by rw [f2 k (by omega), f1 k hk]⟩

/-- Partial correctness of `del_` for the contents: whenever `del_(i)` returns, the
vector holds the old nodes without the one that was at position `i`. -/
theorem del__removes (t t1 : HeapTimer) (i : Nat) (hsz : t.heap_.length < 2 ^ 63)
    (h : del_ t i = .ok t1) :
    ∃ nd, t.heap_[i]? = some nd ∧ (nd :: t1.heap_).Perm t.heap_ := by
  unfold del_ at h
  split at h
  swap
  · cases h
  rename_i hlen
  simp only at h
  split at h
  swap
  · cases h
  rename_i t2 hmoved
  split at h
  swap
  · cases h
  rename_i last hlast
  cases h
  have hperm_last : (last :: t2.heap_.dropLast).Perm t2.heap_ := by
    have := List.dropLast_append_getLast? last (Option.mem_def.mpr hlast)
    conv_rhs => rw [← this]
    exact (List.perm_append_singleton last _).symm
  by_cases hn : i < t.heap_.length - 1
  · rw [if_pos hn] at hmoved
    split at hmoved
    swap
    · cases hmoved
    rename_i t3 hswap
    obtain ⟨a, b, ha, hb, hheap, _⟩ := SwapNode__ok hswap
    have hlen3 := SwapNode__length hswap
    obtain ⟨r2, r3, r4⟩ := siftDownOrUp_frame hn (by omega) hmoved
    have hl : t2.heap_.getLast? = some a := by
      rw [List.getLast?_eq_getElem?, r3, hlen3, r4 _ (le_refl _), hheap,
        swap_getElem? _ _ _ _ _ _ (by omega) (by omega), if_pos rfl]
    rw [hl] at hlast
    cases hlast
    refine ⟨last, ha, hperm_last.trans (r2.trans ?_)⟩
    rw [hheap]; exact swap_perm _ _ _ _ _ ha hb
  · rw [if_neg hn] at hmoved
    cases hmoved
    have hi : i = t.heap_.length - 1 := by omega
    exact ⟨last, by rw [hi, ← List.getLast?_eq_getElem?]; exact hlast, hperm_last⟩

/-- Partial correctness of `doWork`: whenever `doWork(id)` returns on a consistently
indexed heap, then for an id that is present exactly the callback of its node has been
invoked, once, and the heap holds the old nodes without that node, consistently
indexed; for an absent id nothing has been invoked and the timer is unchanged. -/
theorem doWork_spec (t t1 : HeapTimer) (id : Int) (fired : List TimerNode)
    (hc : refConsistent t) (hsz : t.heap_.length < 2 ^ 63)
    (h : doWork t id = .ok (t1, fired)) :
    (t.ref_ id = none ∧ fired = [] ∧ t1 = t) ∨
      ∃ nd, nd ∈ t.heap_ ∧ nd.id = id ∧ fired = [nd] ∧ (nd :: t1.heap_).Perm t.heap_ ∧
        refConsistent t1 := by
  unfold doWork at h
  split at h
  · rename_i hemp
    simp only [Except.ok.injEq, Prod.mk.injEq] at h
    refine Or.inl ⟨?_, h.2.symm, h.1.symm⟩
    cases hr : t.ref_ id with
    | none => rfl
    | some i =>
      obtain ⟨nd, hnd, _⟩ := (hc id i).mp hr
      rw [List.isEmpty_iff] at hemp
      rw [hemp] at hnd
      simp at hnd
  · split at h
    · rename_i hnone
      simp only [Except.ok.injEq, Prod.mk.injEq] at h
      exact Or.inl ⟨hnone, h.2.symm, h.1.symm⟩
    · rename_i i hsome
      split at h
      · cases h
      rename_i node hnode
      split at h
      swap
      · cases h
      rename_i t2 hdel
      simp only [Except.ok.injEq, Prod.mk.injEq] at h
      obtain ⟨rfl, rfl⟩ := h
      obtain ⟨nd, hnd, hperm⟩ := del__removes t t2 i hsz hdel
      rw [hnode] at hnd
      cases hnd
      obtain ⟨x, hx, hxid⟩ := (hc id i).mp hsome
      rw [hnode] at hx
      cases hx
      exact Or.inr ⟨node, List.getElem?_mem hnode, hxid, rfl, hperm,
        del__keeps_index t t2 i hc hdel⟩

theorem siftdownLoop_no_fuel (n : Nat) (fuel : Nat) (t : HeapTimer) (i : Nat)
    (hi : i < t.heap_.length) (hn : n ≤ t.heap_.length) (hsz : t.heap_.length < 2 ^ 63)
    (h0 : 0 < fuel) (hf : n ≤ i + fuel) :
    siftdownLoop fuel t n i (childIdx i) ≠ .error .fuel := by
  obtain ⟨t1, i1, h⟩ := siftdownLoop_total n fuel t i hi hn hsz h0 hf
  rw [h]
  intro hc
  cases hc

theorem del__no_fuel (t : HeapTimer) (i : Nat) (hsz : t.heap_.length < 2 ^ 63) :
    del_ t i ≠ .error .fuel := by
  intro h
  unfold del_ at h
  split at h
  swap
  · cases h
  rename_i hlen
  simp only at h
  split at h
  · split at h
    · cases h
    · cases h
  · rename_i e hmoved
    cases h
    split at hmoved
    swap
    · cases hmoved
    rename_i hn
    split at hmoved
    · rename_i t1 hswap
      have hl := SwapNode__length hswap
      unfold siftDownOrUp at hmoved
      obtain ⟨t2, moved, hsd⟩ :=
        siftdown__total t1 i (t.heap_.length - 1) (by omega) (by omega) (by omega)
      rw [hsd] at hmoved
      simp only at hmoved
      split at hmoved
      · cases hmoved
      · have hperm : t2.heap_.length = t1.heap_.length := by
          unfold siftdown_ at hsd
          split at hsd
          swap
          · cases hsd
          split at hsd
          swap
          · cases hsd
          rename_i t3 i3 hloop
          simp only [Except.ok.injEq, Prod.mk.injEq] at hsd
          rw [← hsd.1]
          exact (siftdownLoop_perm _ _ _ _ _ _ _ hloop).length_eq
        exact siftup__no_fuel t2 i (by omega) hmoved
    · rename_i e hswap
      have := SwapNode__error hswap
      cases hmoved
      cases this

/-- The loop bound of `tick` is never reached: the fault `fuel` does not occur. -/
theorem tickLoop_no_fuel (clock : Nat → Int) :
    ∀ (fuel : Nat) (t : HeapTimer) (k : Nat) (fired : List TimerNode),
      t.heap_.length < fuel → t.heap_.length < 2 ^ 63 →
      tickLoop fuel t clock k fired ≠ .error .fuel := by
  intro fuel
  induction fuel with
  | zero => intro t k fired h; omega
  | succ fuel ih =>
    intro t k fired hf hsz h
    unfold tickLoop at h
    split at h
    · cases h
    · split at h
      · cases h
      · split at h
        · rename_i t1 hpop
          unfold pop at hpop
          split at hpop
          · cases hpop
          obtain ⟨nd, _, hperm⟩ := del__removes t t1 0 hsz hpop
          have := hperm.length_eq
          simp only [List.length_cons] at this
          exact ih t1 _ _ (by omega) (by omega) h
        · rename_i e hpop
          cases h
          unfold pop at hpop
          split at hpop
          · cases hpop
          · exact del__no_fuel t 0 hsz hpop

theorem siftdownLoop_ge (n : Nat) :
    ∀ (fuel : Nat) (t t1 : HeapTimer) (i i1 : Nat), n ≤ t.heap_.length →
      t.heap_.length < 2 ^ 63 → i < 2 ^ 63 →
      siftdownLoop fuel t n i (childIdx i) = .ok (t1, i1) → i ≤ i1 := by
  intro fuel
  induction fuel with
  | zero => intro t t1 i i1 _ _ _ h; simp [siftdownLoop] at h
  | succ fuel ih =>
    intro t t1 i i1 hn hsz hi h
    unfold siftdownLoop at h
    split at h
    · rename_i hjn
      rw [childIdx_eq i hi] at hjn h
      split at h
      · cases h
      · rename_i c hpick
        obtain ⟨hc, _, _⟩ := pickChild_spec hpick
        split at h
        swap
        · cases h
        split at h
        · simp only [Except.ok.injEq, Prod.mk.injEq] at h
          omega
        · split at h
          swap
          · cases h
          rename_i t2 hswap
          have := ih t2 t1 c i1 (by rw [SwapNode__length hswap]; exact hn)
            (by rw [SwapNode__length hswap]; exact hsz) (by omega) h
          omega
    · simp only [Except.ok.injEq, Prod.mk.injEq] at h
      omega

theorem siftdown__unmoved {t t1 : HeapTimer} {i n : Nat} (hsz : t.heap_.length < 2 ^ 63)
    (h : siftdown_ t i n = .ok (t1, false)) : t1 = t := by
  unfold siftdown_ at h
  split at h
  swap
  · cases h
  rename_i hin
  split at h
  swap
  · cases h
  rename_i t2 i2 hloop
  simp only [Except.ok.injEq, Prod.mk.injEq, decide_eq_false_iff_not, not_lt] at h
  obtain ⟨rfl, hle⟩ := h
  rw [childIdx_eq i (by omega)] at hloop
  unfold siftdownLoop at hloop
  split at hloop
  · rename_i hjn
    split at hloop
    · cases hloop
    · rename_i c hpick
      obtain ⟨hc, _, _⟩ := pickChild_spec hpick
      split at hloop
      swap
      · cases hloop
      split at hloop
      · simp only [Except.ok.injEq, Prod.mk.injEq] at hloop
        exact hloop.1.symm
      · split at hloop
        swap
        · cases hloop
        rename_i t3 hswap
        have := siftdownLoop_ge n _ t3 t2 c i2 (by rw [SwapNode__length hswap]; exact hin.2)
          (by rw [SwapNode__length hswap]; exact hsz) (by omega) hloop
        omega
  · simp only [Except.ok.injEq, Prod.mk.injEq] at hloop
    exact hloop.1.symm

/-- Where `adjust` and the update branch of `add` agree: on a heap that holds the id
below the root, with the callback kept, both give the same result whenever the new
deadline is after the deadline of the node's parent (as it is when a deadline is
extended in an ordered heap with distinct deadlines). -/
theorem adjust_eq_add_update_of_later (t : HeapTimer) (now id timeout : Int) (i : Nat)
    (nd p : TimerNode) (hsz : t.heap_.length < 2 ^ 63) (h0 : 0 ≤ id)
    (hid : t.ref_ id = some i) (hnd : t.heap_[i]? = some nd) (hi : 0 < i)
    (hp : t.heap_[(i - 1) / 2]? = some p) (hlt : p.expires < now + MS timeout) :
    add t now id timeout nd.cb = adjust t now id timeout := by
  have hil := (List.getElem?_eq_some.mp hnd).1
  have hne : t.heap_.isEmpty = false := by
    cases hl : t.heap_ with
    | nil => rw [hl] at hil; simp at hil
    | cons _ _ => rfl
  unfold add adjust
  rw [if_neg (by omega), hne]
  simp only [Bool.false_eq_true, if_false, hid, hnd, List.length_set]
  unfold siftDownOrUp
  obtain ⟨t1, moved, hsd⟩ :=
    siftdown__total { t with heap_ := t.heap_.set i { nd with expires := now + MS timeout } } i
      t.heap_.length (by simp; exact hil) (by simp) (by simp; exact hsz)
  rw [hsd]
  simp only
  cases moved with
  | true => simp
  | false =>
    have := siftdown__unmoved (by simp; exact hsz) hsd
    subst this
    simp only [Bool.false_eq_true, if_false]
    unfold siftup_
    simp only [List.length_set]
    rw [if_pos hil, parentIdx_pos i hi (by omega)]
    unfold siftupLoop
    rw [List.getElem?_set_ne (by omega), hp, List.getElem?_set, if_pos rfl, if_pos hil]
    simp only [TimerNode.lt, decide_eq_true_eq]
    rw [if_pos hlt]

/-! ## The claims on the timer heap -/

/-- C1. Heap order across insertion and removal, evaluated where `siftup_` reaches the
root: on the empty (ordered) heap `add(1, 1000, cb)` appends the node and calls
`siftup_(0)`, which reads `heap_[(0 - 1) / 2] = heap_[2^63 - 1]`; on the ordered heap
of two nodes `del_(0)` swaps, `siftdown_(0, 1)` does not move the node and `siftup_(0)`
reads the same position. Neither call yields a heap. -/
theorem add_and_del__read_outside_heap :
    heapOrdered HeapTimer.empty ∧
    add HeapTimer.empty 0 1 1000 0 = .error .outOfRange ∧
    heapOrdered (HeapTimer.ofList [⟨1, 10000000, 0⟩, ⟨2, 20000000, 0⟩]) ∧
    del_ (HeapTimer.ofList [⟨1, 10000000, 0⟩, ⟨2, 20000000, 0⟩]) 0 = .error .outOfRange :=
  ⟨by decide, rfl, by decide, rfl⟩

/-- C2. The root as minimum over all reachable heaps. No call of `add` on the empty
heap returns (for a negative id the assert fails, otherwise `siftup_(0)` reads outside
the vector), so no sequence of calls reaches a non-empty heap. And on the ordered heap
`[(1, 100 ms), (2, 200 ms)]` the call `adjust(2, 50)` at clock reading 0 stores the
earlier deadline and only sifts down: node 2 stays below a root with a later deadline. -/
theorem root_minimum_not_maintained :
    (∀ (now id timeout : Int) (cb : Nat),
      ∃ e, add HeapTimer.empty now id timeout cb = .error e) ∧
    heapOrdered (HeapTimer.ofList [⟨1, 100000000, 0⟩, ⟨2, 200000000, 0⟩]) ∧
    refConsistent (HeapTimer.ofList [⟨1, 100000000, 0⟩, ⟨2, 200000000, 0⟩]) ∧
    ∃ t1, adjust (HeapTimer.ofList [⟨1, 100000000, 0⟩, ⟨2, 200000000, 0⟩]) 0 2 50 = .ok t1 ∧
      t1.heap_ = [⟨1, 100000000, 0⟩, ⟨2, 50000000, 0⟩] ∧ ¬ rootIsMin t1 := by
  refine ⟨?_, by decide, refConsistent_ofList _ (by decide), _, rfl, rfl, by decide⟩
  intro now id timeout cb
  unfold add
  by_cases h : id < 0
  · exact ⟨_, if_pos h⟩
  · rw [if_neg h]
    exact ⟨.outOfRange, siftup__root _ (by simp [HeapTimer.empty]) (by simp [HeapTimer.empty])⟩

/-- C3. `adjust` against the update branch of `add`, on the ordered and consistently
indexed heap `[(0, 10 ms), (1, 100 ms), (2, 200 ms), (3, 300 ms)]` with the new deadline
50 ms for id 3 and the callback kept: `adjust` only sifts down and leaves node 3 at
position 3, below a parent with a later deadline; `add` sifts it up to position 1. -/
theorem adjust_differs_from_add_update :
    heapOrdered (HeapTimer.ofList
      [⟨0, 10000000, 0⟩, ⟨1, 100000000, 1⟩, ⟨2, 200000000, 2⟩, ⟨3, 300000000, 3⟩]) ∧
    refConsistent (HeapTimer.ofList
      [⟨0, 10000000, 0⟩, ⟨1, 100000000, 1⟩, ⟨2, 200000000, 2⟩, ⟨3, 300000000, 3⟩]) ∧
    ∃ ta tb,
      adjust (HeapTimer.ofList
        [⟨0, 10000000, 0⟩, ⟨1, 100000000, 1⟩, ⟨2, 200000000, 2⟩, ⟨3, 300000000, 3⟩])
        0 3 50 = .ok ta ∧
      add (HeapTimer.ofList
        [⟨0, 10000000, 0⟩, ⟨1, 100000000, 1⟩, ⟨2, 200000000, 2⟩, ⟨3, 300000000, 3⟩])
        0 3 50 3 = .ok tb ∧
      ta.heap_ = [⟨0, 10000000, 0⟩, ⟨1, 100000000, 1⟩, ⟨2, 200000000, 2⟩, ⟨3, 50000000, 3⟩] ∧
      tb.heap_ = [⟨0, 10000000, 0⟩, ⟨3, 50000000, 3⟩, ⟨2, 200000000, 2⟩, ⟨1, 100000000, 1⟩] ∧
      ta.ref_ 3 = some 3 ∧ tb.ref_ 3 = some 1 ∧
      ¬ heapOrdered ta ∧ heapOrdered tb :=
  ⟨by decide, refConsistent_ofList _ (by decide), _, _, rfl, rfl, rfl, rfl, rfl, rfl,
    by decide, by decide⟩

/-- C4. The side index across the operations, evaluated on the ordered, consistently
indexed heap `[(1, 10 ms), (2, 20 ms)]`: `pop()` swaps the two nodes, `siftdown_(0, 1)`
does not move and `siftup_(0)` reads `heap_[2^63 - 1]`; `tick()` at clock reading 15 ms
fails in the same `pop()`; and `add(3, 5)` at clock reading 0 fails once the new node
has climbed to the root. No heap or side index results. -/
theorem side_index_operations_read_outside_heap :
    refConsistent (HeapTimer.ofList [⟨1, 10000000, 0⟩, ⟨2, 20000000, 0⟩]) ∧
    heapOrdered (HeapTimer.ofList [⟨1, 10000000, 0⟩, ⟨2, 20000000, 0⟩]) ∧
    pop (HeapTimer.ofList [⟨1, 10000000, 0⟩, ⟨2, 20000000, 0⟩]) = .error .outOfRange ∧
    tick (HeapTimer.ofList [⟨1, 10000000, 0⟩, ⟨2, 20000000, 0⟩]) (fun _ => 15000000) =
      .error .outOfRange ∧
    add (HeapTimer.ofList [⟨1, 10000000, 0⟩, ⟨2, 20000000, 0⟩]) 0 3 5 0 =
      .error .outOfRange :=
  ⟨refConsistent_ofList _ (by decide), by decide, rfl, rfl, rfl⟩

/-- C5. `GetNextTick` on the heap `[(1, 1 ms)]`: `tick()` reads the clock at 0 and
leaves the node; the second reading is 6 ms, the count `-5` is stored in the `size_t`
`res`, the test `res < 0` is false, and the conversion to `int` returns `-5` for a
heap that is not empty. With the second reading at 2 ms the result is `-1`, also for a
heap that is not empty. -/
theorem GetNextTick_negative_on_nonempty_heap :
    (∃ t1, GetNextTick (HeapTimer.ofList [⟨1, 1000000, 0⟩])
        (fun k => if k = 0 then 0 else 6000000) = .ok (t1, [], -5) ∧
      t1.heap_ = [⟨1, 1000000, 0⟩]) ∧
    (∃ t1, GetNextTick (HeapTimer.ofList [⟨1, 1000000, 0⟩])
        (fun k => if k = 0 then 0 else 2000000) = .ok (t1, [], -1) ∧
      t1.heap_ = [⟨1, 1000000, 0⟩]) :=
  ⟨⟨_, rfl, rfl⟩, ⟨_, rfl, rfl⟩⟩

/-- C6. `tick()` on the heap `[(1, 0.5 ms)]` at clock reading 0: the deadline of the
node is after the clock reading, but `duration_cast<MS>` truncates the 0.5 ms that are
left to 0 whole milliseconds, the test `> 0` fails, and `tick()` invokes the callback of
the node and removes it. A node with a whole millisecond left stays. -/
theorem tick_fires_node_not_yet_due :
    (0 : Int) < 500000 ∧ durationCastMS (500000 - 0) = 0 ∧
    (∃ t1, tick (HeapTimer.ofList [⟨1, 500000, 0⟩]) (fun _ => 0) =
        .ok (t1, [⟨1, 500000, 0⟩], 1) ∧ t1.heap_ = []) ∧
    (∃ t1, tick (HeapTimer.ofList [⟨1, 1000000, 0⟩]) (fun _ => 0) = .ok (t1, [], 1) ∧
      t1.heap_ = [⟨1, 1000000, 0⟩]) :=
  ⟨by decide, by decide, ⟨_, rfl, rfl⟩, ⟨_, rfl, rfl⟩⟩

/-- What `tick()` fires when it returns. For every ordered heap and every clock reading
`now`, whenever `tick()` runs to completion it has invoked the callbacks of and removed
exactly the nodes with less than one millisecond left (`expires - now < 1 ms`, that is,
whose remaining whole milliseconds are not positive), also those whose deadline is
still ahead: the fired nodes together with the remaining ones are the
original nodes, every fired node has less than one millisecond left, every remaining
node has at least one millisecond left, and the remaining heap is ordered. -/
theorem tick_fires_exactly_nodes_within_one_ms (t t1 : HeapTimer) (now : Int)
    (fired : List TimerNode) (k : Nat)
    (hord : heapOrdered t) (hsz : t.heap_.length < 2 ^ 63)
    (hrun : tick t (fun _ => now) = .ok (t1, fired, k)) :
    (fired ++ t1.heap_).Perm t.heap_ ∧
      (∀ nd ∈ fired, nd.expires - now < TICKS_PER_MS) ∧
      (∀ nd ∈ t1.heap_, TICKS_PER_MS ≤ nd.expires - now) ∧ heapOrdered t1 := by
  obtain ⟨new, h1, h2, h3, h4, h5⟩ := tickLoop_spec now _ t t1 0 k [] fired hord hsz hrun
  simp only [List.nil_append] at h1
  subst h1
  exact ⟨h2, h3, h4, h5⟩

/-- An instance, at the heap `[(1, 0.5 ms), (2, 5 ms), (3, 3 ms), (4, 7 ms)]` and clock
reading 0: node 1 is fired, the other three stay. -/
theorem tick_fires_exactly_nodes_within_one_ms_witness :
    ∃ t1,
      tick (HeapTimer.ofList
        [⟨1, 500000, 0⟩, ⟨2, 5000000, 0⟩, ⟨3, 3000000, 0⟩, ⟨4, 7000000, 0⟩]) (fun _ => 0) =
        .ok (t1, [⟨1, 500000, 0⟩], 2) ∧
      t1.heap_ = [⟨3, 3000000, 0⟩, ⟨2, 5000000, 0⟩, ⟨4, 7000000, 0⟩] ∧
      (([⟨1, 500000, 0⟩] : List TimerNode) ++ t1.heap_).Perm
        [⟨1, 500000, 0⟩, ⟨2, 5000000, 0⟩, ⟨3, 3000000, 0⟩, ⟨4, 7000000, 0⟩] ∧
      (∀ nd ∈ ([⟨1, 500000, 0⟩] : List TimerNode), nd.expires - 0 < TICKS_PER_MS) ∧
      (∀ nd ∈ t1.heap_, TICKS_PER_MS ≤ nd.expires - 0) ∧ heapOrdered t1 :=
  ⟨_, rfl, rfl,
    tick_fires_exactly_nodes_within_one_ms
      (HeapTimer.ofList
        [⟨1, 500000, 0⟩, ⟨2, 5000000, 0⟩, ⟨3, 3000000, 0⟩, ⟨4, 7000000, 0⟩])
      _ 0 [⟨1, 500000, 0⟩] 2 (by decide) (by decide) rfl⟩

/-- C7. Adding the same id twice, from the ordered, consistently indexed heap
`[(9, 50 ms)]` at clock reading 0: `add(1, 100, cb1)` appends node 1 below the root;
`add(1, 20, cb2)` stores the deadline 20 ms, `siftdown_` does not move the node,
`siftup_(1)` swaps it with the root and then reads `heap_[(0 - 1) / 2]` outside the
vector. The second call yields no heap. -/
theorem add_twice_reads_outside_heap :
    refConsistent (HeapTimer.ofList [⟨9, 50000000, 0⟩]) ∧
    heapOrdered (HeapTimer.ofList [⟨9, 50000000, 0⟩]) ∧
    ∃ t1, add (HeapTimer.ofList [⟨9, 50000000, 0⟩]) 0 1 100 1 = .ok t1 ∧
      t1.heap_ = [⟨9, 50000000, 0⟩, ⟨1, 100000000, 1⟩] ∧
      add t1 0 1 20 2 = .error .outOfRange :=
  ⟨refConsistent_ofList _ (by decide), by decide, _, rfl, rfl, rfl⟩

/-- C8. `doWork(1)` on the ordered, consistently indexed heap
`[(1, 10 ms), (2, 30 ms), (3, 20 ms)]`: the callback of node 1 is invoked, `del_(0)`
swaps positions 0 and 2, `siftdown_(0, 2)` finds node 3 before node 2 and does not move
it, and `siftup_(0)` reads `heap_[(0 - 1) / 2]` outside the vector. No heap results. -/
theorem doWork_reads_outside_heap :
    refConsistent (HeapTimer.ofList
      [⟨1, 10000000, 0⟩, ⟨2, 30000000, 0⟩, ⟨3, 20000000, 0⟩]) ∧
    heapOrdered (HeapTimer.ofList
      [⟨1, 10000000, 0⟩, ⟨2, 30000000, 0⟩, ⟨3, 20000000, 0⟩]) ∧
    doWork (HeapTimer.ofList
      [⟨1, 10000000, 0⟩, ⟨2, 30000000, 0⟩, ⟨3, 20000000, 0⟩]) 1 = .error .outOfRange :=
  ⟨refConsistent_ofList _ (by decide), by decide, rfl⟩

/-! ## Lemmas on the buffer -/

theorem peek_length (b : Buffer) (h : b.cursorsOk) : b.Peek.length = b.ReadableBytes := by
  unfold Buffer.Peek Buffer.ReadableBytes Buffer.cursorsOk at *
  simp only [List.length_take, List.length_drop]
  omega

theorem peek_resize (l : List Byte) (r w n : Nat) (hw : w ≤ l.length) (hn : l.length ≤ n) :
    ((vectorResize l n).drop r).take (w - r) = (l.drop r).take (w - r) := by
  unfold vectorResize
  rw [List.take_of_length_le hn]
  by_cases hr : r ≤ l.length
  · rw [List.drop_append_of_le_length hr, List.take_append_of_le_length]
    simp only [List.length_drop]; omega
  · have : w - r = 0 := by omega
    simp [this]

theorem peek_copyInto (l data : List Byte) (r w : Nat) (hr : r ≤ w)
    (hw : w + data.length ≤ l.length) :
    ((copyInto l w data).drop r).take (w + data.length - r) = (l.drop r).take (w - r) ++ data := by
  unfold copyInto
  have h1 : (l.take w).length = w := by simp; omega
  rw [List.append_assoc, List.drop_append_of_le_length (by omega)]
  have h2 : ((l.take w).drop r).length = w - r := by simp; omega
  have e : w + data.length - r = ((l.take w).drop r).length + data.length := by omega
  rw [e, List.take_append, List.take_append_of_le_length (by simp)]
  simp
  rw [List.drop_take]
  

theorem vectorResize_length (l : List Byte) (n : Nat) : (vectorResize l n).length = n := by
  unfold vectorResize
  simp only [List.length_append, List.length_take, List.length_replicate]
  omega

theorem copyInto_length (l data : List Byte) (w : Nat) (hw : w + data.length ≤ l.length) :
    (copyInto l w data).length = l.length := by
  unfold copyInto
  simp only [List.length_append, List.length_take, List.length_drop]
  omega

/-- What `EnsureWriteable(len)` does to a buffer whose cursors are in order: it
returns, the promised space is there, the readable bytes are the same, and the capacity
is either the old one or exactly `writePos_ + len + 1`, the latter only when the old
capacity minus the readable bytes was at most `len`. -/
theorem EnsureWriteable_spec (b : Buffer) (len : Nat) (h : b.cursorsOk) :
    ∃ b1, b.EnsureWriteable len = .ok b1 ∧ b1.cursorsOk ∧ len ≤ b1.WritableBytes ∧
      b1.Peek = b.Peek ∧ b1.ReadableBytes = b.ReadableBytes ∧
      (b1.buffer_.length = b.buffer_.length ∨
        (b.buffer_.length ≤ b.ReadableBytes + len ∧
          b1.buffer_.length = b.writePos_ + len + 1)) := by
  have hp := peek_length b h
  obtain ⟨hrw, hws⟩ := h
  unfold Buffer.EnsureWriteable
  by_cases hfit : b.WritableBytes < len
  · simp only [hfit, if_true]
    unfold Buffer.MakeSpace_
    by_cases hgrow : b.WritableBytes + b.PrependableBytes < len + 1
    · simp only [hgrow, if_true]
      have hl := vectorResize_length b.buffer_ (b.writePos_ + len + 1)
      simp only [Buffer.WritableBytes, Buffer.PrependableBytes] at hfit hgrow
      rw [if_pos (by simp only [Buffer.WritableBytes, hl]; omega)]
      refine ⟨_, rfl, ⟨hrw, ?_⟩, ?_, ?_, rfl, Or.inr ⟨?_, hl⟩⟩
      · simp only [hl]; omega
      · simp only [Buffer.WritableBytes, hl]; omega
      · simp only [Buffer.Peek, Buffer.ReadableBytes]
        exact peek_resize _ _ _ _ hws (by omega)
      · simp only [Buffer.ReadableBytes]; omega
    · simp only [hgrow, if_false]
      simp only [Buffer.WritableBytes, Buffer.PrependableBytes] at hfit hgrow
      simp only [Buffer.ReadableBytes] at hp
      have hc : (copyInto b.buffer_ 0 b.Peek).length = b.buffer_.length :=
        copyInto_length _ _ _ (by omega)
      simp only [Buffer.ReadableBytes, Nat.sub_zero, if_true]
      rw [if_pos (by simp only [Buffer.WritableBytes, hc]; omega)]
      refine ⟨_, rfl, ⟨Nat.zero_le _, ?_⟩, ?_, ?_, Nat.sub_zero _, Or.inl hc⟩
      · simp only [hc]; omega
      · simp only [Buffer.WritableBytes, hc]; omega
      · simp only [Buffer.Peek, Buffer.ReadableBytes, Nat.sub_zero, List.drop_zero, copyInto,
          List.take_zero, List.nil_append, Nat.zero_add]
        rw [List.take_append_of_le_length (by
          simp only [List.length_take, List.length_drop]; omega)]
        simp only [List.take_take, Nat.min_self]
  · simp only [hfit, if_false]
    simp only [Buffer.WritableBytes] at hfit
    rw [if_pos (by simp only [Buffer.WritableBytes]; omega)]
    exact ⟨b, rfl, ⟨hrw, hws⟩, by simp only [Buffer.WritableBytes]; omega, rfl, rfl, Or.inl rfl⟩

/-- What `Append` does to a buffer whose cursors are in order. -/
theorem Append_spec (b : Buffer) (data : List Byte) (h : b.cursorsOk) :
    ∃ b2, b.Append data = .ok b2 ∧ b2.cursorsOk ∧ b2.Peek = b.Peek ++ data ∧
      b2.ReadableBytes = b.ReadableBytes + data.length ∧
      (b2.buffer_.length = b.buffer_.length ∨
        (b.buffer_.length ≤ b.ReadableBytes + data.length ∧
          b2.buffer_.length = b.writePos_ + data.length + 1)) := by
  obtain ⟨b1, he, ⟨hrw, hws⟩, hwr, hpeek, hread, hcap⟩ := EnsureWriteable_spec b data.length h
  unfold Buffer.Append
  simp only [he]
  simp only [Buffer.WritableBytes, Buffer.ReadableBytes] at *
  have hc := copyInto_length b1.buffer_ data b1.writePos_ (by omega)
  refine ⟨_, rfl, ⟨?_, ?_⟩, ?_, ?_, ?_⟩
  · simp only [Buffer.HasWritten]; omega
  · simp only [Buffer.HasWritten, hc]; omega
  · rw [← hpeek]
    simp only [Buffer.Peek, Buffer.HasWritten, Buffer.ReadableBytes]
    exact peek_copyInto _ _ _ _ hrw (by omega)
  · simp only [Buffer.HasWritten]; omega
  · simp only [Buffer.HasWritten, hc]; exact hcap

/-! ## The claims on the buffer -/

theorem init_cursorsOk (cap : Nat) : (Buffer.init cap).cursorsOk := by
  simp [Buffer.cursorsOk, Buffer.init]

theorem init_peek (cap : Nat) : (Buffer.init cap).Peek = [] := by
  simp [Buffer.Peek, Buffer.init, Buffer.ReadableBytes]

/-- A run of appends on a buffer whose cursors are in order returns, and extends the
readable bytes by the appended strings, in order. -/
theorem appendAll_spec (bs : List (List Byte)) :
    ∀ b : Buffer, b.cursorsOk →
      ∃ b1, appendAll b bs = .ok b1 ∧ b1.cursorsOk ∧ b1.Peek = b.Peek ++ bs.flatten ∧
        b1.ReadableBytes = b.ReadableBytes + (bs.map List.length).sum := by
  induction bs with
  | nil => intro b h; exact ⟨b, rfl, h, by simp, by simp⟩
  | cons a rest ih =>
    intro b h
    obtain ⟨b1, he, hok, hpk, hrd, _⟩ := Append_spec b a h
    obtain ⟨b2, he2, hok2, hpk2, hrd2⟩ := ih b1 hok
    refine ⟨b2, ?_, hok2, ?_, ?_⟩
    · simp only [appendAll, he, he2]
    · rw [hpk2, hpk]; simp
    · rw [hrd2, hrd]; simp; omega

/-- C9. Appends concatenate: for a freshly constructed buffer of any initial capacity
and any sequence of `Append` calls with no retrieve in between, every call returns,
`ReadableBytes()` is the sum of the lengths and the readable region holds the
concatenation of the appended byte strings. -/
theorem appends_concatenate (cap : Nat) (bs : List (List Byte)) :
    ∃ b, appendAll (Buffer.init cap) bs = .ok b ∧
      b.ReadableBytes = (bs.map List.length).sum ∧ b.Peek = bs.flatten := by
  obtain ⟨b, he, _, hpk, hrd⟩ := appendAll_spec bs (Buffer.init cap) (init_cursorsOk cap)
  refine ⟨b, he, ?_, ?_⟩
  · rw [hrd]; simp [Buffer.ReadableBytes, Buffer.init]
  · rw [hpk, init_peek]; simp

theorem pairs_spec (as : List (List Byte)) :
    ∀ b : Buffer, b.cursorsOk → b.readPos_ = b.writePos_ →
      ∃ b1 caps, appendRetrievePairs b as = .ok (b1, caps) ∧ b1.ReadableBytes = 0 ∧
        ∀ c ∈ caps, c ≤ max b.buffer_.length (2 * maxLength as + 1) := by
  induction as with
  | nil =>
    intro b _ hrw
    exact ⟨b, [], rfl, by simp [Buffer.ReadableBytes, hrw], by simp⟩
  | cons a rest ih =>
    intro b h hrw
    obtain ⟨b1, he, ⟨hrw1, hws1⟩, _, hrd, hcap⟩ := Append_spec b a h
    have hws := h.2
    simp only [Buffer.ReadableBytes, hrw, Nat.sub_self, Nat.zero_add] at hrd hcap
    have hret : b1.Retrieve a.length = .ok { b1 with readPos_ := b1.readPos_ + a.length } := by
      unfold Buffer.Retrieve
      rw [if_pos (by simp only [Buffer.ReadableBytes]; omega)]
    obtain ⟨b3, caps, he3, hrd3, hcaps⟩ :=
      ih { b1 with readPos_ := b1.readPos_ + a.length } ⟨by simp only; omega, hws1⟩
        (by simp only; omega)
    refine ⟨b3, b1.buffer_.length :: b1.buffer_.length :: caps, ?_, hrd3, ?_⟩
    · simp only [appendRetrievePairs, he, hret, he3]
    · have hb1 : b1.buffer_.length ≤ max b.buffer_.length (2 * maxLength (a :: rest) + 1) := by
        simp only [maxLength]
        rcases hcap with hc | ⟨hc1, hc2⟩
        · omega
        · omega
      intro c hc
      simp only [List.mem_cons] at hc
      rcases hc with rfl | rfl | hc
      · exact hb1
      · exact hb1
      · have := hcaps c hc
        simp only [maxLength] at hb1 ⊢
        simp only at this
        omega

/-- C10, the claim as stated fails: from a buffer of initial capacity 0, the pairs
`Append("\x01"); Retrieve(1); Append("\x02\x03"); Retrieve(2)` never hold more than 2
readable bytes, yet the capacity reaches 4, which exceeds both 2 + 1 and the initial
capacity. -/
theorem capacity_exceeds_live_plus_one :
    ∃ b caps, appendRetrievePairs (Buffer.init 0) [[1], [2, 3]] = .ok (b, caps) ∧
      maxLength [[1], [2, 3]] = 2 ∧
      ¬ ∀ c ∈ caps, c ≤ max (maxLength [[1], [2, 3]] + 1) 0 :=
  ⟨_, _, rfl, rfl, by decide⟩

/-- C10, amended. For a freshly constructed buffer of any initial capacity and any
sequence of pairs `Append(a); Retrieve(a.size())`, every call returns,
`ReadableBytes()` is 0 at the end, and the capacity observed after every call is at
most the larger of the initial capacity and twice the longest `a` plus one. -/
theorem capacity_bounded_under_pairs (cap : Nat) (as : List (List Byte)) :
    ∃ b caps, appendRetrievePairs (Buffer.init cap) as = .ok (b, caps) ∧
      b.ReadableBytes = 0 ∧ ∀ c ∈ caps, c ≤ max cap (2 * maxLength as + 1) := by
  obtain ⟨b, caps, he, hrd, hc⟩ := pairs_spec as (Buffer.init cap) (init_cursorsOk cap) rfl
  refine ⟨b, caps, he, hrd, ?_⟩
  simpa [Buffer.init] using hc

/-! ## Lemmas on `EnsureWriteable`, `Append`, `ReadFd` and `WriteFd` -/

theorem EnsureWriteable_fits (b : Buffer) (len : Nat) (h : len ≤ b.WritableBytes) :
    b.EnsureWriteable len = .ok b := by
  unfold Buffer.EnsureWriteable
  rw [if_neg (by omega)]
  simp only
  rw [if_pos h]

theorem EnsureWriteable_grows (b : Buffer) (len : Nat) (hw : b.WritableBytes < len)
    (hg : b.WritableBytes + b.PrependableBytes < len + 1) :
    b.EnsureWriteable len =
      .ok { b with buffer_ := vectorResize b.buffer_ (b.writePos_ + len + 1) } := by
  unfold Buffer.EnsureWriteable Buffer.MakeSpace_
  rw [if_pos hw, if_pos hg]
  simp only
  rw [if_pos (by simp only [Buffer.WritableBytes, vectorResize_length]; omega)]

theorem EnsureWriteable_compacts (b : Buffer) (len : Nat) (h : b.cursorsOk)
    (hw : b.WritableBytes < len) (hc : len + 1 ≤ b.WritableBytes + b.PrependableBytes) :
    b.EnsureWriteable len =
      .ok { buffer_ := copyInto b.buffer_ 0 b.Peek, readPos_ := 0,
            writePos_ := b.ReadableBytes } := by
  have hp := peek_length b h
  obtain ⟨hrw, hws⟩ := h
  unfold Buffer.EnsureWriteable Buffer.MakeSpace_
  rw [if_pos hw, if_neg (by omega)]
  simp only [Buffer.ReadableBytes, Nat.sub_zero, if_true]
  simp only [Buffer.WritableBytes, Buffer.PrependableBytes, Buffer.ReadableBytes] at hw hc hp
  have hl : (copyInto b.buffer_ 0 b.Peek).length = b.buffer_.length :=
    copyInto_length _ _ _ (by omega)
  rw [if_pos (by simp only [Buffer.WritableBytes, hl]; omega)]

theorem Append_of_EnsureWriteable (b b1 : Buffer) (data : List Byte)
    (h : b.EnsureWriteable data.length = .ok b1) :
    b.Append data =
      .ok { buffer_ := copyInto b1.buffer_ b1.writePos_ data, readPos_ := b1.readPos_,
            writePos_ := b1.writePos_ + data.length } := by
  unfold Buffer.Append
  rw [h]
  rfl

theorem take_vectorResize (l : List Byte) (w n : Nat) (hw : w ≤ l.length) (hn : w ≤ n) :
    (vectorResize l n).take w = l.take w := by
  unfold vectorResize
  rw [List.take_append_of_le_length (by simp only [List.length_take]; omega)]
  rw [List.take_take]
  congr 1
  omega

theorem copyInto_nil (l : List Byte) (pos : Nat) : copyInto l pos [] = l := by
  unfold copyInto
  simp

theorem take_copyInto (l data : List Byte) (pos : Nat) (h : pos ≤ l.length) :
    (copyInto l pos data).take pos = l.take pos := by
  unfold copyInto
  rw [List.append_assoc, List.take_append_of_le_length (by simp only [List.length_take]; omega)]
  rw [List.take_take]
  congr 1
  omega

theorem peek_after_copy (b : Buffer) (data : List Byte) (h : b.cursorsOk)
    (hfit : data.length ≤ b.WritableBytes) :
    ({ buffer_ := copyInto b.buffer_ b.writePos_ data, readPos_ := b.readPos_,
       writePos_ := b.writePos_ + data.length } : Buffer).Peek = b.Peek ++ data := by
  obtain ⟨hrw, hws⟩ := h
  simp only [Buffer.WritableBytes] at hfit
  simp only [Buffer.Peek, Buffer.ReadableBytes]
  exact peek_copyInto _ _ _ _ hrw (by omega)

/-! ## The claims on compaction and growth -/

/-- C11. Compaction before growth, evaluated where compaction leaves exactly the bytes
asked for: the buffer of capacity 4 with `readPos_ = 2` and `writePos_ = 4` has no
writable byte, and shifting its two readable bytes to offset 0 would leave 2 writable
bytes; yet `Append` of 2 bytes takes the `resize` branch of `MakeSpace_`, whose test is
`WritableBytes() + PrependableBytes() < len + 1`: the capacity grows to 7 and the
readable region stays at offset 2. -/
theorem append_grows_where_compaction_suffices :
    (Buffer.mk [1, 2, 3, 4] 2 4).WritableBytes < 2 ∧
    2 ≤ (Buffer.mk [1, 2, 3, 4] 2 4).WritableBytes + (Buffer.mk [1, 2, 3, 4] 2 4).PrependableBytes ∧
    ∃ b1, (Buffer.mk [1, 2, 3, 4] 2 4).Append [7, 8] = .ok b1 ∧
      b1.buffer_.length = 7 ∧ b1.readPos_ = 2 :=
  ⟨by decide, by decide, _, rfl, rfl, rfl⟩

/-- Where `Append` compacts and where it grows. For every buffer whose cursors are in
order and every byte string of length `n` with `WritableBytes() < n`: if shifting the
readable region to offset 0 leaves more than `n` writable bytes
(`WritableBytes() + PrependableBytes() ≥ n + 1`), then `Append` leaves the capacity
unchanged and moves the readable region to offset 0 before it writes the new bytes;
otherwise the capacity grows and the cursors stay. So the capacity grows only when
`WritableBytes() + PrependableBytes() ≤ n`. -/
theorem compaction_tried_before_growth (b : Buffer) (data : List Byte) (h : b.cursorsOk)
    (hw : b.WritableBytes < data.length) :
    ∃ b1, b.Append data = .ok b1 ∧ b1.Peek = b.Peek ++ data ∧
      (data.length + 1 ≤ b.WritableBytes + b.PrependableBytes →
        b1.buffer_.length = b.buffer_.length ∧ b1.readPos_ = 0 ∧
          b1.buffer_.take b.ReadableBytes = b.Peek) ∧
      (b.WritableBytes + b.PrependableBytes < data.length + 1 →
        b.buffer_.length < b1.buffer_.length ∧ b1.readPos_ = b.readPos_ ∧
          b1.writePos_ = b.writePos_ + data.length) ∧
      (b.buffer_.length < b1.buffer_.length →
        b.WritableBytes + b.PrependableBytes ≤ data.length) := by
  obtain ⟨b2, he, _, hpk, _, _⟩ := Append_spec b data h
  have hp := peek_length b h
  obtain ⟨hrw, hws⟩ := h
  refine ⟨b2, he, hpk, ?_⟩
  by_cases hc : data.length + 1 ≤ b.WritableBytes + b.PrependableBytes
  · have h1 := Append_of_EnsureWriteable b _ data
      (EnsureWriteable_compacts b data.length ⟨hrw, hws⟩ hw hc)
    rw [he] at h1
    cases h1
    simp only [Buffer.WritableBytes, Buffer.PrependableBytes, Buffer.ReadableBytes] at hw hc hp ⊢
    have hl0 : (copyInto b.buffer_ 0 b.Peek).length = b.buffer_.length :=
      copyInto_length _ _ _ (by omega)
    have hl : (copyInto (copyInto b.buffer_ 0 b.Peek) (b.writePos_ - b.readPos_) data).length
        = b.buffer_.length := by
      rw [copyInto_length _ _ _ (by omega), hl0]
    refine ⟨fun _ => ⟨hl, trivial, ?_⟩, fun hg => by omega, fun hg => by omega⟩
    rw [take_copyInto _ _ _ (by omega)]
    unfold copyInto
    simp only [List.take_zero, List.nil_append, Nat.zero_add]
    rw [List.take_append_of_le_length (by omega), ← hp, List.take_length]
  · have hg : b.WritableBytes + b.PrependableBytes < data.length + 1 := by omega
    have h1 := Append_of_EnsureWriteable b _ data (EnsureWriteable_grows b data.length hw hg)
    rw [he] at h1
    cases h1
    simp only [Buffer.WritableBytes, Buffer.PrependableBytes] at hw hg hc ⊢
    have hl : (copyInto (vectorResize b.buffer_ (b.writePos_ + data.length + 1))
        b.writePos_ data).length = b.writePos_ + data.length + 1 := by
      rw [copyInto_length _ _ _ (by rw [vectorResize_length]; omega), vectorResize_length]
    refine ⟨fun hc2 => by omega, fun _ => ⟨by rw [hl]; omega, trivial, trivial⟩, fun _ => by omega⟩

/-- C12. Growth is to an exact size: whenever `EnsureWriteable(n)` enlarges the vector
of a buffer whose cursors are in order, the new capacity is exactly
`writePos_ + n + 1`, both cursors keep their values and the bytes below the write
cursor are unchanged. -/
theorem growth_is_exact (b b1 : Buffer) (n : Nat) (h : b.cursorsOk)
    (he : b.EnsureWriteable n = .ok b1) (hg : b.buffer_.length < b1.buffer_.length) :
    b1.buffer_.length = b.writePos_ + n + 1 ∧ b1.readPos_ = b.readPos_ ∧
      b1.writePos_ = b.writePos_ ∧ b1.buffer_.take b.writePos_ = b.buffer_.take b.writePos_ := by
  have hp := peek_length b h
  by_cases hw : n ≤ b.WritableBytes
  · rw [EnsureWriteable_fits b n hw] at he
    cases he
    omega
  · by_cases hc : n + 1 ≤ b.WritableBytes + b.PrependableBytes
    · rw [EnsureWriteable_compacts b n h (by omega) hc] at he
      cases he
      simp only [Buffer.WritableBytes, Buffer.PrependableBytes, Buffer.ReadableBytes] at hw hc hp
      have hl : (copyInto b.buffer_ 0 b.Peek).length = b.buffer_.length :=
        copyInto_length _ _ _ (by have := h.1; have := h.2; omega)
      simp only [hl] at hg
      omega
    · rw [EnsureWriteable_grows b n (by omega) (by omega)] at he
      cases he
      exact ⟨vectorResize_length _ _, rfl, rfl, take_vectorResize _ _ _ h.2 (by omega)⟩

/-- C12 at the full buffer of capacity 2 and `EnsureWriteable(3)`: the capacity becomes
2 + 3 + 1. -/
theorem growth_is_exact_witness :
    (Buffer.mk [1, 2] 0 2).cursorsOk ∧
    (Buffer.mk [1, 2] 0 2).EnsureWriteable 3 = .ok (Buffer.mk [1, 2, 0, 0, 0, 0] 0 2) ∧
    (Buffer.mk [1, 2] 0 2).buffer_.length < (Buffer.mk [1, 2, 0, 0, 0, 0] 0 2).buffer_.length ∧
    (Buffer.mk [1, 2, 0, 0, 0, 0] 0 2).buffer_.length = (Buffer.mk [1, 2] 0 2).writePos_ + 3 + 1 ∧
    (Buffer.mk [1, 2, 0, 0, 0, 0] 0 2).readPos_ = (Buffer.mk [1, 2] 0 2).readPos_ ∧
    (Buffer.mk [1, 2, 0, 0, 0, 0] 0 2).writePos_ = (Buffer.mk [1, 2] 0 2).writePos_ ∧
    (Buffer.mk [1, 2, 0, 0, 0, 0] 0 2).buffer_.take (Buffer.mk [1, 2] 0 2).writePos_ =
      (Buffer.mk [1, 2] 0 2).buffer_.take (Buffer.mk [1, 2] 0 2).writePos_ :=
  ⟨⟨by decide, by decide⟩, rfl, by decide,
    growth_is_exact (Buffer.mk [1, 2] 0 2) (Buffer.mk [1, 2, 0, 0, 0, 0] 0 2) 3
      ⟨by decide, by decide⟩ rfl (by decide)⟩

/-- What `ReadFd` does after a successful `readv` on a buffer whose cursors are in
order. -/
theorem ReadFd_spec (b : Buffer) (r : Readv) (slot : Int) (h : b.cursorsOk)
    (hr : r.delivers b.WritableBytes) (h0 : 0 ≤ r.ret) :
    ∃ b1, b.ReadFd r slot = .ok (b1, r.ret, slot) ∧ b1.cursorsOk ∧
      b1.Peek = b.Peek ++ r.data ∧ b1.ReadableBytes = b.ReadableBytes + r.data.length ∧
      (r.data.length ≤ b.WritableBytes →
        b1 = { buffer_ := copyInto b.buffer_ b.writePos_ r.data, readPos_ := b.readPos_,
               writePos_ := b.writePos_ + r.data.length }) ∧
      (b.WritableBytes < r.data.length →
        ({ buffer_ := copyInto b.buffer_ b.writePos_ (r.data.take b.WritableBytes),
           readPos_ := b.readPos_, writePos_ := b.buffer_.length } : Buffer).Append
            (r.data.drop b.WritableBytes) = .ok b1) := by
  obtain ⟨_, hlen, _⟩ := hr
  have hlen := hlen h0
  have hn : r.ret.toNat = r.data.length := by omega
  obtain ⟨hrw, hws⟩ := h
  unfold Buffer.ReadFd
  simp only
  rw [if_neg (by omega), hn]
  by_cases hfit : r.data.length ≤ b.WritableBytes
  · rw [if_pos hfit, List.take_of_length_le hfit]
    have hW := hfit
    simp only [Buffer.WritableBytes] at hW
    have hl := copyInto_length b.buffer_ r.data b.writePos_ (by omega)
    refine ⟨_, rfl, ⟨by simp only; omega, by simp only [hl]; omega⟩,
      peek_after_copy b r.data ⟨hrw, hws⟩ hfit, by simp only [Buffer.ReadableBytes]; omega,
      fun _ => rfl, fun hc => by omega⟩
  · rw [if_neg hfit]
    have hW : b.WritableBytes = b.buffer_.length - b.writePos_ := rfl
    have htl : (r.data.take b.WritableBytes).length = b.WritableBytes := by
      rw [List.length_take]; omega
    have hl := copyInto_length b.buffer_ (r.data.take b.WritableBytes) b.writePos_
      (by rw [htl, hW]; omega)
    have hdrop : (r.data.drop b.WritableBytes).take (r.data.length - b.WritableBytes) =
        r.data.drop b.WritableBytes := by
      rw [List.take_of_length_le (by rw [List.length_drop])]
    rw [hdrop, hl]
    have hok0 : (Buffer.mk (copyInto b.buffer_ b.writePos_ (r.data.take b.WritableBytes))
        b.readPos_ b.buffer_.length).cursorsOk :=
      ⟨by simp only; omega, by simp only [hl]; exact le_refl _⟩
    obtain ⟨b2, he, hok, hpk, hrd, _⟩ := Append_spec _ (r.data.drop b.WritableBytes) hok0
    rw [he]
    have hpk0 := peek_after_copy b (r.data.take b.WritableBytes) ⟨hrw, hws⟩ (by rw [htl])
    rw [htl] at hpk0
    have hw2 : b.writePos_ + b.WritableBytes = b.buffer_.length := by rw [hW]; omega
    rw [hw2] at hpk0
    refine ⟨b2, rfl, hok, ?_, ?_, fun hc => absurd hc hfit, fun _ => rfl⟩
    · rw [hpk, hpk0, List.append_assoc, List.take_append_drop]
    · rw [hrd]
      simp only [Buffer.ReadableBytes, List.length_drop]
      omega

theorem peek_after_retrieve (b : Buffer) (n : Nat) :
    ({ b with readPos_ := b.readPos_ + n } : Buffer).Peek = b.Peek.drop n := by
  simp only [Buffer.Peek, Buffer.ReadableBytes]
  rw [List.drop_take, List.drop_drop]
  congr 1
  omega

theorem ReadFd_failed (b : Buffer) (r : Readv) (slot : Int)
    (hr : r.delivers b.WritableBytes) (hneg : r.ret < 0) :
    b.ReadFd r slot = .ok (b, r.ret, r.errno) := by
  have hd := hr.1 hneg
  unfold Buffer.ReadFd
  simp only
  rw [if_pos hneg, hd, List.take_nil, copyInto_nil]

/-! ## The claims on the cursors and on `ReadFd` and `WriteFd` -/

theorem sizeSub_eq (a b : Nat) (hb : b ≤ a) (ha : a < SIZE_T_MOD) : sizeSub a b = a - b := by
  simp only [sizeSub, SIZE_T_MOD] at *
  omega

theorem sizeAdd_eq (a b : Nat) (h : a + b < SIZE_T_MOD) : sizeAdd a b = a + b := by
  simp only [sizeAdd, SIZE_T_MOD] at *
  omega

/-- Where `writePos_ + len + 1` is a size that the vector can have, the `size_t`
arithmetic of `EnsureWriteable` and `MakeSpace_` is exact: the functions with the
arithmetic of the source written out and the functions on natural numbers agree. -/
theorem sizeT_EnsureWriteable_eq (b : Buffer) (len : Nat) (h : b.cursorsOk)
    (hsz : b.buffer_.length ≤ VECTOR_MAX_SIZE)
    (hfit : b.writePos_ + len + 1 ≤ VECTOR_MAX_SIZE) :
    SizeT.EnsureWriteable b len = b.EnsureWriteable len ∧
      SizeT.WritableBytes b = b.WritableBytes ∧ SizeT.ReadableBytes b = b.ReadableBytes := by
  have hp := peek_length b h
  obtain ⟨hrw, hws⟩ := h
  have hM : VECTOR_MAX_SIZE < SIZE_T_MOD := by decide
  have hV : VECTOR_MAX_SIZE = 9223372036854775807 := rfl
  have hW : SizeT.WritableBytes b = b.WritableBytes :=
    sizeSub_eq _ _ hws (by omega)
  have hR : SizeT.ReadableBytes b = b.ReadableBytes :=
    sizeSub_eq _ _ hrw (by omega)
  refine ⟨?_, hW, hR⟩
  unfold SizeT.EnsureWriteable Buffer.EnsureWriteable
  rw [hW]
  by_cases hfitw : b.WritableBytes < len
  · simp only [hfitw, if_true]
    unfold SizeT.MakeSpace_ Buffer.MakeSpace_
    simp only [Buffer.WritableBytes, Buffer.PrependableBytes, Buffer.ReadableBytes] at *
    rw [hW, hR]
    rw [sizeAdd_eq _ _ (by omega), sizeAdd_eq len 1 (by omega),
      sizeAdd_eq b.writePos_ len (by omega), sizeAdd_eq _ 1 (by omega)]
    by_cases hgrow : b.buffer_.length - b.writePos_ + b.readPos_ < len + 1
    · simp only [hgrow, if_true]
      rw [if_neg (by omega)]
      simp only
      have hl := vectorResize_length b.buffer_ (b.writePos_ + len + 1)
      have : SizeT.WritableBytes
          { buffer_ := vectorResize b.buffer_ (b.writePos_ + len + 1), readPos_ := b.readPos_,
            writePos_ := b.writePos_ } = len + 1 := by
        simp only [SizeT.WritableBytes, hl]
        rw [sizeSub_eq _ _ (by omega) (by omega)]
        omega
      rw [this]
      simp only [hl]
      rw [if_pos (by omega), if_pos (by omega)]
    · simp only [hgrow, if_false]
      rw [if_pos ⟨hrw, hws⟩]
      have hc : (copyInto b.buffer_ 0 b.Peek).length = b.buffer_.length :=
        copyInto_length _ _ _ (by omega)
      have hR1 : SizeT.ReadableBytes
          { buffer_ := copyInto b.buffer_ 0 b.Peek, readPos_ := 0,
            writePos_ := b.writePos_ - b.readPos_ } = b.writePos_ - b.readPos_ := by
        simp only [SizeT.ReadableBytes]
        rw [sizeSub_eq _ _ (Nat.zero_le _) (by omega)]
        omega
      have hW1 : SizeT.WritableBytes
          { buffer_ := copyInto b.buffer_ 0 b.Peek, readPos_ := 0,
            writePos_ := b.writePos_ - b.readPos_ } =
          b.buffer_.length - (b.writePos_ - b.readPos_) := by
        simp only [SizeT.WritableBytes, hc]
        rw [sizeSub_eq _ _ (by omega) (by omega)]
      simp only [hR1, Nat.sub_zero, if_true, hW1, hc]
  · simp only [hfitw, if_false, hW]

/-- The cursor invariant `readPos_ ≤ writePos_ ≤ buffer_.size()` across the operations
of the interface, wherever the sizes asked for are sizes that the vector can have and
the vector of `RetrieveAll` is not empty: if the invariant holds before, then
`Retrieve(n)` with `n ≤ ReadableBytes()`, `RetrieveUntil(p)` with
`Peek() ≤ p ≤ BeginWrite()`, `RetrieveAll` and `RetrieveAllToStr` on a vector that is not
empty, `Append` of a byte string and `EnsureWriteable(len)` with `writePos_ + len + 1`
at most `max_size()` return and it holds after them; it holds after `ReadFd` for every
outcome of `readv` (more than the writable bytes delivered or not, or failed), and after
`WriteFd` for every result of `write` up to `ReadableBytes()`. -/
theorem cursor_invariant_kept_within_max_size (b : Buffer) (h : b.cursorsOk) :
    (∀ n, n ≤ b.ReadableBytes → ∃ b1, b.Retrieve n = .ok b1 ∧ b1.cursorsOk) ∧
    (∀ p, b.readPos_ ≤ p → p ≤ b.writePos_ →
      ∃ b1, b.RetrieveUntil p = .ok b1 ∧ b1.cursorsOk) ∧
    (0 < b.buffer_.length → ∃ b1, b.RetrieveAll = .ok b1 ∧ b1.cursorsOk) ∧
    (0 < b.buffer_.length → ∃ b1, b.RetrieveAllToStr = .ok (b1, b.Peek) ∧ b1.cursorsOk) ∧
    (∀ data, b.writePos_ + data.length + 1 ≤ VECTOR_MAX_SIZE →
      ∃ b1, b.Append data = .ok b1 ∧ b1.cursorsOk) ∧
    (∀ len, b.buffer_.length ≤ VECTOR_MAX_SIZE → b.writePos_ + len + 1 ≤ VECTOR_MAX_SIZE →
      ∃ b1, SizeT.EnsureWriteable b len = .ok b1 ∧ b1.cursorsOk) ∧
    (∀ r slot, r.delivers b.WritableBytes →
      b.buffer_.length + SPILL_SIZE + 1 ≤ VECTOR_MAX_SIZE →
      ∃ b1 ret e, b.ReadFd r slot = .ok (b1, ret, e) ∧ b1.cursorsOk) ∧
    (∀ ret errno slot, ret ≤ b.ReadableBytes → (b.WriteFd ret errno slot).1.cursorsOk) := by
  have hrw := h.1
  have hws := h.2
  refine ⟨?_, ?_, ?_, ?_, ?_, ?_, ?_, ?_⟩
  · intro n hn
    unfold Buffer.Retrieve
    rw [if_pos hn]
    simp only [Buffer.ReadableBytes] at hn
    exact ⟨_, rfl, by simp only; omega, hws⟩
  · intro p hp1 hp2
    unfold Buffer.RetrieveUntil Buffer.Retrieve
    rw [if_pos hp1, if_pos (by simp only [Buffer.ReadableBytes]; omega)]
    exact ⟨_, rfl, by simp only; omega, hws⟩
  · intro hne
    unfold Buffer.RetrieveAll
    rw [if_neg (by omega)]
    exact ⟨_, rfl, le_refl _, Nat.zero_le _⟩
  · intro hne
    unfold Buffer.RetrieveAllToStr Buffer.RetrieveAll
    rw [if_neg (by omega)]
    exact ⟨_, rfl, le_refl _, Nat.zero_le _⟩
  · intro data _
    obtain ⟨b1, he, hok, _⟩ := Append_spec b data h
    exact ⟨b1, he, hok⟩
  · intro len hsz hfit
    obtain ⟨heq, _, _⟩ := sizeT_EnsureWriteable_eq b len h hsz hfit
    obtain ⟨b1, he, hok, _⟩ := EnsureWriteable_spec b len h
    exact ⟨b1, by rw [heq]; exact he, hok⟩
  · intro r slot hr _
    by_cases hneg : r.ret < 0
    · exact ⟨b, _, _, ReadFd_failed b r slot hr hneg, h⟩
    · obtain ⟨b1, he, hok, _⟩ := ReadFd_spec b r slot h hr (by omega)
      exact ⟨b1, _, _, he, hok⟩
  · intro ret errno slot hret
    unfold Buffer.WriteFd
    split
    · exact h
    · simp only [Buffer.ReadableBytes] at hret
      exact ⟨by simp only; omega, hws⟩

/-- C13. The cursor invariant across `EnsureWriteable` and `RetrieveAll`, evaluated where
it is lost. On the full buffer of capacity 4, whose cursors are in order,
`EnsureWriteable(2^64 - 3)` finds no room; in `MakeSpace_` the sum `0 + 0` is below
`len + 1`, and `writePos_ + len + 1` is `4 + (2^64 - 3) + 1 = 2` on `size_t`, so
`resize(2)` shrinks the vector; the assertion at the end passes, because
`buffer_.size() - writePos_ = 2 - 4` wraps to `2^64 - 2`, and the call returns with
`writePos_ = 4` above `buffer_.size() = 2`. On the buffer of capacity 0, whose cursors
are in order, `RetrieveAll` and `RetrieveAllToStr` access `buffer_[0]`, which the empty
vector does not have. -/
theorem cursor_invariant_lost_in_wrapped_resize :
    (Buffer.mk [1, 2, 3, 4] 0 4).cursorsOk ∧
    sizeAdd (sizeAdd 4 18446744073709551613) 1 = 2 ∧
    SizeT.EnsureWriteable (Buffer.mk [1, 2, 3, 4] 0 4) 18446744073709551613 =
      .ok (Buffer.mk [1, 2] 0 4) ∧
    SizeT.WritableBytes (Buffer.mk [1, 2] 0 4) = 18446744073709551614 ∧
    ¬ (Buffer.mk [1, 2] 0 4).cursorsOk ∧
    (Buffer.init 0).cursorsOk ∧
    (Buffer.init 0).RetrieveAll = .error .outOfRange ∧
    (Buffer.init 0).RetrieveAllToStr = .error .outOfRange :=
  ⟨⟨by decide, by decide⟩, by decide, rfl, by decide, fun h => absurd h.2 (by decide),
    ⟨by decide, by decide⟩, rfl, rfl⟩

/-- C14. `ReadFd` takes in exactly what the scatter read delivered: for every buffer
whose cursors are in order and every successful `readv` result `n` with its delivered
bytes `d`, `ReadFd` returns `n`, leaves the caller's error slot alone, and the readable
region afterwards is the old one followed by `d`, so `ReadableBytes()` has grown by `n`.
When `n ≤ WritableBytes()` the write cursor has advanced by `n` and nothing else has
changed but the bytes written; otherwise the result is that of `Append` of the
`n - WritableBytes()` overflow bytes to the buffer with the write cursor at the
capacity. -/
theorem ReadFd_takes_in_what_was_delivered (b : Buffer) (r : Readv) (slot : Int)
    (h : b.cursorsOk) (hr : r.delivers b.WritableBytes) (h0 : 0 ≤ r.ret) :
    ∃ b1, b.ReadFd r slot = .ok (b1, r.ret, slot) ∧ b1.Peek = b.Peek ++ r.data ∧
      (b1.ReadableBytes : Int) = b.ReadableBytes + r.ret ∧
      (r.ret ≤ b.WritableBytes →
        b1 = { buffer_ := copyInto b.buffer_ b.writePos_ r.data, readPos_ := b.readPos_,
               writePos_ := b.writePos_ + r.ret.toNat }) ∧
      ((b.WritableBytes : Int) < r.ret →
        ({ buffer_ := copyInto b.buffer_ b.writePos_ (r.data.take b.WritableBytes),
           readPos_ := b.readPos_, writePos_ := b.buffer_.length } : Buffer).Append
            (r.data.drop b.WritableBytes) = .ok b1 ∧
          (r.data.drop b.WritableBytes).length = r.ret.toNat - b.WritableBytes) := by
  obtain ⟨b1, he, _, hpk, hrd, hfit, hover⟩ := ReadFd_spec b r slot h hr h0
  have hlen := hr.2.1 h0
  refine ⟨b1, he, hpk, by rw [hrd]; omega, ?_, ?_⟩
  · intro hle
    have hn : r.ret.toNat = r.data.length := by omega
    rw [hn]
    exact hfit (by omega)
  · intro hlt
    exact ⟨hover (by omega), by rw [List.length_drop]; omega⟩

/-- C14 at the buffer of capacity 4 with `readPos_ = 1`, `writePos_ = 3` and a `readv`
that delivers 3 bytes: one goes into the writable byte, two are appended. -/
theorem ReadFd_takes_in_what_was_delivered_witness :
    (Buffer.mk [1, 2, 3, 4] 1 3).cursorsOk ∧
    (Readv.mk 3 0 [7, 8, 9]).delivers (Buffer.mk [1, 2, 3, 4] 1 3).WritableBytes ∧
    (0 : Int) ≤ (Readv.mk 3 0 [7, 8, 9]).ret ∧
    ∃ b1, (Buffer.mk [1, 2, 3, 4] 1 3).ReadFd (Readv.mk 3 0 [7, 8, 9]) 0 =
        .ok (b1, (Readv.mk 3 0 [7, 8, 9]).ret, 0) ∧
      b1.Peek = (Buffer.mk [1, 2, 3, 4] 1 3).Peek ++ (Readv.mk 3 0 [7, 8, 9]).data ∧
      (b1.ReadableBytes : Int) =
        (Buffer.mk [1, 2, 3, 4] 1 3).ReadableBytes + (Readv.mk 3 0 [7, 8, 9]).ret ∧
      ((Readv.mk 3 0 [7, 8, 9]).ret ≤ (Buffer.mk [1, 2, 3, 4] 1 3).WritableBytes →
        b1 = { buffer_ := copyInto (Buffer.mk [1, 2, 3, 4] 1 3).buffer_
                 (Buffer.mk [1, 2, 3, 4] 1 3).writePos_ (Readv.mk 3 0 [7, 8, 9]).data,
               readPos_ := (Buffer.mk [1, 2, 3, 4] 1 3).readPos_,
               writePos_ := (Buffer.mk [1, 2, 3, 4] 1 3).writePos_ +
                 (Readv.mk 3 0 [7, 8, 9]).ret.toNat }) ∧
      (((Buffer.mk [1, 2, 3, 4] 1 3).WritableBytes : Int) < (Readv.mk 3 0 [7, 8, 9]).ret →
        ({ buffer_ := copyInto (Buffer.mk [1, 2, 3, 4] 1 3).buffer_
             (Buffer.mk [1, 2, 3, 4] 1 3).writePos_
             ((Readv.mk 3 0 [7, 8, 9]).data.take (Buffer.mk [1, 2, 3, 4] 1 3).WritableBytes),
           readPos_ := (Buffer.mk [1, 2, 3, 4] 1 3).readPos_,
           writePos_ := (Buffer.mk [1, 2, 3, 4] 1 3).buffer_.length } : Buffer).Append
            ((Readv.mk 3 0 [7, 8, 9]).data.drop (Buffer.mk [1, 2, 3, 4] 1 3).WritableBytes) =
              .ok b1 ∧
          ((Readv.mk 3 0 [7, 8, 9]).data.drop (Buffer.mk [1, 2, 3, 4] 1 3).WritableBytes).length =
            (Readv.mk 3 0 [7, 8, 9]).ret.toNat - (Buffer.mk [1, 2, 3, 4] 1 3).WritableBytes) :=
  ⟨⟨by decide, by decide⟩, ⟨by decide, by decide, by decide⟩, by decide,
    ReadFd_takes_in_what_was_delivered (Buffer.mk [1, 2, 3, 4] 1 3) (Readv.mk 3 0 [7, 8, 9]) 0
      ⟨by decide, by decide⟩ ⟨by decide, by decide, by decide⟩ (by decide)⟩

/-- C15. `WriteFd` consumes exactly what was written: for every buffer and every result
`n` of `write` with `0 ≤ n ≤ ReadableBytes()`, `WriteFd` returns `n`, leaves the
caller's error slot alone, advances the read cursor by `n`, keeps the write cursor, the
capacity and the contents, and the readable region afterwards is the old one without
its first `n` bytes. -/
theorem WriteFd_consumes_what_was_written (b : Buffer) (ret errno slot : Int)
    (h0 : 0 ≤ ret) (h1 : ret ≤ b.ReadableBytes) :
    b.WriteFd ret errno slot =
        ({ buffer_ := b.buffer_, readPos_ := b.readPos_ + ret.toNat,
           writePos_ := b.writePos_ }, ret, slot) ∧
      (b.WriteFd ret errno slot).1.Peek = b.Peek.drop ret.toNat ∧
      ((b.WriteFd ret errno slot).1.ReadableBytes : Int) = b.ReadableBytes - ret := by
  have e : b.WriteFd ret errno slot =
      ({ buffer_ := b.buffer_, readPos_ := b.readPos_ + ret.toNat,
         writePos_ := b.writePos_ }, ret, slot) := by
    unfold Buffer.WriteFd
    rw [if_neg (by omega)]
  rw [e]
  refine ⟨rfl, peek_after_retrieve b ret.toNat, ?_⟩
  simp only [Buffer.ReadableBytes] at h1 ⊢
  omega

/-- C15 at the buffer of capacity 4 with the readable bytes `2, 3` and a `write` that
took one byte. -/
theorem WriteFd_consumes_what_was_written_witness :
    (0 : Int) ≤ 1 ∧ (1 : Int) ≤ (Buffer.mk [1, 2, 3, 4] 1 3).ReadableBytes ∧
    (Buffer.mk [1, 2, 3, 4] 1 3).WriteFd 1 0 0 =
        ({ buffer_ := (Buffer.mk [1, 2, 3, 4] 1 3).buffer_,
           readPos_ := (Buffer.mk [1, 2, 3, 4] 1 3).readPos_ + (1 : Int).toNat,
           writePos_ := (Buffer.mk [1, 2, 3, 4] 1 3).writePos_ }, 1, 0) ∧
      ((Buffer.mk [1, 2, 3, 4] 1 3).WriteFd 1 0 0).1.Peek =
        (Buffer.mk [1, 2, 3, 4] 1 3).Peek.drop (1 : Int).toNat ∧
      (((Buffer.mk [1, 2, 3, 4] 1 3).WriteFd 1 0 0).1.ReadableBytes : Int) =
        (Buffer.mk [1, 2, 3, 4] 1 3).ReadableBytes - 1 :=
  ⟨by decide, by decide,
    WriteFd_consumes_what_was_written (Buffer.mk [1, 2, 3, 4] 1 3) 1 0 0 (by decide)
      (by decide)⟩

/-- C16. A failed system call leaves the buffer untouched and hands the errno through:
for every buffer whose cursors are in order, when `readv` in `ReadFd` or `write` in
`WriteFd` returns a negative value with errno `e`, the call returns that value, the
caller's error slot holds `e`, and cursors, capacity and contents are the old ones; when
the system call returns a value `≥ 0`, that value is returned and the caller's error
slot keeps its content. -/
theorem failed_syscall_leaves_buffer_untouched (b : Buffer) (h : b.cursorsOk) :
    (∀ r slot, r.delivers b.WritableBytes → r.ret < 0 →
      b.ReadFd r slot = .ok (b, r.ret, r.errno)) ∧
    (∀ ret errno slot, ret < 0 → b.WriteFd ret errno slot = (b, ret, errno)) ∧
    (∀ r slot, r.delivers b.WritableBytes → 0 ≤ r.ret →
      ∃ b1, b.ReadFd r slot = .ok (b1, r.ret, slot)) ∧
    (∀ ret errno slot, 0 ≤ ret → ∃ b1, b.WriteFd ret errno slot = (b1, ret, slot)) := by
  refine ⟨fun r slot hr hneg => ReadFd_failed b r slot hr hneg, ?_, ?_, ?_⟩
  · intro ret errno slot hneg
    unfold Buffer.WriteFd
    rw [if_pos hneg]
  · intro r slot hr h0
    obtain ⟨b1, he, _⟩ := ReadFd_spec b r slot h hr h0
    exact ⟨b1, he⟩
  · intro ret errno slot h0
    unfold Buffer.WriteFd
    rw [if_neg (by omega)]
    exact ⟨_, rfl⟩

/-- C16 at the buffer of capacity 4 with `readPos_ = 1` and `writePos_ = 3`. -/
theorem failed_syscall_leaves_buffer_untouched_witness :
    (Buffer.mk [1, 2, 3, 4] 1 3).cursorsOk ∧
    (Buffer.mk [1, 2, 3, 4] 1 3).ReadFd (Readv.mk (-1) 104 []) 0 =
      .ok (Buffer.mk [1, 2, 3, 4] 1 3, -1, 104) ∧
    (Buffer.mk [1, 2, 3, 4] 1 3).WriteFd (-1) 32 0 = (Buffer.mk [1, 2, 3, 4] 1 3, -1, 32) :=
  ⟨⟨by decide, by decide⟩,
    (failed_syscall_leaves_buffer_untouched (Buffer.mk [1, 2, 3, 4] 1 3)
      ⟨by decide, by decide⟩).1 (Readv.mk (-1) 104 []) 0
      ⟨fun _ => rfl, fun h => absurd h (by decide), by decide⟩ (by decide),
    (failed_syscall_leaves_buffer_untouched (Buffer.mk [1, 2, 3, 4] 1 3)
      ⟨by decide, by decide⟩).2.1 (-1) 32 0 (by decide)⟩

/-! ## Lemmas on the reactor -/

theorem lor_eq_zero (a b : Nat) : a ||| b = 0 ↔ a = 0 ∧ b = 0 := by
  constructor
  · intro h
    have ht : ∀ i, (a ||| b).testBit i = false := by
      intro i; rw [h]; exact Nat.zero_testBit i
    constructor
    · apply Nat.zero_of_testBit_eq_false
      intro i
      have := ht i
      rw [Nat.testBit_or, Bool.or_eq_false_iff] at this
      exact this.1
    · apply Nat.zero_of_testBit_eq_false
      intro i
      have := ht i
      rw [Nat.testBit_or, Bool.or_eq_false_iff] at this
      exact this.2
  · rintro ⟨rfl, rfl⟩
    rfl

/-- A mask has one of the bits of `x ||| y` exactly when it has one of `x` or one of
`y`. -/
theorem hasAny_lor (events x y : Nat) :
    hasAny events (x ||| y) = (hasAny events x || hasAny events y) := by
  unfold hasAny
  rw [Nat.and_or_distrib_left]
  by_cases hx : events &&& x = 0 <;> by_cases hy : events &&& y = 0 <;>
    simp [lor_eq_zero, hx, hy]

/-- All outcomes of `OnWrite_`. -/
theorem OnWrite__cases (connEvent_ : Nat) (fd ret writeErrno : Int) (toWriteBytes : Nat)
    (keepAlive processed : Bool) :
    (toWriteBytes = 0 → keepAlive = true →
      OnWrite_ connEvent_ fd ret writeErrno toWriteBytes keepAlive processed =
        OnProcess connEvent_ fd processed) ∧
    (toWriteBytes = 0 → keepAlive = false →
      OnWrite_ connEvent_ fd ret writeErrno toWriteBytes keepAlive processed =
        CloseConn_ fd) ∧
    (0 < toWriteBytes → ret < 0 → writeErrno = EAGAIN →
      OnWrite_ connEvent_ fd ret writeErrno toWriteBytes keepAlive processed =
        [.epollMod fd (connEvent_ ||| EPOLLOUT)]) ∧
    (0 < toWriteBytes → ret < 0 → writeErrno ≠ EAGAIN →
      OnWrite_ connEvent_ fd ret writeErrno toWriteBytes keepAlive processed =
        CloseConn_ fd) ∧
    (0 < toWriteBytes → 0 ≤ ret →
      OnWrite_ connEvent_ fd ret writeErrno toWriteBytes keepAlive processed =
        CloseConn_ fd) := by
  unfold OnWrite_
  refine ⟨?_, ?_, ?_, ?_, ?_⟩
  · intro h1 h2; simp [h1, h2]
  · intro h1 h2; simp [h1, h2]
  · intro h1 h2 h3; rw [if_neg (by omega), if_pos h2, if_pos h3]
  · intro h1 h2 h3; rw [if_neg (by omega), if_pos h2, if_neg h3]
  · intro h1 h2; rw [if_neg (by omega), if_neg (by omega)]

/-- Under a level-triggered listen mask `DealListen_` makes exactly one call of
`accept`. -/
theorem DealListen__level_triggered (listenEvent_ connEvent_ : Nat) (timeoutMS_ : Int)
    (maxFd userCount : Nat) (accepts : List Int) (out : ListenOutcome)
    (hlt : hasAny listenEvent_ EPOLLET = false)
    (h : DealListen_ listenEvent_ connEvent_ timeoutMS_ maxFd userCount accepts = .ok out) :
    (out.effects.filter Effect.isAccept).length = 1 ∧ out.pending = accepts.tail := by
  cases accepts with
  | nil =>
    unfold DealListen_ at h
    cases h
    exact ⟨rfl, rfl⟩
  | cons fd rest =>
    unfold DealListen_ at h
    split at h
    · cases h
      exact ⟨rfl, rfl⟩
    · rename_i hfd
      split at h
      · unfold SendError_ at h
        rw [if_pos (by omega)] at h
        cases h
        exact ⟨rfl, rfl⟩
      · unfold AddClient_ at h
        rw [if_pos (by omega)] at h
        simp only [hlt, Bool.false_eq_true, if_false] at h
        cases h
        refine ⟨?_, rfl⟩
        by_cases ht : 0 < timeoutMS_ <;> simp [ht, Effect.isAccept]

/-- Under an edge-triggered listen mask and with room for every pending connection,
`DealListen_` registers them all and returns after the call of `accept` that fails. -/
theorem DealListen__edge_triggered_drains (listenEvent_ connEvent_ : Nat) (timeoutMS_ : Int)
    (maxFd : Nat) (het : hasAny listenEvent_ EPOLLET = true) :
    ∀ (accepts : List Int) (userCount : Nat), (∀ fd ∈ accepts, 0 < fd) →
      userCount + accepts.length ≤ maxFd →
      ∃ out, DealListen_ listenEvent_ connEvent_ timeoutMS_ maxFd userCount accepts = .ok out ∧
        out.pending = [] ∧ out.effects.getLast? = some (.accept (-1)) ∧
        out.userCount = userCount + accepts.length := by
  intro accepts
  induction accepts with
  | nil =>
    intro userCount _ _
    exact ⟨_, rfl, rfl, rfl, rfl⟩
  | cons fd rest ih =>
    intro userCount hpos hroom
    have hfd := hpos fd (List.mem_cons_self _ _)
    simp only [List.length_cons] at hroom
    obtain ⟨out, he, h1, h2, h3⟩ :=
      ih (userCountAfterInit userCount) (fun x hx => hpos x (List.mem_cons_of_mem _ hx))
        (by unfold userCountAfterInit; omega)
    unfold DealListen_
    rw [if_neg (by omega), if_neg (by omega)]
    unfold AddClient_
    rw [if_pos hfd]
    simp only [het, if_true, he]
    refine ⟨_, rfl, h1, ?_, ?_⟩
    · simp only
      rw [← List.cons_append, List.getLast?_append, h2]
      rfl
    · simp only [h3, userCountAfterInit, List.length_cons]
      omega

/-! ## The claims on the reactor -/

/-- C17. `OnWrite_` on a partly written response: the write returned 100 with no error
and 50 bytes are still to be written. Neither of the two `return` branches is taken
(`ToWriteBytes()` is not 0 and `ret` is not negative), so control reaches
`CloseConn_(client)`: the fd is removed from the poller and the connection is closed,
on a keep-alive connection as well as on any other; the same happens when the write
returned 0. The fd is re-armed for writing only when the write failed with `EAGAIN`. -/
theorem OnWrite__closes_partly_written_response :
    OnWrite_ (EPOLLONESHOT ||| EPOLLRDHUP ||| EPOLLET) 7 100 0 50 true true =
      [.epollDel 7, .connClose 7] ∧
    OnWrite_ (EPOLLONESHOT ||| EPOLLRDHUP ||| EPOLLET) 7 100 0 50 false true =
      [.epollDel 7, .connClose 7] ∧
    OnWrite_ (EPOLLONESHOT ||| EPOLLRDHUP ||| EPOLLET) 7 0 0 50 true true =
      [.epollDel 7, .connClose 7] ∧
    OnWrite_ (EPOLLONESHOT ||| EPOLLRDHUP ||| EPOLLET) 7 (-1) EAGAIN 50 true true =
      [.epollMod 7 (EPOLLONESHOT ||| EPOLLRDHUP ||| EPOLLET ||| EPOLLOUT)] :=
  ⟨by decide, by decide, by decide, by decide⟩

/-- C18. `DealListen_` under an edge-triggered listen mask with the live-connection
count at `MAX_FD = 65536` and two connections pending: the first `accept` returns fd 5,
`SendError_(5, "Server busy!")` runs and `DealListen_` returns from inside the loop. No
call of `accept` has failed, and the second connection is still pending. -/
theorem DealListen__returns_at_busy_with_connections_pending :
    hasAny (EPOLLRDHUP ||| EPOLLET) EPOLLET = true ∧
    DealListen_ (EPOLLRDHUP ||| EPOLLET) (EPOLLONESHOT ||| EPOLLRDHUP ||| EPOLLET) 60000
        65536 65536 [5, 6] =
      .ok { effects := [.accept 5, .send 5 "Server busy!", .closeFd 5], userCount := 65536,
            pending := [6] } := by
  constructor
  · decide
  · rfl

/-- C19. `InitEventMode_` implements the trigger-mode table: for every integer
`trigMode`, `listenEvent_` is `EPOLLRDHUP`, with `EPOLLET` added exactly when `trigMode`
is neither 0 nor 1, `connEvent_` is `EPOLLONESHOT | EPOLLRDHUP`, with `EPOLLET` added
exactly when `trigMode` is neither 0 nor 2, no other bit is set, and `HttpConn::isET` is
true exactly when `connEvent_` contains `EPOLLET`. -/
theorem InitEventMode__implements_table (trigMode : Int) :
    hasAny (InitEventMode_ trigMode).listenEvent_ EPOLLRDHUP = true ∧
    hasAny (InitEventMode_ trigMode).connEvent_ EPOLLONESHOT = true ∧
    hasAny (InitEventMode_ trigMode).connEvent_ EPOLLRDHUP = true ∧
    (hasAny (InitEventMode_ trigMode).listenEvent_ EPOLLET = true ↔
      trigMode ≠ 0 ∧ trigMode ≠ 1) ∧
    (hasAny (InitEventMode_ trigMode).connEvent_ EPOLLET = true ↔
      trigMode ≠ 0 ∧ trigMode ≠ 2) ∧
    (InitEventMode_ trigMode).listenEvent_ =
      (if trigMode ≠ 0 ∧ trigMode ≠ 1 then EPOLLRDHUP ||| EPOLLET else EPOLLRDHUP) ∧
    (InitEventMode_ trigMode).connEvent_ =
      (if trigMode ≠ 0 ∧ trigMode ≠ 2 then EPOLLONESHOT ||| EPOLLRDHUP ||| EPOLLET
        else EPOLLONESHOT ||| EPOLLRDHUP) ∧
    ((InitEventMode_ trigMode).isET = true ↔
      hasAny (InitEventMode_ trigMode).connEvent_ EPOLLET = true) := by
  by_cases h0 : trigMode = 0
  · subst h0; decide
  by_cases h1 : trigMode = 1
  · subst h1; decide
  by_cases h2 : trigMode = 2
  · subst h2; decide
  have e : InitEventMode_ trigMode =
      { listenEvent_ := EPOLLRDHUP ||| EPOLLET
        connEvent_ := EPOLLONESHOT ||| EPOLLRDHUP ||| EPOLLET
        isET := hasAny (EPOLLONESHOT ||| EPOLLRDHUP ||| EPOLLET) EPOLLET } := by
    unfold InitEventMode_
    simp only [h0, h1, h2, if_false]
    by_cases h3 : trigMode = 3 <;> simp [h3]
  rw [e]
  simp only [h0, h1, h2, ne_eq, not_false_eq_true, and_self, if_true, true_and, iff_true]
  decide

/-- C20. Event dispatch in the main loop has a fixed precedence: for every ready event
`(fd, events)` of the listen fd or of a known connection, the listen fd gets the accept
handler whatever the mask; otherwise a mask with hang-up, peer-shutdown or error gets
`CloseConn_` even when read-ready or write-ready is also set; otherwise read-ready gets
`DealRead_` even when write-ready is also set; otherwise write-ready gets `DealWrite_`;
otherwise nothing is done to the connection. The handler is a function of the event, so
exactly one of the five is run. -/
theorem dispatch_has_fixed_precedence (listenFd_ fd : Int) (events : Nat) :
    (fd = listenFd_ → ∀ known, dispatchEvent listenFd_ fd events known = .ok .dealListen) ∧
    (fd ≠ listenFd_ →
      (hasAny events EPOLLHUP = true ∨ hasAny events EPOLLRDHUP = true ∨
        hasAny events EPOLLERR = true) →
      dispatchEvent listenFd_ fd events true = .ok .closeConn) ∧
    (fd ≠ listenFd_ →
      ¬ (hasAny events EPOLLHUP = true ∨ hasAny events EPOLLRDHUP = true ∨
        hasAny events EPOLLERR = true) →
      hasAny events EPOLLIN = true →
      dispatchEvent listenFd_ fd events true = .ok .dealRead) ∧
    (fd ≠ listenFd_ →
      ¬ (hasAny events EPOLLHUP = true ∨ hasAny events EPOLLRDHUP = true ∨
        hasAny events EPOLLERR = true) →
      hasAny events EPOLLIN = false → hasAny events EPOLLOUT = true →
      dispatchEvent listenFd_ fd events true = .ok .dealWrite) ∧
    (fd ≠ listenFd_ →
      ¬ (hasAny events EPOLLHUP = true ∨ hasAny events EPOLLRDHUP = true ∨
        hasAny events EPOLLERR = true) →
      hasAny events EPOLLIN = false → hasAny events EPOLLOUT = false →
      ∀ known, dispatchEvent listenFd_ fd events known = .ok .unexpected) := by
  have hm : hasAny events (EPOLLRDHUP ||| EPOLLHUP ||| EPOLLERR) =
      (hasAny events EPOLLRDHUP || hasAny events EPOLLHUP || hasAny events EPOLLERR) := by
    rw [hasAny_lor, hasAny_lor]
  unfold dispatchEvent
  rw [hm]
  refine ⟨?_, ?_, ?_, ?_, ?_⟩
  · intro h known
    rw [if_pos h]
  · intro h hany
    rw [if_neg h]
    rcases hany with h1 | h1 | h1 <;> simp [h1]
  · intro h hnone hin
    rw [if_neg h]
    simp only [not_or, Bool.not_eq_true] at hnone
    simp [hnone.1, hnone.2.1, hnone.2.2, hin]
  · intro h hnone hin hout
    rw [if_neg h]
    simp only [not_or, Bool.not_eq_true] at hnone
    simp [hnone.1, hnone.2.1, hnone.2.2, hin, hout]
  · intro h hnone hin hout known
    rw [if_neg h]
    simp only [not_or, Bool.not_eq_true] at hnone
    simp [hnone.1, hnone.2.1, hnone.2.2, hin, hout]

/-- C20 at the listen fd 3 and the event of fd 9 with read-ready, write-ready and
peer-shutdown set together: the connection is closed. -/
theorem dispatch_has_fixed_precedence_witness :
    (9 : Int) ≠ 3 ∧
    (hasAny (EPOLLIN ||| EPOLLOUT ||| EPOLLRDHUP) EPOLLHUP = true ∨
      hasAny (EPOLLIN ||| EPOLLOUT ||| EPOLLRDHUP) EPOLLRDHUP = true ∨
      hasAny (EPOLLIN ||| EPOLLOUT ||| EPOLLRDHUP) EPOLLERR = true) ∧
    dispatchEvent 3 9 (EPOLLIN ||| EPOLLOUT ||| EPOLLRDHUP) true = .ok .closeConn :=
  ⟨by decide, by decide,
    (dispatch_has_fixed_precedence 3 9 (EPOLLIN ||| EPOLLOUT ||| EPOLLRDHUP)).2.1
      (by decide) (by decide)⟩

/-! ## Lemmas on `OnRead_` and `DealListen_` -/

/-- The per-connection mask that `InitEventMode_` sets is one of two values. -/
theorem InitEventMode__connEvent_ (trigMode : Int) :
    (InitEventMode_ trigMode).connEvent_ = EPOLLONESHOT ||| EPOLLRDHUP ∨
    (InitEventMode_ trigMode).connEvent_ = EPOLLONESHOT ||| EPOLLRDHUP ||| EPOLLET := by
  unfold InitEventMode_
  by_cases h0 : trigMode = 0
  · left; simp [h0]
  by_cases h1 : trigMode = 1
  · right; simp [h1]
  by_cases h2 : trigMode = 2
  · left; simp [h2]
  by_cases h3 : trigMode = 3
  · right; simp [h3]
  · right; simp [h0, h1, h2, h3]

/-- `DealListen_` returns for every sequence of accept results, and the live-connection
count does not go down. -/
theorem DealListen__total (listenEvent_ connEvent_ : Nat) (timeoutMS_ : Int) (maxFd : Nat) :
    ∀ (accepts : List Int) (userCount : Nat),
      ∃ out, DealListen_ listenEvent_ connEvent_ timeoutMS_ maxFd userCount accepts = .ok out ∧
        userCount ≤ out.userCount := by
  intro accepts
  induction accepts with
  | nil =>
    intro userCount
    exact ⟨_, rfl, le_refl _⟩
  | cons fd rest ih =>
    intro userCount
    unfold DealListen_
    by_cases hfd : fd ≤ 0
    · rw [if_pos hfd]
      exact ⟨_, rfl, le_refl _⟩
    rw [if_neg hfd]
    by_cases hbusy : maxFd ≤ userCount
    · rw [if_pos hbusy]
      unfold SendError_
      rw [if_pos (by omega)]
      exact ⟨_, rfl, le_refl _⟩
    rw [if_neg hbusy]
    unfold AddClient_
    rw [if_pos (by omega)]
    by_cases het : hasAny listenEvent_ EPOLLET = true
    · obtain ⟨out, he, hle⟩ := ih (userCountAfterInit userCount)
      simp only [het, if_true, he]
      refine ⟨_, rfl, ?_⟩
      simp only
      unfold userCountAfterInit at hle
      omega
    · simp only [het, if_false]
      refine ⟨_, rfl, ?_⟩
      simp only [userCountAfterInit]
      omega

/-! ## The claims on read errors and on the busy reject -/

/-- C21. Read errors follow the error policy. For every result `(ret, readErrno)` of
`client->read` and every result of `client->process()`: when `ret <= 0` and `readErrno`
is not `EAGAIN`, `OnRead_` removes the fd from the poller and closes the connection and
does nothing else, so `process` is not called; in every other case it calls `process`
once and re-arms the fd once, with `connEvent_ | EPOLLOUT` when `process` returned true
and with `connEvent_ | EPOLLIN` when it returned false, and does nothing else. The
connection is closed exactly in the first case. With the `connEvent_` of any trigger
mode the re-arm mask holds one-shot and peer-shutdown, and of read-ready and write-ready
exactly the one chosen. -/
theorem OnRead__follows_error_policy (connEvent_ : Nat) (fd ret readErrno : Int)
    (processed : Bool) :
    (ret ≤ 0 ∧ readErrno ≠ EAGAIN →
      OnRead_ connEvent_ fd ret readErrno processed = [.epollDel fd, .connClose fd]) ∧
    (¬ (ret ≤ 0 ∧ readErrno ≠ EAGAIN) →
      OnRead_ connEvent_ fd ret readErrno processed =
        [.process fd,
          .epollMod fd (connEvent_ ||| (if processed then EPOLLOUT else EPOLLIN))]) ∧
    ((OnRead_ connEvent_ fd ret readErrno processed).any Effect.isClose = true ↔
      ret ≤ 0 ∧ readErrno ≠ EAGAIN) ∧
    ((OnRead_ connEvent_ fd ret readErrno processed).any Effect.isProcess = false ↔
      ret ≤ 0 ∧ readErrno ≠ EAGAIN) ∧
    (¬ (ret ≤ 0 ∧ readErrno ≠ EAGAIN) →
      ((OnRead_ connEvent_ fd ret readErrno processed).filter Effect.isProcess).length = 1 ∧
      ((OnRead_ connEvent_ fd ret readErrno processed).filter Effect.isEpollMod).length = 1) ∧
    (∀ trigMode : Int, connEvent_ = (InitEventMode_ trigMode).connEvent_ →
      hasAny (connEvent_ ||| EPOLLOUT) EPOLLONESHOT = true ∧
      hasAny (connEvent_ ||| EPOLLOUT) EPOLLRDHUP = true ∧
      hasAny (connEvent_ ||| EPOLLOUT) EPOLLOUT = true ∧
      hasAny (connEvent_ ||| EPOLLOUT) EPOLLIN = false ∧
      hasAny (connEvent_ ||| EPOLLIN) EPOLLONESHOT = true ∧
      hasAny (connEvent_ ||| EPOLLIN) EPOLLRDHUP = true ∧
      hasAny (connEvent_ ||| EPOLLIN) EPOLLIN = true ∧
      hasAny (connEvent_ ||| EPOLLIN) EPOLLOUT = false) := by
  have hclose : ret ≤ 0 ∧ readErrno ≠ EAGAIN →
      OnRead_ connEvent_ fd ret readErrno processed = [.epollDel fd, .connClose fd] := by
    intro h
    unfold OnRead_
    rw [if_pos h]
    rfl
  have hproc : ¬ (ret ≤ 0 ∧ readErrno ≠ EAGAIN) →
      OnRead_ connEvent_ fd ret readErrno processed =
        [.process fd,
          .epollMod fd (connEvent_ ||| (if processed then EPOLLOUT else EPOLLIN))] := by
    intro h
    unfold OnRead_ OnProcess
    rw [if_neg h]
    cases processed <;> rfl
  refine ⟨hclose, hproc, ?_, ?_, ?_, ?_⟩
  · by_cases h : ret ≤ 0 ∧ readErrno ≠ EAGAIN
    · rw [hclose h]
      simp [Effect.isClose, h]
    · rw [hproc h]
      simp [Effect.isClose, h]
  · by_cases h : ret ≤ 0 ∧ readErrno ≠ EAGAIN
    · rw [hclose h]
      simp [Effect.isProcess, h]
    · rw [hproc h]
      simp [Effect.isProcess, h]
  · intro h
    rw [hproc h]
    simp [Effect.isProcess, Effect.isEpollMod]
  · intro trigMode hmode
    rcases InitEventMode__connEvent_ trigMode with h | h <;>
    · rw [hmode, h]
      decide

/-- C21 at a read that returned 0 with no error (the peer closed) and at a read that
returned 120 bytes before `process` returned true, under the mask of trigger mode 3. -/
theorem OnRead__follows_error_policy_witness :
    ((0 : Int) ≤ 0 ∧ (0 : Int) ≠ EAGAIN) ∧
    OnRead_ (InitEventMode_ 3).connEvent_ 7 0 0 true = [.epollDel 7, .connClose 7] ∧
    ¬ ((120 : Int) ≤ 0 ∧ EAGAIN ≠ EAGAIN) ∧
    OnRead_ (InitEventMode_ 3).connEvent_ 7 120 EAGAIN true =
      [.process 7, .epollMod 7 ((InitEventMode_ 3).connEvent_ |||
        (if true = true then EPOLLOUT else EPOLLIN))] :=
  ⟨by decide,
    (OnRead__follows_error_policy (InitEventMode_ 3).connEvent_ 7 0 0 true).1 (by decide),
    by decide,
    (OnRead__follows_error_policy (InitEventMode_ 3).connEvent_ 7 120 EAGAIN true).2.1
      (by decide)⟩

/-- C22. Busy reject registers nothing. For every fd that `accept` delivers (`fd > 0`),
whatever the masks, the timeout and the connections still pending: when
`HttpConn::userCount >= MAX_FD` at that moment, `DealListen_` sends exactly the text
`Server busy!` to the fd, closes it and returns; it makes no other call, in particular
none that initialises a connection, adds a timer entry or registers with the poller, and
the live-connection count is unchanged. When the count is below `MAX_FD`, the fd goes
through `AddClient_`: the connection is initialised, a timer entry is added when
`timeoutMS_ > 0`, the fd is added to the poller with `EPOLLIN | connEvent_` and made
non-blocking, before any further `accept`. -/
theorem busy_reject_registers_nothing (listenEvent_ connEvent_ : Nat) (timeoutMS_ : Int)
    (maxFd userCount : Nat) (fd : Int) (rest : List Int) (hfd : 0 < fd) :
    (maxFd ≤ userCount →
      DealListen_ listenEvent_ connEvent_ timeoutMS_ maxFd userCount (fd :: rest) =
        .ok { effects := [.accept fd, .send fd "Server busy!", .closeFd fd]
              userCount := userCount, pending := rest } ∧
      ∀ out, DealListen_ listenEvent_ connEvent_ timeoutMS_ maxFd userCount (fd :: rest) =
          .ok out →
        out.effects.any Effect.isRegistration = false ∧ out.userCount = userCount) ∧
    (userCount < maxFd →
      ∃ out later,
        DealListen_ listenEvent_ connEvent_ timeoutMS_ maxFd userCount (fd :: rest) =
          .ok out ∧
        AddClient_ connEvent_ timeoutMS_ fd =
          .ok ([.connInit fd] ++ (if 0 < timeoutMS_ then [.timerAdd fd timeoutMS_] else []) ++
            [.epollAdd fd (EPOLLIN ||| connEvent_), .setNonblock fd]) ∧
        out.effects = .accept fd ::
          ([.connInit fd] ++ (if 0 < timeoutMS_ then [.timerAdd fd timeoutMS_] else []) ++
            [.epollAdd fd (EPOLLIN ||| connEvent_), .setNonblock fd]) ++ later) := by
  constructor
  · intro hbusy
    have e : DealListen_ listenEvent_ connEvent_ timeoutMS_ maxFd userCount (fd :: rest) =
        .ok { effects := [.accept fd, .send fd "Server busy!", .closeFd fd]
              userCount := userCount, pending := rest } := by
      unfold DealListen_
      rw [if_neg (by omega), if_pos hbusy]
      unfold SendError_
      rw [if_pos hfd]
    refine ⟨e, ?_⟩
    intro out hout
    rw [e] at hout
    cases hout
    exact ⟨by simp [Effect.isRegistration], rfl⟩
  · intro hroom
    have ha : AddClient_ connEvent_ timeoutMS_ fd =
        .ok ([.connInit fd] ++ (if 0 < timeoutMS_ then [.timerAdd fd timeoutMS_] else []) ++
          [.epollAdd fd (EPOLLIN ||| connEvent_), .setNonblock fd]) := by
      unfold AddClient_
      rw [if_pos hfd]
    unfold DealListen_
    rw [if_neg (by omega), if_neg (by omega), ha]
    by_cases het : hasAny listenEvent_ EPOLLET = true
    · obtain ⟨out, he, _⟩ :=
        DealListen__total listenEvent_ connEvent_ timeoutMS_ maxFd rest
          (userCountAfterInit userCount)
      simp only [het, if_true, he]
      exact ⟨_, out.effects, rfl, trivial, by simp⟩
    · simp only [het, if_false]
      exact ⟨_, [], rfl, trivial, by simp⟩

/-- C22 at fd 5 with the count at `MAX_FD = 65536` and a second connection pending, and
at fd 5 with the count one below it, under a level-triggered listen mask. -/
theorem busy_reject_registers_nothing_witness :
    (0 : Int) < 5 ∧ (65536 : Nat) ≤ 65536 ∧
    DealListen_ EPOLLRDHUP (EPOLLONESHOT ||| EPOLLRDHUP) 60000 65536 65536 [5, 6] =
      .ok { effects := [.accept 5, .send 5 "Server busy!", .closeFd 5]
            userCount := 65536, pending := [6] } ∧
    DealListen_ EPOLLRDHUP (EPOLLONESHOT ||| EPOLLRDHUP) 60000 65536 65535 [5, 6] =
      .ok { effects := [.accept 5, .connInit 5, .timerAdd 5 60000,
                        .epollAdd 5 (EPOLLIN ||| (EPOLLONESHOT ||| EPOLLRDHUP)),
                        .setNonblock 5]
            userCount := 65536, pending := [6] } :=
  ⟨by decide, by decide,
    ((busy_reject_registers_nothing EPOLLRDHUP (EPOLLONESHOT ||| EPOLLRDHUP) 60000 65536
      65536 5 [6] (by decide)).1 (by decide)).1,
    rfl⟩

/-! ## Lemmas on the thread pool -/

theorem enqueuedTasks_append (a b : List PoolEvent) :
    enqueuedTasks (a ++ b) = enqueuedTasks a ++ enqueuedTasks b := by
  induction a with
  | nil => rfl
  | cons e a ih => cases e <;> simp [enqueuedTasks, ih]

theorem dequeuedTasks_append (a b : List PoolEvent) :
    dequeuedTasks (a ++ b) = dequeuedTasks a ++ dequeuedTasks b := by
  induction a with
  | nil => rfl
  | cons e a ih => cases e <;> simp [dequeuedTasks, ih]

theorem enqueuedBeforeClose_append_of_closed (a b : List PoolEvent)
    (h : PoolEvent.closed ∈ a) : enqueuedBeforeClose (a ++ b) = enqueuedBeforeClose a := by
  induction a with
  | nil => simp at h
  | cons e a ih =>
    cases e with
    | closed => simp [enqueuedBeforeClose]
    | enqueued task =>
      simp only [List.mem_cons, reduceCtorEq, false_or] at h
      simp [enqueuedBeforeClose, ih h]
    | dequeued w task =>
      simp only [List.mem_cons, reduceCtorEq, false_or] at h
      simp [enqueuedBeforeClose, ih h]
    | left w =>
      simp only [List.mem_cons, reduceCtorEq, false_or] at h
      simp [enqueuedBeforeClose, ih h]

/-- The tasks enqueued before the close are the first of the tasks enqueued. -/
theorem enqueuedBeforeClose_initial (a : List PoolEvent) :
    ∃ rest, enqueuedTasks a = enqueuedBeforeClose a ++ rest := by
  induction a with
  | nil => exact ⟨[], rfl⟩
  | cons e a ih =>
    obtain ⟨rest, hr⟩ := ih
    cases e with
    | closed => exact ⟨enqueuedTasks a, by simp [enqueuedTasks, enqueuedBeforeClose]⟩
    | enqueued task => exact ⟨rest, by simp [enqueuedTasks, enqueuedBeforeClose, hr]⟩
    | dequeued w task => exact ⟨rest, by simp [enqueuedTasks, enqueuedBeforeClose, hr]⟩
    | left w => exact ⟨rest, by simp [enqueuedTasks, enqueuedBeforeClose, hr]⟩

/-- The transitions of a worker, one by one. -/
theorem workerStep_cases {s s1 : Pool} {w : Nat} {events : List PoolEvent}
    (h : s.workerStep w = some (s1, events)) :
    (s.workers[w]? = some .locking ∧ s.mtxHeld = false ∧ events = [] ∧
      s1 = { s with mtxHeld := true, workers := s.workers.set w .atLoopHead }) ∨
    (∃ task rest, s.workers[w]? = some .atLoopHead ∧ s.tasks = task :: rest ∧
      events = [.dequeued w task] ∧
      s1 = { s with tasks := rest, mtxHeld := false,
                    workers := s.workers.set w (.running task) }) ∨
    (s.workers[w]? = some .atLoopHead ∧ s.tasks = [] ∧ s.isClosed = true ∧
      events = [.left w] ∧
      s1 = { s with mtxHeld := false, workers := s.workers.set w .exited }) ∨
    (s.workers[w]? = some .atLoopHead ∧ s.tasks = [] ∧ s.isClosed = false ∧ events = [] ∧
      s1 = { s with mtxHeld := false, workers := s.workers.set w .waiting }) ∨
    ((∃ task, s.workers[w]? = some (.running task)) ∧
      events = [] ∧ s1 = { s with workers := s.workers.set w .locking }) := by
  unfold Pool.workerStep at h
  split at h
  · cases h
  · rename_i hpc
    split at h
    · cases h
    · rename_i hm
      simp only [Option.some.injEq, Prod.mk.injEq] at h
      exact Or.inl ⟨hpc, by simpa using hm, h.2.symm, h.1.symm⟩
  · rename_i hpc
    split at h
    · rename_i task rest ht
      simp only [Option.some.injEq, Prod.mk.injEq] at h
      exact Or.inr (Or.inl ⟨task, rest, hpc, ht, h.2.symm, h.1.symm⟩)
    · rename_i ht
      split at h
      · rename_i hcl
        simp only [Option.some.injEq, Prod.mk.injEq] at h
        exact Or.inr (Or.inr (Or.inl ⟨hpc, ht, hcl, h.2.symm, h.1.symm⟩))
      · rename_i hcl
        simp only [Option.some.injEq, Prod.mk.injEq] at h
        exact Or.inr (Or.inr (Or.inr (Or.inl ⟨hpc, ht, by simpa using hcl, h.2.symm, h.1.symm⟩)))
  · rename_i task hpc
    simp only [Option.some.injEq, Prod.mk.injEq] at h
    exact Or.inr (Or.inr (Or.inr (Or.inr ⟨⟨task, hpc⟩, h.2.symm, h.1.symm⟩)))
  · cases h
  · cases h

theorem lt_of_getElem?_eq_some {α : Type} {l : List α} {w : Nat} {a : α}
    (h : l[w]? = some a) : w < l.length := by
  by_contra hcon
  rw [List.getElem?_eq_none (by omega)] at h
  cases h

/-- Replacing the position of one worker changes the count of workers at the loop head by
that worker alone. -/
theorem count_head_set (l : List WorkerPc) (w : Nat) (a b : WorkerPc) (h : l[w]? = some a) :
    (l.set w b).count .atLoopHead + (if a = .atLoopHead then 1 else 0) =
      l.count .atLoopHead + (if b = .atLoopHead then 1 else 0) := by
  have hw := lt_of_getElem?_eq_some h
  have ha : l[w] = a := by
    rw [List.getElem?_eq_getElem hw] at h
    exact Option.some.inj h
  rw [List.count_set _ _ _ _ hw, ha]
  have hpos : a = .atLoopHead → 0 < l.count .atLoopHead := by
    intro e
    rw [List.count_pos_iff]
    rw [← e, ← ha]
    exact List.getElem_mem hw
  by_cases e1 : a = .atLoopHead <;> by_cases e2 : b = .atLoopHead
  · have := hpos e1
    simp only [e1, e2, beq_self_eq_true, if_true]
    omega
  · have := hpos e1
    simp only [e1, e2, beq_self_eq_true, if_true, beq_iff_eq, if_false]
    omega
  · simp only [e1, e2, beq_self_eq_true, if_true, beq_iff_eq, if_false]
    omega
  · simp only [e1, e2, beq_iff_eq, if_false]
    omega

/-- Replacing the position of one worker changes the sum of the distances by that worker
alone. -/
theorem distance_set (l : List WorkerPc) :
    ∀ (w : Nat) (a b : WorkerPc), l[w]? = some a →
      ((l.set w b).map WorkerPc.distance).sum + a.distance =
        (l.map WorkerPc.distance).sum + b.distance := by
  induction l with
  | nil => intro w a b h; simp at h
  | cons c l ih =>
    intro w a b h
    cases w with
    | zero =>
      simp only [List.getElem?_cons_zero, Option.some.injEq] at h
      subst h
      simp only [List.set_cons_zero, List.map_cons, List.sum_cons]
      omega
    | succ w =>
      simp only [List.getElem?_cons_succ] at h
      have := ih w a b h
      simp only [List.set_cons_succ, List.map_cons, List.sum_cons]
      omega

/-- A worker that was not in `exited` before and is not put there is not there after. -/
theorem exited_of_mem_set {l : List WorkerPc} {w : Nat} {b : WorkerPc}
    (h : WorkerPc.exited ∈ l.set w b) (hb : b ≠ .exited) : WorkerPc.exited ∈ l := by
  rcases List.mem_or_eq_of_mem_set h with h1 | h1
  · exact h1
  · exact absurd h1.symm hb

/-- `notify_all` puts no worker at the loop head and takes none from there. -/
theorem count_head_wakeAll (l : List WorkerPc) :
    (wakeAll l).count .atLoopHead = l.count .atLoopHead := by
  unfold wakeAll
  induction l with
  | nil => rfl
  | cons c l ih =>
    simp only [List.map_cons, List.count_cons, ih]
    cases c <;> simp

/-- `notify_all` ends no worker. -/
theorem exited_mem_wakeAll (l : List WorkerPc) :
    WorkerPc.exited ∈ wakeAll l ↔ WorkerPc.exited ∈ l := by
  unfold wakeAll
  simp only [List.mem_map]
  constructor
  · rintro ⟨pc, hpc, h⟩
    by_cases e : pc = .waiting
    · rw [if_pos e] at h
      cases h
    · rw [if_neg e] at h
      exact h ▸ hpc
  · intro h
    exact ⟨.exited, h, by simp⟩

/-- After `notify_all` no worker is inside `cond.wait`. -/
theorem waiting_not_mem_wakeAll (l : List WorkerPc) : WorkerPc.waiting ∉ wakeAll l := by
  unfold wakeAll
  simp only [List.mem_map, not_exists, not_and]
  intro pc _ h
  by_cases e : pc = .waiting
  · rw [if_pos e] at h
    cases h
  · rw [if_neg e] at h
    exact e h

/-- `notify_all` does not raise the sum of the distances. -/
theorem distance_wakeAll (l : List WorkerPc) :
    ((wakeAll l).map WorkerPc.distance).sum ≤ (l.map WorkerPc.distance).sum := by
  unfold wakeAll
  induction l with
  | nil => simp
  | cons c l ih =>
    simp only [List.map_cons, List.sum_cons]
    have : (if c = WorkerPc.waiting then WorkerPc.locking else c).distance ≤ c.distance := by
      cases c <;> simp [WorkerPc.distance]
    omega

/-- Among workers of which none is blocked in `cond.wait` and none is over, one
moves by itself. -/
theorem active_of_no_waiting_no_exited (l : List WorkerPc) (hlen : 0 < l.length)
    (hw : WorkerPc.waiting ∉ l) (he : WorkerPc.exited ∉ l) :
    ∃ pc ∈ l, pc.isActive = true := by
  have hin : l[0] ∈ l := List.getElem_mem hlen
  refine ⟨l[0], hin, ?_⟩
  cases hpc : l[0] with
  | locking => rfl
  | atLoopHead => rfl
  | running task => rfl
  | waiting => rw [hpc] at hin; exact absurd hin hw
  | exited => rw [hpc] at hin; exact absurd hin he

/-- Every transition keeps the invariant. -/
theorem PoolInv_step {threadCount : Nat} {s s1 : Pool} {trace events : List PoolEvent}
    {a : PoolAction} (hinv : PoolInv threadCount s trace)
    (h : s.step a = some (s1, events)) : PoolInv threadCount s1 (trace ++ events) := by
  obtain ⟨hsize, hfifo, hclosed, hserved, hheld, hfree, hprog⟩ := hinv
  have hkeep : PoolEvent.closed ∈ trace → ∀ ev,
      enqueuedBeforeClose (trace ++ ev) = enqueuedBeforeClose trace :=
    fun hc ev => enqueuedBeforeClose_append_of_closed trace ev hc
  have hselfAct : ∀ (w : Nat) (b : WorkerPc), w < s.workers.length → b.isActive = true →
      ∃ pc ∈ s.workers.set w b, pc.isActive = true :=
    fun w b hw hb => ⟨b, List.mem_set _ _ hw _, hb⟩
  cases a with
  | addTask task =>
    simp only [Pool.step] at h
    split at h
    · cases h
    rename_i hm
    simp only [Option.some.injEq, Prod.mk.injEq] at h
    obtain ⟨rfl, rfl⟩ := h
    refine ⟨hsize, ?_, ?_, ?_, ?_, hfree, ?_⟩
    · rw [enqueuedTasks_append, dequeuedTasks_append, hfifo]
      simp [enqueuedTasks, dequeuedTasks]
    · simp only [hclosed, List.mem_append, List.mem_singleton, reduceCtorEq, or_false]
    · intro hex
      obtain ⟨hc, later, hl⟩ := hserved hex
      refine ⟨hc, later, ?_⟩
      rw [hkeep (hclosed.mp hc), dequeuedTasks_append, hl]
      simp [dequeuedTasks]
    · intro hm2
      simp only at hm2
      rw [hm2] at hm
      exact absurd rfl hm
    · intro _ _ _
      right
      simp only
      omega
  | close =>
    simp only [Pool.step] at h
    split at h
    · cases h
    rename_i hm
    simp only [Option.some.injEq, Prod.mk.injEq] at h
    obtain ⟨rfl, rfl⟩ := h
    refine ⟨hsize, ?_, ?_, ?_, ?_, hfree, hprog⟩
    · rw [enqueuedTasks_append, dequeuedTasks_append, hfifo]
      simp [enqueuedTasks, dequeuedTasks]
    · simp
    · intro hex
      obtain ⟨hc, later, hl⟩ := hserved hex
      refine ⟨rfl, later, ?_⟩
      rw [hkeep (hclosed.mp hc), dequeuedTasks_append, hl]
      simp [dequeuedTasks]
    · intro hm2
      simp only at hm2
      rw [hm2] at hm
      exact absurd rfl hm
  | notifyOne wake =>
    cases wake with
    | none =>
      simp only [Pool.step] at h
      split at h
      swap
      · cases h
      rename_i hen
      simp only [Option.some.injEq, Prod.mk.injEq] at h
      obtain ⟨rfl, rfl⟩ := h
      refine ⟨hsize, by simpa using hfifo, by simpa using hclosed, ?_, hheld, hfree, ?_⟩
      · intro hex
        simpa using hserved hex
      · intro hk _ hex
        left
        exact active_of_no_waiting_no_exited s.workers (by omega) hen.2 hex
    | some w =>
      simp only [Pool.step] at h
      split at h
      swap
      · cases h
      rename_i hen
      simp only [Option.some.injEq, Prod.mk.injEq] at h
      obtain ⟨rfl, rfl⟩ := h
      have hc : (s.workers.set w .locking).count .atLoopHead = s.workers.count .atLoopHead := by
        have := count_head_set s.workers w _ .locking hen.2
        simpa using this
      refine ⟨by simpa using hsize, by simpa using hfifo, by simpa using hclosed, ?_, ?_, ?_, ?_⟩
      · intro hex
        simpa using hserved (exited_of_mem_set hex (by simp))
      · intro hm2
        simp only at hm2 ⊢
        rw [hc]
        exact hheld hm2
      · intro hm2
        simp only at hm2 ⊢
        rw [hc]
        exact hfree hm2
      · intro _ _ _
        left
        exact hselfAct w .locking (lt_of_getElem?_eq_some hen.2) rfl
  | notifyAll =>
    simp only [Pool.step] at h
    split at h
    swap
    · cases h
    simp only [Option.some.injEq, Prod.mk.injEq] at h
    obtain ⟨rfl, rfl⟩ := h
    refine ⟨?_, by simpa using hfifo, by simpa using hclosed, ?_, ?_, ?_, ?_⟩
    · simp only [wakeAll, List.length_map]
      exact hsize
    · intro hex
      simpa using hserved ((exited_mem_wakeAll _).mp hex)
    · intro hm2
      simp only at hm2 ⊢
      rw [count_head_wakeAll]
      exact hheld hm2
    · intro hm2
      simp only at hm2 ⊢
      rw [count_head_wakeAll]
      exact hfree hm2
    · intro hk _ hex
      left
      exact active_of_no_waiting_no_exited _
        (by simp only [wakeAll, List.length_map]; omega) (waiting_not_mem_wakeAll _) hex
  | spuriousWake w =>
    simp only [Pool.step] at h
    split at h
    swap
    · cases h
    rename_i hen
    simp only [Option.some.injEq, Prod.mk.injEq] at h
    obtain ⟨rfl, rfl⟩ := h
    have hc : (s.workers.set w .locking).count .atLoopHead = s.workers.count .atLoopHead := by
      have := count_head_set s.workers w _ .locking hen
      simpa using this
    refine ⟨by simpa using hsize, by simpa using hfifo, by simpa using hclosed, ?_, ?_, ?_, ?_⟩
    · intro hex
      simpa using hserved (exited_of_mem_set hex (by simp))
    · intro hm2
      simp only at hm2 ⊢
      rw [hc]
      exact hheld hm2
    · intro hm2
      simp only at hm2 ⊢
      rw [hc]
      exact hfree hm2
    · intro _ _ _
      left
      exact hselfAct w .locking (lt_of_getElem?_eq_some hen) rfl
  | worker w =>
    simp only [Pool.step] at h
    rcases workerStep_cases h with ⟨hpc, hm, rfl, rfl⟩ | ⟨task, rest, hpc, ht, rfl, rfl⟩ |
      ⟨hpc, ht, hcl, rfl, rfl⟩ | ⟨hpc, ht, hcl, rfl, rfl⟩ | ⟨⟨task, hpc⟩, rfl, rfl⟩
    · have hc := count_head_set s.workers w _ .atLoopHead hpc
      have h0 := hfree hm
      simp only [reduceCtorEq, if_false, if_true] at hc
      refine ⟨by simpa using hsize, by simpa using hfifo, by simpa using hclosed, ?_, ?_, ?_, ?_⟩
      · intro hex
        simpa using hserved (exited_of_mem_set hex (by simp))
      · intro _
        simp only
        omega
      · intro hm2
        simp at hm2
      · intro _ _ _
        left
        exact hselfAct w .atLoopHead (lt_of_getElem?_eq_some hpc) rfl
    · have hc := count_head_set s.workers w _ (.running task) hpc
      have hmh : s.mtxHeld = true := by
        cases hm : s.mtxHeld with
        | true => rfl
        | false =>
          have h0 := hfree hm
          rw [List.count_eq_zero] at h0
          exact absurd (List.getElem?_mem hpc) h0
      have h1 := hheld hmh
      simp only [reduceCtorEq, if_false, if_true] at hc
      refine ⟨by simpa using hsize, ?_, by simpa using hclosed, ?_, ?_, ?_, ?_⟩
      · rw [enqueuedTasks_append, dequeuedTasks_append, hfifo, ht]
        simp [enqueuedTasks, dequeuedTasks]
      · intro hex
        obtain ⟨hc2, later, hl⟩ := hserved (exited_of_mem_set hex (by simp))
        refine ⟨hc2, later ++ [task], ?_⟩
        rw [hkeep (hclosed.mp hc2), dequeuedTasks_append, hl]
        simp [dequeuedTasks]
      · intro hm2
        simp at hm2
      · intro _
        simp only
        omega
      · intro _ _ _
        left
        exact hselfAct w (.running task) (lt_of_getElem?_eq_some hpc) rfl
    · have hc := count_head_set s.workers w _ .exited hpc
      have hmh : s.mtxHeld = true := by
        cases hm : s.mtxHeld with
        | true => rfl
        | false =>
          have h0 := hfree hm
          rw [List.count_eq_zero] at h0
          exact absurd (List.getElem?_mem hpc) h0
      have h1 := hheld hmh
      simp only [reduceCtorEq, if_false, if_true] at hc
      refine ⟨by simpa using hsize, ?_, ?_, ?_, ?_, ?_, ?_⟩
      · rw [enqueuedTasks_append, dequeuedTasks_append, hfifo]
        simp [enqueuedTasks, dequeuedTasks]
      · simp only [hclosed, List.mem_append, List.mem_singleton, reduceCtorEq, or_false]
      · intro _
        refine ⟨hcl, ?_⟩
        obtain ⟨rest, hr⟩ := enqueuedBeforeClose_initial trace
        refine ⟨rest, ?_⟩
        rw [hkeep (hclosed.mp hcl), dequeuedTasks_append]
        rw [ht, List.append_nil] at hfifo
        rw [← hfifo, hr]
        simp [dequeuedTasks]
      · intro hm2
        simp at hm2
      · intro _
        simp only
        omega
      · intro _ hne _
        exact absurd ht hne
    · have hc := count_head_set s.workers w _ .waiting hpc
      have hmh : s.mtxHeld = true := by
        cases hm : s.mtxHeld with
        | true => rfl
        | false =>
          have h0 := hfree hm
          rw [List.count_eq_zero] at h0
          exact absurd (List.getElem?_mem hpc) h0
      have h1 := hheld hmh
      simp only [reduceCtorEq, if_false, if_true] at hc
      refine ⟨by simpa using hsize, by simpa using hfifo, by simpa using hclosed, ?_, ?_, ?_, ?_⟩
      · intro hex
        simpa using hserved (exited_of_mem_set hex (by simp))
      · intro hm2
        simp at hm2
      · intro _
        simp only
        omega
      · intro _ hne _
        exact absurd ht hne
    · have hc : (s.workers.set w .locking).count .atLoopHead = s.workers.count .atLoopHead := by
        have := count_head_set s.workers w _ .locking hpc
        simpa using this
      refine ⟨by simpa using hsize, by simpa using hfifo, by simpa using hclosed, ?_, ?_, ?_, ?_⟩
      · intro hex
        simpa using hserved (exited_of_mem_set hex (by simp))
      · intro hm2
        simp only at hm2 ⊢
        rw [hc]
        exact hheld hm2
      · intro hm2
        simp only at hm2 ⊢
        rw [hc]
        exact hfree hm2
      · intro _ _ _
        left
        exact hselfAct w .locking (lt_of_getElem?_eq_some hpc) rfl

/-- The invariant holds at the start. -/
theorem PoolInv_init (threadCount : Nat) : PoolInv threadCount (Pool.init threadCount) [] := by
  refine ⟨by simp [Pool.init], rfl, by simp [Pool.init], ?_, by simp [Pool.init], ?_, ?_⟩
  · intro h
    simp only [Pool.init] at h
    rw [List.mem_replicate] at h
    exact absurd h.2 (by simp)
  · intro _
    simp only [Pool.init]
    rw [List.count_replicate]
    simp
  · intro _ h
    exact absurd rfl h

/-- The invariant holds wherever a run leads. -/
theorem PoolInv_run (threadCount : Nat) :
    ∀ (actions : List PoolAction) (s s1 : Pool) (trace trace1 : List PoolEvent),
      PoolInv threadCount s trace → Pool.run (s, trace) actions = some (s1, trace1) →
      PoolInv threadCount s1 trace1 := by
  intro actions
  induction actions with
  | nil =>
    intro s s1 trace trace1 hinv h
    simp only [Pool.run, Option.some.injEq, Prod.mk.injEq] at h
    obtain ⟨rfl, rfl⟩ := h
    exact hinv
  | cons a rest ih =>
    intro s s1 trace trace1 hinv h
    unfold Pool.run at h
    split at h
    · cases h
    · rename_i s2 events hstep
      exact ih s2 s1 _ trace1 (PoolInv_step hinv hstep) h

/-- While tasks are queued and no worker has left, the code of the pool can move: a
worker transition or a `notify_one` is enabled. -/
theorem pool_can_move {threadCount : Nat} {s : Pool} {trace : List PoolEvent}
    (hinv : PoolInv threadCount s trace) (hk : 0 < threadCount) (ht : s.tasks ≠ [])
    (hex : WorkerPc.exited ∉ s.workers) :
    ∃ a, a.isOwn = true ∧ ∃ s1 events, s.step a = some (s1, events) := by
  obtain ⟨hsize, _, _, _, hheld, hfree, hprog⟩ := hinv
  rcases hprog hk ht hex with ⟨pc, hmem, hact⟩ | hpending
  · cases hm : s.mtxHeld with
    | true =>
      have h1 := hheld hm
      have hhead : WorkerPc.atLoopHead ∈ s.workers := by
        rw [← List.count_pos_iff]
        omega
      obtain ⟨w, hw⟩ := List.mem_iff_getElem?.mp hhead
      refine ⟨.worker w, rfl, ?_⟩
      simp only [Pool.step]
      unfold Pool.workerStep
      rw [hw]
      cases htasks : s.tasks with
      | nil => exact absurd htasks ht
      | cons task rest => exact ⟨_, _, rfl⟩
    | false =>
      have h0 := hfree hm
      rw [List.count_eq_zero] at h0
      obtain ⟨w, hw⟩ := List.mem_iff_getElem?.mp hmem
      refine ⟨.worker w, rfl, ?_⟩
      simp only [Pool.step]
      unfold Pool.workerStep
      rw [hw]
      cases pc with
      | locking => simp only [hm]; exact ⟨_, _, rfl⟩
      | atLoopHead => exact absurd hmem h0
      | running task => exact ⟨_, _, rfl⟩
      | waiting => cases hact
      | exited => cases hact
  · by_cases hwait : WorkerPc.waiting ∈ s.workers
    · obtain ⟨w, hw⟩ := List.mem_iff_getElem?.mp hwait
      refine ⟨.notifyOne (some w), rfl, ?_⟩
      simp only [Pool.step]
      rw [if_pos ⟨hpending, hw⟩]
      exact ⟨_, _, rfl⟩
    · refine ⟨.notifyOne none, rfl, ?_⟩
      simp only [Pool.step]
      rw [if_pos ⟨hpending, hwait⟩]
      exact ⟨_, _, rfl⟩

/-- What a transition does to the queue: a worker takes the front task off and runs it,
`AddTask` puts a task at the back, and every other transition leaves the queue as it
is. While tasks are queued, a transition of this last kind, other than the critical
section of the destructor, lowers `Pool.distance`. -/
theorem step_queue {s s1 : Pool} {a : PoolAction} {events : List PoolEvent}
    (h : s.step a = some (s1, events)) :
    (∃ w task, a = .worker w ∧ s.tasks = task :: s1.tasks ∧ events = [.dequeued w task] ∧
      s1.workers[w]? = some (.running task)) ∨
    (∃ task, a = .addTask task ∧ s1.tasks = s.tasks ++ [task] ∧ events = [.enqueued task]) ∨
    (s1.tasks = s.tasks ∧ dequeuedTasks events = [] ∧ enqueuedTasks events = [] ∧
      (a.isCall = false → s.tasks ≠ [] → s1.distance < s.distance)) := by
  cases a with
  | addTask task =>
    simp only [Pool.step] at h
    split at h
    · cases h
    simp only [Option.some.injEq, Prod.mk.injEq] at h
    obtain ⟨rfl, rfl⟩ := h
    exact Or.inr (Or.inl ⟨task, rfl, rfl, rfl⟩)
  | close =>
    simp only [Pool.step] at h
    split at h
    · cases h
    simp only [Option.some.injEq, Prod.mk.injEq] at h
    obtain ⟨rfl, rfl⟩ := h
    exact Or.inr (Or.inr ⟨rfl, rfl, rfl, fun hc => by cases hc⟩)
  | notifyOne wake =>
    cases wake with
    | none =>
      simp only [Pool.step] at h
      split at h
      swap
      · cases h
      rename_i hen
      simp only [Option.some.injEq, Prod.mk.injEq] at h
      obtain ⟨rfl, rfl⟩ := h
      refine Or.inr (Or.inr ⟨rfl, rfl, rfl, fun _ _ => ?_⟩)
      simp only [Pool.distance]
      omega
    | some w =>
      simp only [Pool.step] at h
      split at h
      swap
      · cases h
      rename_i hen
      simp only [Option.some.injEq, Prod.mk.injEq] at h
      obtain ⟨rfl, rfl⟩ := h
      refine Or.inr (Or.inr ⟨rfl, rfl, rfl, fun _ _ => ?_⟩)
      have := distance_set s.workers w _ .locking hen.2
      simp only [WorkerPc.distance] at this
      simp only [Pool.distance]
      omega
  | notifyAll =>
    simp only [Pool.step] at h
    split at h
    swap
    · cases h
    rename_i hen
    simp only [Option.some.injEq, Prod.mk.injEq] at h
    obtain ⟨rfl, rfl⟩ := h
    refine Or.inr (Or.inr ⟨rfl, rfl, rfl, fun _ _ => ?_⟩)
    have := distance_wakeAll s.workers
    simp only [Pool.distance]
    omega
  | spuriousWake w =>
    simp only [Pool.step] at h
    split at h
    swap
    · cases h
    rename_i hen
    simp only [Option.some.injEq, Prod.mk.injEq] at h
    obtain ⟨rfl, rfl⟩ := h
    refine Or.inr (Or.inr ⟨rfl, rfl, rfl, fun _ _ => ?_⟩)
    have := distance_set s.workers w _ .locking hen
    simp only [WorkerPc.distance] at this
    simp only [Pool.distance]
    omega
  | worker w =>
    simp only [Pool.step] at h
    rcases workerStep_cases h with ⟨hpc, hm, rfl, rfl⟩ | ⟨task, rest, hpc, ht, rfl, rfl⟩ |
      ⟨hpc, ht, hcl, rfl, rfl⟩ | ⟨hpc, ht, hcl, rfl, rfl⟩ | ⟨⟨task, hpc⟩, rfl, rfl⟩
    · refine Or.inr (Or.inr ⟨rfl, rfl, rfl, fun _ _ => ?_⟩)
      have := distance_set s.workers w _ .atLoopHead hpc
      simp only [WorkerPc.distance] at this
      simp only [Pool.distance]
      omega
    · exact Or.inl ⟨w, task, rfl, ht, rfl,
        List.getElem?_set_self (lt_of_getElem?_eq_some hpc)⟩
    · exact Or.inr (Or.inr ⟨rfl, rfl, rfl, fun _ hne => absurd ht hne⟩)
    · exact Or.inr (Or.inr ⟨rfl, rfl, rfl, fun _ hne => absurd ht hne⟩)
    · refine Or.inr (Or.inr ⟨rfl, rfl, rfl, fun _ _ => ?_⟩)
      have := distance_set s.workers w _ .locking hpc
      simp only [WorkerPc.distance] at this
      simp only [Pool.distance]
      omega

/-- Waking a worker does not end it. -/
theorem wake_not_exited {l : List WorkerPc} {w v : Nat}
    (h : (l.set w .locking)[v]? = some .exited) : l[v]? = some .exited := by
  rw [List.getElem?_set] at h
  split at h
  · split at h <;> cases h
  · exact h

/-- A worker leaves its loop only in its own transition from the loop head, and only when
the queue is empty and the pool is closed. -/
theorem step_exit {s s1 : Pool} {a : PoolAction} {events : List PoolEvent}
    (h : s.step a = some (s1, events)) (v : Nat)
    (hex : (s.workers[v]? ≠ some .exited ∧ s1.workers[v]? = some .exited) ∨
      PoolEvent.left v ∈ events) :
    s.tasks = [] ∧ s.isClosed = true ∧ s.workers[v]? = some .atLoopHead ∧
      a = .worker v ∧ events = [.left v] := by
  cases a with
  | addTask task =>
    simp only [Pool.step] at h
    split at h
    · cases h
    simp only [Option.some.injEq, Prod.mk.injEq] at h
    obtain ⟨rfl, rfl⟩ := h
    rcases hex with ⟨h1, h2⟩ | h1
    · exact absurd h2 h1
    · simp at h1
  | close =>
    simp only [Pool.step] at h
    split at h
    · cases h
    simp only [Option.some.injEq, Prod.mk.injEq] at h
    obtain ⟨rfl, rfl⟩ := h
    rcases hex with ⟨h1, h2⟩ | h1
    · exact absurd h2 h1
    · simp at h1
  | notifyOne wake =>
    cases wake with
    | none =>
      simp only [Pool.step] at h
      split at h
      swap
      · cases h
      simp only [Option.some.injEq, Prod.mk.injEq] at h
      obtain ⟨rfl, rfl⟩ := h
      rcases hex with ⟨h1, h2⟩ | h1
      · exact absurd h2 h1
      · simp at h1
    | some w =>
      simp only [Pool.step] at h
      split at h
      swap
      · cases h
      simp only [Option.some.injEq, Prod.mk.injEq] at h
      obtain ⟨rfl, rfl⟩ := h
      rcases hex with ⟨h1, h2⟩ | h1
      · exact absurd (wake_not_exited h2) h1
      · simp at h1
  | notifyAll =>
    simp only [Pool.step] at h
    split at h
    swap
    · cases h
    simp only [Option.some.injEq, Prod.mk.injEq] at h
    obtain ⟨rfl, rfl⟩ := h
    rcases hex with ⟨h1, h2⟩ | h1
    · exfalso
      apply h1
      simp only [wakeAll, List.getElem?_map, Option.map_eq_some'] at h2
      obtain ⟨pc, hpc, h3⟩ := h2
      by_cases e : pc = .waiting
      · rw [if_pos e] at h3
        cases h3
      · rw [if_neg e] at h3
        rw [hpc, h3]
    · simp at h1
  | spuriousWake w =>
    simp only [Pool.step] at h
    split at h
    swap
    · cases h
    simp only [Option.some.injEq, Prod.mk.injEq] at h
    obtain ⟨rfl, rfl⟩ := h
    rcases hex with ⟨h1, h2⟩ | h1
    · exact absurd (wake_not_exited h2) h1
    · simp at h1
  | worker w =>
    simp only [Pool.step] at h
    have hother : ∀ b : WorkerPc, b ≠ .exited → s.workers[v]? ≠ some .exited →
        (s.workers.set w b)[v]? ≠ some .exited := by
      intro b hb h1 h2
      rw [List.getElem?_set] at h2
      split at h2
      · split at h2
        · exact hb (Option.some.inj h2)
        · cases h2
      · exact h1 h2
    rcases workerStep_cases h with ⟨hpc, hm, rfl, rfl⟩ | ⟨task, rest, hpc, ht, rfl, rfl⟩ |
      ⟨hpc, ht, hcl, rfl, rfl⟩ | ⟨hpc, ht, hcl, rfl, rfl⟩ | ⟨⟨task, hpc⟩, rfl, rfl⟩
    · rcases hex with ⟨h1, h2⟩ | h1
      · exact absurd h2 (hother _ (by simp) h1)
      · simp at h1
    · rcases hex with ⟨h1, h2⟩ | h1
      · exact absurd h2 (hother _ (by simp) h1)
      · simp at h1
    · have hv : v = w := by
        rcases hex with ⟨h1, h2⟩ | h1
        · by_contra hne
          simp only at h2
          rw [List.getElem?_set_ne (fun e => hne e.symm)] at h2
          exact h1 h2
        · simpa using h1
      subst hv
      exact ⟨ht, hcl, hpc, rfl, rfl⟩
    · rcases hex with ⟨h1, h2⟩ | h1
      · exact absurd h2 (hother _ (by simp) h1)
      · simp at h1
    · rcases hex with ⟨h1, h2⟩ | h1
      · exact absurd h2 (hother _ (by simp) h1)
      · simp at h1

/-! ## The claim on the thread pool -/

/-- C23. A worker never exits while tasks are queued. In every state that the pool
reaches from its construction with at least one worker, by any interleaving of worker
transitions, critical sections and notifications of `AddTask` and of the destructor, and
wake-ups without notification:
a worker leaves its loop only in its own transition from the loop head, and only when
the queue is empty and `isClosed` is true;
a transition takes the front task off the queue, the worker then running it, or puts a
task at the back in `AddTask`, or leaves the queue as it is;
the tasks enqueued so far are, in order, the tasks dequeued so far followed by the queue,
so tasks are dequeued oldest first and, when they are pairwise distinct, none is
dequeued twice and none that was dequeued is still queued;
once a worker has left, every task enqueued before the close has been dequeued, and as
long as one of them has not, no worker has left and the queue is not empty;
while the queue is not empty and no worker has left, a worker transition or a
`notify_one` is enabled, and every transition that neither dequeues nor is a critical
section of `AddTask` or of the destructor then lowers `Pool.distance`, the sum of the
distances of the workers from the loop head and of the notifications still to be
made. -/
theorem worker_never_exits_while_tasks_are_queued (threadCount : Nat)
    (actions : List PoolAction) (s : Pool) (trace : List PoolEvent) (hk : 0 < threadCount)
    (hrun : Pool.run (Pool.init threadCount, []) actions = some (s, trace)) :
    (∀ a s1 events v, s.step a = some (s1, events) →
      (s.workers[v]? ≠ some .exited ∧ s1.workers[v]? = some .exited) ∨
        PoolEvent.left v ∈ events →
      s.tasks = [] ∧ s.isClosed = true ∧ s.workers[v]? = some .atLoopHead ∧
        a = .worker v ∧ events = [.left v]) ∧
    (∀ a s1 events, s.step a = some (s1, events) →
      (∃ w task, a = .worker w ∧ s.tasks = task :: s1.tasks ∧
        events = [.dequeued w task] ∧ s1.workers[w]? = some (.running task)) ∨
      (∃ task, a = .addTask task ∧ s1.tasks = s.tasks ++ [task] ∧
        events = [.enqueued task]) ∨
      (s1.tasks = s.tasks ∧ dequeuedTasks events = [] ∧ enqueuedTasks events = [] ∧
        (a.isCall = false → s.tasks ≠ [] → s1.distance < s.distance))) ∧
    enqueuedTasks trace = dequeuedTasks trace ++ s.tasks ∧
    ((enqueuedTasks trace).Nodup →
      (dequeuedTasks trace).Nodup ∧ ∀ task ∈ dequeuedTasks trace, task ∉ s.tasks) ∧
    (WorkerPc.exited ∈ s.workers →
      s.isClosed = true ∧ ∃ later, dequeuedTasks trace = enqueuedBeforeClose trace ++ later) ∧
    ((dequeuedTasks trace).length < (enqueuedBeforeClose trace).length →
      WorkerPc.exited ∉ s.workers ∧ s.tasks ≠ []) ∧
    (s.tasks ≠ [] → WorkerPc.exited ∉ s.workers →
      ∃ a, a.isOwn = true ∧ ∃ s1 events, s.step a = some (s1, events)) := by
  have hinv := PoolInv_run threadCount actions _ s [] trace (PoolInv_init threadCount) hrun
  have hfifo := hinv.2.1
  have hserved := hinv.2.2.2.1
  refine ⟨?_, ?_, hfifo, ?_, hserved, ?_, ?_⟩
  · intro a s1 events v h hex
    exact step_exit h v hex
  · intro a s1 events h
    exact step_queue h
  · intro hnd
    rw [hfifo, List.nodup_append] at hnd
    exact ⟨hnd.1, fun task h1 h2 => hnd.2.2 h1 h2⟩
  · intro hlt
    constructor
    · intro hex
      obtain ⟨later, hl⟩ := (hserved hex).2
      rw [hl, List.length_append] at hlt
      omega
    · intro hemp
      obtain ⟨rest, hr⟩ := enqueuedBeforeClose_initial trace
      rw [hemp, List.append_nil] at hfifo
      rw [← hfifo, hr, List.length_append] at hlt
      omega
  · intro ht hex
    exact pool_can_move hinv hk ht hex

/-- C23 on a pool of two workers: tasks 7 and 8 are enqueued and notified, worker 0
takes 7 and worker 1 takes 8, the pool is closed, worker 0 finishes, finds the queue
empty and the pool closed, and leaves. Both tasks enqueued before the close were
dequeued before it left. -/
theorem worker_never_exits_while_tasks_are_queued_witness :
    0 < 2 ∧
    Pool.run (Pool.init 2, [])
        [.addTask 7, .notifyOne none, .addTask 8, .worker 0, .worker 0, .notifyOne none,
          .worker 1, .worker 1, .close, .worker 0, .worker 0, .worker 0, .notifyAll] =
      some ({ mtxHeld := false, isClosed := true, tasks := [],
              workers := [.exited, .running 8], toNotifyOne := 0, toNotifyAll := 0 },
        [.enqueued 7, .enqueued 8, .dequeued 0 7, .dequeued 1 8, .closed, .left 0]) ∧
    ∃ later,
      dequeuedTasks [.enqueued 7, .enqueued 8, .dequeued 0 7, .dequeued 1 8, .closed, .left 0] =
        enqueuedBeforeClose
          [.enqueued 7, .enqueued 8, .dequeued 0 7, .dequeued 1 8, .closed, .left 0] ++ later :=
  ⟨by decide, by decide,
    ((worker_never_exits_while_tasks_are_queued 2
      [.addTask 7, .notifyOne none, .addTask 8, .worker 0, .worker 0, .notifyOne none,
        .worker 1, .worker 1, .close, .worker 0, .worker 0, .worker 0, .notifyAll]
      { mtxHeld := false, isClosed := true, tasks := [], workers := [.exited, .running 8],
        toNotifyOne := 0, toNotifyAll := 0 }
      [.enqueued 7, .enqueued 8, .dequeued 0 7, .dequeued 1 8, .closed, .left 0]
      (by decide) (by decide)).2.2.2.2.1 (by decide)).2⟩

/-! ## Lemmas on the order of `tick` -/

/-- No id occurs at two positions of a heap whose side index is consistent. -/
theorem ids_nodup_of_refConsistent (t : HeapTimer) (hc : refConsistent t) :
    (t.heap_.map (·.id)).Nodup := by
  rw [List.nodup_iff_getElem?_ne_getElem?]
  intro i j hij hj
  simp only [List.length_map] at hj
  have hi : i < t.heap_.length := by omega
  simp only [List.getElem?_map, List.getElem?_eq_getElem hi, List.getElem?_eq_getElem hj,
    Option.map_some', ne_eq, Option.some.injEq]
  intro e
  have h1 : t.ref_ t.heap_[i].id = some i :=
    (hc _ _).mpr ⟨_, List.getElem?_eq_getElem hi, rfl⟩
  have h2 : t.ref_ t.heap_[i].id = some j :=
    (hc _ _).mpr ⟨_, List.getElem?_eq_getElem hj, e.symm⟩
  rw [h1] at h2
  cases h2
  omega

/-- Whenever the loop of `tick` returns, on an ordered and consistently indexed heap and
with any clock: the callbacks were invoked in the order of their deadlines, the fired
nodes together with the remaining ones are the original nodes, and the remaining heap is
ordered and consistently indexed. -/
theorem tickLoop_order (clock : Nat → Int) :
    ∀ (fuel : Nat) (t t1 : HeapTimer) (k0 k : Nat) (fired0 fired : List TimerNode),
      heapOrdered t → refConsistent t → t.heap_.length < 2 ^ 63 →
      tickLoop fuel t clock k0 fired0 = .ok (t1, fired, k) →
      ∃ new, fired = fired0 ++ new ∧ (new ++ t1.heap_).Perm t.heap_ ∧
        new.Pairwise (fun a b => a.expires ≤ b.expires) ∧
        heapOrdered t1 ∧ refConsistent t1 := by
  intro fuel
  induction fuel with
  | zero => intro t t1 k0 k fired0 fired _ _ _ h; simp [tickLoop] at h
  | succ fuel ih =>
    intro t t1 k0 k fired0 fired hord hc hsz h
    unfold tickLoop at h
    split at h
    · simp only [Except.ok.injEq, Prod.mk.injEq] at h
      obtain ⟨rfl, rfl, rfl⟩ := h
      exact ⟨[], by simp, by simp, List.Pairwise.nil, hord, hc⟩
    · rename_i node hhead
      split at h
      · simp only [Except.ok.injEq, Prod.mk.injEq] at h
        obtain ⟨rfl, rfl, rfl⟩ := h
        exact ⟨[], by simp, by simp, List.Pairwise.nil, hord, hc⟩
      · split at h
        swap
        · cases h
        rename_i t2 hpop
        unfold pop at hpop
        split at hpop
        · cases hpop
        obtain ⟨r, hr, hperm, hord2⟩ := del__root_spec t t2 hord hsz hpop
        have hc2 := del__keeps_index t t2 0 hc hpop
        rw [hhead] at hr
        cases hr
        have hlen : t2.heap_.length < 2 ^ 63 := by
          have := hperm.length_eq
          simp only [List.length_cons] at this
          omega
        obtain ⟨new, h1, h2, h3, h4, h5⟩ := ih t2 t1 _ k _ fired hord2 hc2 hlen h
        refine ⟨node :: new, by rw [h1]; simp, (h2.cons node).trans hperm, ?_, h4, h5⟩
        rw [List.pairwise_cons]
        refine ⟨?_, h3⟩
        intro nd hnd
        have hmem : nd ∈ t.heap_ :=
          hperm.subset (List.mem_cons_of_mem _ (h2.subset (List.mem_append_left _ hnd)))
        exact rootIsMin_of_heapOrdered t hord node (Option.mem_def.mpr hhead) nd hmem

/-- Whenever `tick()` returns, on an ordered and consistently indexed heap and with any
clock: the callbacks were invoked in the order of their deadlines, every fired node was
a node of the heap and was fired once, and it is in neither the heap nor the side index
afterwards. -/
theorem tick_order_when_it_returns (t t1 : HeapTimer) (clock : Nat → Int)
    (fired : List TimerNode) (k : Nat)
    (hord : heapOrdered t) (hc : refConsistent t) (hsz : t.heap_.length < 2 ^ 63)
    (hrun : tick t clock = .ok (t1, fired, k)) :
    fired.Pairwise (fun a b => a.expires ≤ b.expires) ∧
      (fired ++ t1.heap_).Perm t.heap_ ∧ (fired.map (·.id)).Nodup ∧
      (∀ nd ∈ fired, t1.ref_ nd.id = none ∧ ∀ x ∈ t1.heap_, x.id ≠ nd.id) ∧
      heapOrdered t1 ∧ refConsistent t1 := by
  obtain ⟨new, h1, h2, h3, h4, h5⟩ := tickLoop_order clock _ t t1 0 k [] fired hord hc hsz hrun
  simp only [List.nil_append] at h1
  subst h1
  have hnd : ((fired ++ t1.heap_).map (·.id)).Nodup :=
    ((h2.map (·.id)).nodup_iff).mpr (ids_nodup_of_refConsistent t hc)
  rw [List.map_append, List.nodup_append] at hnd
  obtain ⟨hn1, _, hdis⟩ := hnd
  have habs : ∀ nd ∈ fired, ∀ x ∈ t1.heap_, x.id ≠ nd.id := by
    intro nd hnd x hx e
    exact hdis (List.mem_map_of_mem (·.id) hnd) (e ▸ List.mem_map_of_mem (·.id) hx)
  refine ⟨h3, h2, hn1, ?_, h4, h5⟩
  intro nd hnd
  refine ⟨?_, habs nd hnd⟩
  cases hr : t1.ref_ nd.id with
  | none => rfl
  | some i =>
    obtain ⟨x, hx, hid⟩ := (h5 _ _).mp hr
    exact absurd hid (habs nd hnd x (List.getElem?_mem hx))

/-! ## The claims on `siftup_`, `EnsureWriteable` and the order of `tick` -/

/-- C24. The positions that `siftup_` reads, with the node at the root. For every heap
of at least one and fewer than `2^63` nodes, `siftup_(0)` computes the parent position
`(0 - 1) / 2 = 2^63 - 1`, which is not below `heap_.size()`, and reads `heap_` there:
the call reads outside the heap and does not stop at position 0. The same happens in
`siftup_(1)` when the node at position 1 is not after the root: it is swapped to
position 0 and the next round reads `heap_[2^63 - 1]`. -/
theorem siftup__reads_outside_heap_at_root (t : HeapTimer) (h0 : 0 < t.heap_.length)
    (hsz : t.heap_.length < 2 ^ 63) :
    parentIdx 0 = 2 ^ 63 - 1 ∧ t.heap_.length ≤ parentIdx 0 ∧
    t.heap_[parentIdx 0]? = none ∧ siftup_ t 0 = .error .outOfRange ∧
    (∀ a b, t.heap_[0]? = some a → t.heap_[1]? = some b → ¬ a.expires < b.expires →
      siftup_ t 1 = .error .outOfRange) := by
  have hp : parentIdx 0 = 2 ^ 63 - 1 := by decide
  have hnone : t.heap_[parentIdx 0]? = none := by
    rw [hp]
    exact List.getElem?_eq_none (by omega)
  refine ⟨hp, by rw [hp]; omega, hnone, siftup__root t h0 hsz, ?_⟩
  intro a b ha hb hlt
  have h1 : 1 < t.heap_.length := by
    by_contra hcon
    rw [List.getElem?_eq_none (by omega)] at hb
    cases hb
  have hp1 : parentIdx 1 = 0 := by decide
  unfold siftup_
  rw [if_pos h1, hp1]
  unfold siftupLoop
  simp only [ha, hb, TimerNode.lt, decide_eq_true_eq, hlt, if_false]
  unfold SwapNode_
  simp only [ha, hb]
  cases hl : t.heap_.length with
  | zero => omega
  | succ n =>
    unfold siftupLoop
    have : ((t.heap_.set 1 a).set 0 b)[parentIdx 0]? = none := by
      rw [hp]
      exact List.getElem?_eq_none (by simp only [List.length_set]; omega)
    simp only [this]

/-- C24 at the heap `[(1, 10 ms)]`, the vector on which `add` calls `siftup_(0)` after
appending the first node, and at `[(1, 20 ms), (2, 10 ms)]` with the later node at the
root. -/
theorem siftup__reads_outside_heap_at_root_witness :
    0 < (HeapTimer.ofList [⟨1, 10000000, 0⟩]).heap_.length ∧
    (HeapTimer.ofList [⟨1, 10000000, 0⟩]).heap_.length < 2 ^ 63 ∧
    siftup_ (HeapTimer.ofList [⟨1, 10000000, 0⟩]) 0 = .error .outOfRange ∧
    siftup_ (HeapTimer.ofList [⟨1, 20000000, 0⟩, ⟨2, 10000000, 0⟩]) 1 = .error .outOfRange :=
  ⟨by decide, by decide,
    (siftup__reads_outside_heap_at_root (HeapTimer.ofList [⟨1, 10000000, 0⟩])
      (by decide) (by decide)).2.2.2.1,
    (siftup__reads_outside_heap_at_root
      (HeapTimer.ofList [⟨1, 20000000, 0⟩, ⟨2, 10000000, 0⟩]) (by decide) (by decide)).2.2.2.2
      ⟨1, 20000000, 0⟩ ⟨2, 10000000, 0⟩ rfl rfl (by decide)⟩

/-- C25, the claim as stated fails. On the full buffer of capacity 4, `EnsureWriteable`
with `len = 2^63` finds no room, `MakeSpace_` takes the resize branch and asks
`resize` for `4 + 2^63 + 1` elements, more than `max_size() = 2^63 - 1`: the call throws
`std::length_error` and no space is delivered. With `len = 2^64 - 1` the sum `len + 1`
is 0 on `size_t`, `MakeSpace_` takes the compaction branch, which makes no room, and the
assertion at the end of `EnsureWriteable` fails. -/
theorem EnsureWriteable_cannot_deliver_beyond_max_size :
    (Buffer.mk [1, 2, 3, 4] 0 4).cursorsOk ∧
    SizeT.EnsureWriteable (Buffer.mk [1, 2, 3, 4] 0 4) 9223372036854775808 =
      .error .lengthError ∧
    SizeT.EnsureWriteable (Buffer.mk [1, 2, 3, 4] 0 4) 18446744073709551615 =
      .error .assertFailed :=
  ⟨⟨by decide, by decide⟩, rfl, rfl⟩

/-- C25, amended. `EnsureWriteable` delivers the space it promises wherever a vector can
hold it: for every buffer whose cursors are in order and every `len` with
`writePos_ + len + 1` at most `max_size()`, `EnsureWriteable(len)` returns (no assert
fails, `resize` is asked for no more than `max_size()`), afterwards
`WritableBytes() >= len`, `ReadableBytes()` and the bytes of the readable region are what
they were, the cursors are in order and the vector is no larger than `max_size()`. The
call leaves the buffer as it is when `len` fits behind the write cursor, moves the
readable bytes to offset 0 when `len + 1 <= WritableBytes() + PrependableBytes()`, and
otherwise resizes the vector to `writePos_ + len + 1`. All quantities are computed on
`size_t` as in the source. -/
theorem EnsureWriteable_delivers_within_max_size (b : Buffer) (len : Nat) (h : b.cursorsOk)
    (hsz : b.buffer_.length ≤ VECTOR_MAX_SIZE)
    (hfit : b.writePos_ + len + 1 ≤ VECTOR_MAX_SIZE) :
    (∃ b1, SizeT.EnsureWriteable b len = .ok b1 ∧ len ≤ SizeT.WritableBytes b1 ∧
      SizeT.ReadableBytes b1 = SizeT.ReadableBytes b ∧ b1.Peek = b.Peek ∧ b1.cursorsOk ∧
      b1.buffer_.length ≤ VECTOR_MAX_SIZE) ∧
    (len ≤ SizeT.WritableBytes b → SizeT.EnsureWriteable b len = .ok b) ∧
    (SizeT.WritableBytes b < len →
      sizeAdd len 1 ≤ sizeAdd (SizeT.WritableBytes b) b.PrependableBytes →
      SizeT.EnsureWriteable b len =
        .ok { buffer_ := copyInto b.buffer_ 0 b.Peek, readPos_ := 0,
              writePos_ := SizeT.ReadableBytes b }) ∧
    (SizeT.WritableBytes b < len →
      sizeAdd (SizeT.WritableBytes b) b.PrependableBytes < sizeAdd len 1 →
      SizeT.EnsureWriteable b len =
        .ok { b with buffer_ := vectorResize b.buffer_ (b.writePos_ + len + 1) }) := by
  obtain ⟨heq, hW, hR⟩ := sizeT_EnsureWriteable_eq b len h hsz hfit
  obtain ⟨b1, he, hok, hw, hpeek, hread, hcap⟩ := EnsureWriteable_spec b len h
  have hV : VECTOR_MAX_SIZE = 9223372036854775807 := rfl
  have hS : SIZE_T_MOD = 18446744073709551616 := rfl
  have hrw := h.1
  have hws := h.2
  have hlen1 : b1.buffer_.length ≤ VECTOR_MAX_SIZE := by
    rcases hcap with hc | ⟨_, hc⟩ <;> omega
  have hW1 : SizeT.WritableBytes b1 = b1.WritableBytes :=
    sizeSub_eq _ _ hok.2 (by omega)
  have hR1 : SizeT.ReadableBytes b1 = b1.ReadableBytes :=
    sizeSub_eq _ _ hok.1 (by have := hok.2; omega)
  have hsum : sizeAdd b.WritableBytes b.PrependableBytes =
      b.WritableBytes + b.PrependableBytes := by
    apply sizeAdd_eq
    simp only [Buffer.WritableBytes, Buffer.PrependableBytes]
    omega
  have hl1 : sizeAdd len 1 = len + 1 := sizeAdd_eq _ _ (by omega)
  rw [heq, hW, hR, hsum, hl1]
  refine ⟨⟨b1, he, by rw [hW1]; exact hw, by rw [hR1]; exact hread, hpeek, hok, hlen1⟩,
    EnsureWriteable_fits b len, ?_, ?_⟩
  · intro h1 h2
    exact EnsureWriteable_compacts b len h h1 h2
  · intro h1 h2
    exact EnsureWriteable_grows b len h1 h2

/-- C25, amended, at the buffer of capacity 6 holding `[3, 4]` at offsets 2 and 3:
asking for 2 bytes changes nothing, asking for 3 bytes moves the two bytes to offset 0,
asking for 5 bytes resizes the vector to 4 + 5 + 1. -/
theorem EnsureWriteable_delivers_within_max_size_witness :
    (Buffer.mk [1, 2, 3, 4, 0, 0] 2 4).cursorsOk ∧
    (Buffer.mk [1, 2, 3, 4, 0, 0] 2 4).buffer_.length ≤ VECTOR_MAX_SIZE ∧
    (Buffer.mk [1, 2, 3, 4, 0, 0] 2 4).writePos_ + 5 + 1 ≤ VECTOR_MAX_SIZE ∧
    SizeT.EnsureWriteable (Buffer.mk [1, 2, 3, 4, 0, 0] 2 4) 2 =
      .ok (Buffer.mk [1, 2, 3, 4, 0, 0] 2 4) ∧
    SizeT.EnsureWriteable (Buffer.mk [1, 2, 3, 4, 0, 0] 2 4) 3 =
      .ok (Buffer.mk [3, 4, 3, 4, 0, 0] 0 2) ∧
    SizeT.EnsureWriteable (Buffer.mk [1, 2, 3, 4, 0, 0] 2 4) 5 =
      .ok (Buffer.mk [1, 2, 3, 4, 0, 0, 0, 0, 0, 0] 2 4) ∧
    ∃ b1, SizeT.EnsureWriteable (Buffer.mk [1, 2, 3, 4, 0, 0] 2 4) 5 = .ok b1 ∧
      5 ≤ SizeT.WritableBytes b1 ∧
      SizeT.ReadableBytes b1 = SizeT.ReadableBytes (Buffer.mk [1, 2, 3, 4, 0, 0] 2 4) ∧
      b1.Peek = (Buffer.mk [1, 2, 3, 4, 0, 0] 2 4).Peek ∧ b1.cursorsOk ∧
      b1.buffer_.length ≤ VECTOR_MAX_SIZE :=
  ⟨⟨by decide, by decide⟩, by decide, by decide, rfl, rfl, rfl,
    (EnsureWriteable_delivers_within_max_size (Buffer.mk [1, 2, 3, 4, 0, 0] 2 4) 5
      ⟨by decide, by decide⟩ (by decide) (by decide)).1⟩

/-- C26. `tick()` on the ordered, consistently indexed heap `[(1, 10 ms), (2, 20 ms)]`
at clock reading 30 ms, both nodes being due: the callback of node 1 is invoked, `pop()`
swaps the two nodes, `siftdown_(0, 1)` does not move and `siftup_(0)` reads
`heap_[(0 - 1) / 2]` outside the vector. The callback of node 2 is not reached and no
heap or side index results. With node 1 alone `tick()` fires it and returns. -/
theorem tick_reads_outside_heap_with_two_nodes_due :
    refConsistent (HeapTimer.ofList [⟨1, 10000000, 0⟩, ⟨2, 20000000, 0⟩]) ∧
    heapOrdered (HeapTimer.ofList [⟨1, 10000000, 0⟩, ⟨2, 20000000, 0⟩]) ∧
    tick (HeapTimer.ofList [⟨1, 10000000, 0⟩, ⟨2, 20000000, 0⟩]) (fun _ => 30000000) =
      .error .outOfRange ∧
    pop (HeapTimer.ofList [⟨1, 10000000, 0⟩, ⟨2, 20000000, 0⟩]) = .error .outOfRange ∧
    ∃ t1, tick (HeapTimer.ofList [⟨1, 10000000, 0⟩]) (fun _ => 30000000) =
        .ok (t1, [⟨1, 10000000, 0⟩], 1) ∧ t1.heap_ = [] :=
  ⟨refConsistent_ofList _ (by decide), by decide, rfl, rfl, _, rfl, rfl⟩

end Webserver
